import Mathlib

/-!
# SimpleVector and ArrayPtr

A shallow embedding of `simple_vector.h` and `array_ptr.h`.

The C++ objects live in memory, so the embedding passes the heap explicitly:

* `Heap T` holds the arrays created by `new Type[n]()`; an address is a position
  in `Heap.cells`, a freed array is `none`.
* a raw pointer `Type*` is `Ptr` (`none` is `nullptr`), an iterator is a pointer
  to an array plus an offset (`Iter`), a reference `const Type&` / `Type&&` is a
  `Ref` (an object outside the heap arrays, or a slot of a heap array).
* every member function takes the heap and the object and returns the new heap
  and the new object; the result is `none` where the C++ program has undefined
  behaviour (null or dangling dereference, access outside the array, double
  free).

`size_t` values are natural numbers: a live array never has `2^63` or more
elements, so `capacity_ * 2` does not wrap; `--size_` on an empty vector is the
one place where wrapping is reachable and is modelled explicitly.  Allocation
never fails (no `std::bad_alloc`).  Moving an element is modelled as copying
it (the moved-from slot keeps its value), as it is for trivially movable types.
-/

namespace SimpleVectorModel

/-! ## Memory -/

/-- Raw pointer to the first element of a heap array; `none` is `nullptr`. -/
abbrev Ptr := Option Nat

/-- The heap: the arrays allocated so far, by address. A freed array is `none`. -/
structure Heap (T : Type) where
  cells : List (Option (List T))
deriving DecidableEq

/-- Iterator `Type*` into an array: the array and the offset in it. -/
structure Iter where
  base : Ptr
  off : Nat
deriving DecidableEq

/-- Reference `const Type&` or `Type&&`: to an object that is not part of a heap
array, or to slot `i` of the heap array at address `a`. -/
inductive Ref (T : Type) where
  | obj (x : T)
  | elem (a : Nat) (i : Nat)
deriving DecidableEq

/-- The second operand of an assignment operator: the object itself
(`this == &rhs`) or a distinct object. -/
inductive Operand (α : Type) where
  | same
  | distinct (o : α)
deriving DecidableEq

variable {T : Type}

/-- The live array at address `a`, if any. -/
def Heap.lookup (h : Heap T) (a : Nat) : Option (List T) :=
  h.cells.getD a none

/-- `new Type[size]()`: a fresh value-initialised array. -/
def Heap.new_array [Inhabited T] (h : Heap T) (size : Nat) : Heap T × Nat :=
  (⟨h.cells ++ [some (List.replicate size default)]⟩, h.cells.length)

/-- `delete[] p`: no effect on `nullptr`, undefined on a dead array. -/
def Heap.delete_array (h : Heap T) (p : Ptr) : Option (Heap T) :=
  match p with
  | none => some h
  | some a =>
    match h.lookup a with
    | none => none
    | some _ => some ⟨h.cells.set a none⟩

/-- Read `p[i]`. -/
def Heap.read (h : Heap T) (p : Ptr) (i : Nat) : Option T :=
  match p with
  | none => none
  | some a =>
    match h.lookup a with
    | none => none
    | some buf => buf[i]?

/-- Write `p[i] = x`. -/
def Heap.write (h : Heap T) (p : Ptr) (i : Nat) (x : T) : Option (Heap T) :=
  match p with
  | none => none
  | some a =>
    match h.lookup a with
    | none => none
    | some buf => if i < buf.length then some ⟨h.cells.set a (some (buf.set i x))⟩ else none

/-- Read through a reference. -/
def Heap.deref (h : Heap T) : Ref T → Option T
  | .obj x => some x
  | .elem a i => h.read (some a) i

/-- Iterator plus offset. -/
def Iter.add (it : Iter) (n : Nat) : Iter := ⟨it.base, it.off + n⟩

/-- Iterator difference `p - q` cast to `size_t`; defined for two iterators into
the same array with `q` not after `p`. -/
def Iter.diff (p q : Iter) : Option Nat :=
  if p.base = q.base ∧ q.off ≤ p.off then some (p.off - q.off) else none

/-! ## Standard algorithms -/

/-- Loop of `std::copy` and `std::move`: `*d_first++ = *first++`, `n` times. -/
def copy_loop (h : Heap T) (src : Ptr) (first : Nat) (dst : Ptr) (d_first : Nat) :
    Nat → Option (Heap T)
  | 0 => some h
  | n + 1 =>
    match h.read src first with
    | none => none
    | some x =>
      match h.write dst d_first x with
      | none => none
      | some h1 => copy_loop h1 src (first + 1) dst (d_first + 1) n

/-- Loop of `std::copy_backward` and `std::move_backward`:
`*(--d_last) = *(--last)`, `n` times. -/
def copy_backward_loop (h : Heap T) (src : Ptr) (last : Nat) (dst : Ptr) (d_last : Nat) :
    Nat → Option (Heap T)
  | 0 => some h
  | n + 1 =>
    if 0 < last ∧ 0 < d_last then
      match h.read src (last - 1) with
      | none => none
      | some x =>
        match h.write dst (d_last - 1) x with
        | none => none
        | some h1 => copy_backward_loop h1 src (last - 1) dst (d_last - 1) n
    else none

/-- `std::copy(first, last, d_first)`. -/
def std_copy (h : Heap T) (first last d_first : Iter) : Option (Heap T) :=
  if first.base = last.base ∧ first.off ≤ last.off then
    copy_loop h first.base first.off d_first.base d_first.off (last.off - first.off)
  else none

/-- `std::move(first, last, d_first)`. -/
def std_move (h : Heap T) (first last d_first : Iter) : Option (Heap T) :=
  if first.base = last.base ∧ first.off ≤ last.off then
    copy_loop h first.base first.off d_first.base d_first.off (last.off - first.off)
  else none

/-- `std::copy_backward(first, last, d_last)`. -/
def std_copy_backward (h : Heap T) (first last d_last : Iter) : Option (Heap T) :=
  if first.base = last.base ∧ first.off ≤ last.off then
    copy_backward_loop h last.base last.off d_last.base d_last.off (last.off - first.off)
  else none

/-- `std::move_backward(first, last, d_last)`. -/
def std_move_backward (h : Heap T) (first last d_last : Iter) : Option (Heap T) :=
  if first.base = last.base ∧ first.off ≤ last.off then
    copy_backward_loop h last.base last.off d_last.base d_last.off (last.off - first.off)
  else none

/-! ## ArrayPtr -/

/-- `ArrayPtr<Type>`: one raw pointer, `nullptr` by default. -/
structure ArrayPtr where
  raw_ptr_ : Ptr := none
deriving DecidableEq

namespace ArrayPtr

/-- `explicit ArrayPtr(size_t size)`. -/
def ofSize [Inhabited T] (h : Heap T) (size : Nat) : Heap T × ArrayPtr :=
  if size > 0 then ((h.new_array size).1, ⟨some (h.new_array size).2⟩) else (h, ⟨none⟩)

/-- `explicit ArrayPtr(Type* raw_ptr)`. -/
def ofRaw (raw_ptr : Ptr) : ArrayPtr := ⟨raw_ptr⟩

/-- `~ArrayPtr()`. -/
def destroy (h : Heap T) (p : ArrayPtr) : Option (Heap T) :=
  h.delete_array p.raw_ptr_

/-- `void swap(ArrayPtr& other)`: returns the new `*this` and the new `other`. -/
def swap (this other : ArrayPtr) : ArrayPtr × ArrayPtr :=
  (⟨other.raw_ptr_⟩, ⟨this.raw_ptr_⟩)

/-- `ArrayPtr(ArrayPtr&& other)`: returns the new object and the new `other`. -/
def move_ctor (other : ArrayPtr) : ArrayPtr × ArrayPtr :=
  swap {} other

/-- `ArrayPtr& operator=(ArrayPtr&& other)`: returns the heap, the new `*this`
and, for a distinct operand, the new `other`. -/
def move_assign (h : Heap T) (this : ArrayPtr) (other : Operand ArrayPtr) :
    Option (Heap T × ArrayPtr × Operand ArrayPtr) :=
  match other with
  | .same => some (h, this, .same)
  | .distinct o =>
    match h.delete_array this.raw_ptr_ with
    | none => none
    | some h1 => some (h1, (swap ⟨none⟩ o).1, .distinct (swap ⟨none⟩ o).2)

/-- `Type* Release()`: returns the pointer and the new `*this`. -/
def Release (this : ArrayPtr) : Ptr × ArrayPtr :=
  (this.raw_ptr_, ⟨none⟩)

/-- `Type* Get() const`. -/
def Get (this : ArrayPtr) : Ptr := this.raw_ptr_

/-- `explicit operator bool() const`. -/
def toBool (this : ArrayPtr) : Bool := this.raw_ptr_ != none

/-- `operator[](size_t index)` read. -/
def index (h : Heap T) (this : ArrayPtr) (i : Nat) : Option T :=
  if this.raw_ptr_ ≠ none then h.read this.raw_ptr_ i else none

/-- `operator[](size_t index)` followed by an assignment to the slot. -/
def assign (h : Heap T) (this : ArrayPtr) (i : Nat) (x : T) : Option (Heap T) :=
  if this.raw_ptr_ ≠ none then h.write this.raw_ptr_ i x else none

end ArrayPtr

/-! ## SimpleVector -/

/-- Largest `size_t` value. -/
def SIZE_MAX : Nat := 2 ^ 64 - 1

/-- `SimpleVector<Type>`: the three data members. -/
structure SimpleVector where
  size_ : Nat := 0
  capacity_ : Nat := 0
  data_ : ArrayPtr := {}
deriving DecidableEq

namespace SimpleVector

/-- `begin()` and `cbegin()`. -/
def begin (v : SimpleVector) : Iter := ⟨v.data_.Get, 0⟩

/-- `cbegin()`. -/
def cbegin (v : SimpleVector) : Iter := ⟨v.data_.Get, 0⟩

/-- `end()` and `cend()`. -/
def end_ (v : SimpleVector) : Iter := ⟨v.data_.Get, v.size_⟩

/-- `GetSize()`. -/
def GetSize (v : SimpleVector) : Nat := v.size_

/-- `GetCapacity()`. -/
def GetCapacity (v : SimpleVector) : Nat := v.capacity_

/-- `IsEmpty()`. -/
def IsEmpty (v : SimpleVector) : Bool := v.size_ == 0

/-- `operator[](size_t index)` read. -/
def index (h : Heap T) (v : SimpleVector) (i : Nat) : Option T :=
  v.data_.index h i

/-- `SimpleVector() noexcept = default`. -/
def default_ctor : SimpleVector := {}

/-- `void Reserve(size_t new_capacity)`; `new_data` is destroyed on leaving the block. -/
def Reserve [Inhabited T] (h : Heap T) (v : SimpleVector) (new_capacity : Nat) :
    Option (Heap T × SimpleVector) :=
  if new_capacity > v.capacity_ then
    match std_move (ArrayPtr.ofSize h new_capacity).1 v.begin v.end_
        ⟨(ArrayPtr.ofSize h new_capacity).2.Get, 0⟩ with
    | none => none
    | some h2 =>
      match ArrayPtr.destroy h2 (ArrayPtr.swap v.data_ (ArrayPtr.ofSize h new_capacity).2).2 with
      | none => none
      | some h3 =>
        some (h3, { v with
          data_ := (ArrayPtr.swap v.data_ (ArrayPtr.ofSize h new_capacity).2).1,
          capacity_ := new_capacity })
  else some (h, v)

/-- The common opening of `PushBack` and `Insert`:
`if (size_ == capacity_) Reserve(capacity_ == 0 ? 1 : capacity_ * 2);`. -/
def grow_if_full [Inhabited T] (h : Heap T) (v : SimpleVector) : Option (Heap T × SimpleVector) :=
  if v.size_ = v.capacity_ then
    Reserve h v (if v.capacity_ = 0 then 1 else v.capacity_ * 2)
  else some (h, v)

/-- `void PushBack(const Type& value)`. -/
def PushBack [Inhabited T] (h : Heap T) (v : SimpleVector) (value : Ref T) :
    Option (Heap T × SimpleVector) :=
  match grow_if_full h v with
  | none => none
  | some (h1, v1) =>
    match h1.deref value with
    | none => none
    | some x =>
      match v1.data_.assign h1 v1.size_ x with
      | none => none
      | some h2 => some (h2, { v1 with size_ := v1.size_ + 1 })

/-- `void PushBack(Type&& value)`. -/
def PushBack_rv [Inhabited T] (h : Heap T) (v : SimpleVector) (value : Ref T) :
    Option (Heap T × SimpleVector) :=
  match grow_if_full h v with
  | none => none
  | some (h1, v1) =>
    match h1.deref value with
    | none => none
    | some x =>
      match v1.data_.assign h1 v1.size_ x with
      | none => none
      | some h2 => some (h2, { v1 with size_ := v1.size_ + 1 })

/-- `void PopBack() noexcept`: `--size_` on a `size_t`. -/
def PopBack (v : SimpleVector) : SimpleVector :=
  { v with size_ := if v.size_ = 0 then SIZE_MAX else v.size_ - 1 }

/-- `Iterator Insert(ConstIterator pos, const Type& value)`. -/
def Insert [Inhabited T] (h : Heap T) (v : SimpleVector) (pos : Iter) (value : Ref T) :
    Option (Heap T × SimpleVector × Iter) :=
  match pos.diff v.cbegin with
  | none => none
  | some index =>
    match grow_if_full h v with
    | none => none
    | some (h1, v1) =>
      match std_copy_backward h1 (v1.begin.add index) v1.end_ (v1.end_.add 1) with
      | none => none
      | some h2 =>
        match h2.deref value with
        | none => none
        | some x =>
          match v1.data_.assign h2 index x with
          | none => none
          | some h3 =>
            some (h3, { v1 with size_ := v1.size_ + 1 }, v1.begin.add index)

/-- `Iterator Insert(ConstIterator pos, Type&& value)`. -/
def Insert_rv [Inhabited T] (h : Heap T) (v : SimpleVector) (pos : Iter) (value : Ref T) :
    Option (Heap T × SimpleVector × Iter) :=
  match pos.diff v.cbegin with
  | none => none
  | some index =>
    match grow_if_full h v with
    | none => none
    | some (h1, v1) =>
      match std_move_backward h1 (v1.begin.add index) v1.end_ (v1.end_.add 1) with
      | none => none
      | some h2 =>
        match h2.deref value with
        | none => none
        | some x =>
          match v1.data_.assign h2 index x with
          | none => none
          | some h3 =>
            some (h3, { v1 with size_ := v1.size_ + 1 }, v1.begin.add index)

/-- `Iterator Erase(ConstIterator pos)`. -/
def Erase (h : Heap T) (v : SimpleVector) (pos : Iter) :
    Option (Heap T × SimpleVector × Iter) :=
  match pos.diff v.cbegin with
  | none => none
  | some index =>
    match std_move h ((v.begin.add index).add 1) v.end_ (v.begin.add index) with
    | none => none
    | some h1 =>
      some (h1, { v with size_ := if v.size_ = 0 then SIZE_MAX else v.size_ - 1 },
        v.begin.add index)

/-- `void swap(SimpleVector& other) noexcept`: the new `*this` and the new `other`. -/
def swap (this other : SimpleVector) : SimpleVector × SimpleVector :=
  ({ size_ := other.size_, capacity_ := other.capacity_,
     data_ := (ArrayPtr.swap this.data_ other.data_).1 },
   { size_ := this.size_, capacity_ := this.capacity_,
     data_ := (ArrayPtr.swap this.data_ other.data_).2 })

/-- `void Clear() noexcept`. -/
def Clear (v : SimpleVector) : SimpleVector := { v with size_ := 0 }

/-- The loop of `Resize`: `for (i = size_; i < new_size; ++i) data_[i] = Type{};`
with `n` iterations left. -/
def fill_default [Inhabited T] (h : Heap T) (data : ArrayPtr) (i : Nat) : Nat → Option (Heap T)
  | 0 => some h
  | n + 1 =>
    match data.assign h i (default : T) with
    | none => none
    | some h1 => fill_default h1 data (i + 1) n

/-- `void Resize(size_t new_size)`. -/
def Resize [Inhabited T] (h : Heap T) (v : SimpleVector) (new_size : Nat) :
    Option (Heap T × SimpleVector) :=
  if new_size < v.size_ then some (h, { v with size_ := new_size })
  else
    match Reserve h v new_size with
    | none => none
    | some (h1, v1) =>
      match fill_default h1 v1.data_ v1.size_ (new_size - v1.size_) with
      | none => none
      | some h2 => some (h2, { v1 with size_ := new_size })

/-- `~SimpleVector()`: destroys `data_`. -/
def destroy (h : Heap T) (v : SimpleVector) : Option (Heap T) :=
  v.data_.destroy h

/-- `SimpleVector(const SimpleVector& other)`. -/
def copy_ctor [Inhabited T] (h : Heap T) (other : SimpleVector) :
    Option (Heap T × SimpleVector) :=
  match std_copy (ArrayPtr.ofSize h other.size_).1 other.begin other.end_
      ⟨(ArrayPtr.ofSize h other.size_).2.Get, 0⟩ with
  | none => none
  | some h1 =>
    some (h1, { size_ := other.size_, capacity_ := other.size_,
                data_ := (ArrayPtr.ofSize h other.size_).2 })

/-- `SimpleVector& operator=(const SimpleVector& other)`; `temp` is destroyed on
leaving the block. -/
def copy_assign [Inhabited T] (h : Heap T) (this : SimpleVector) (other : Operand SimpleVector) :
    Option (Heap T × SimpleVector) :=
  match other with
  | .same => some (h, this)
  | .distinct o =>
    if o.IsEmpty then some (h, this.Clear)
    else
      match copy_ctor h o with
      | none => none
      | some (h1, temp) =>
        match destroy h1 (swap this temp).2 with
        | none => none
        | some h2 => some (h2, (swap this temp).1)

/-- `SimpleVector(SimpleVector&& other) noexcept`: the new object and the new `other`. -/
def move_ctor (other : SimpleVector) : SimpleVector × SimpleVector :=
  ({ size_ := other.size_, capacity_ := other.capacity_,
     data_ := (ArrayPtr.move_ctor other.data_).1 },
   { size_ := 0, capacity_ := 0, data_ := (ArrayPtr.move_ctor other.data_).2 })

/-- `SimpleVector& operator=(SimpleVector&& other) noexcept`: the heap, the new
`*this` and, for a distinct operand, the new `other`. -/
def move_assign (h : Heap T) (this : SimpleVector) (other : Operand SimpleVector) :
    Option (Heap T × SimpleVector × Operand SimpleVector) :=
  match other with
  | .same => some (h, this, .same)
  | .distinct o =>
    match ArrayPtr.move_assign h this.data_ (.distinct o.data_) with
    | some (h1, d, .distinct od) =>
      some (h1, { size_ := o.size_, capacity_ := o.capacity_, data_ := d },
        .distinct { size_ := 0, capacity_ := 0, data_ := od })
    | _ => none

end SimpleVector

/-! ## Representation predicates -/

/-- The vector `v` is well formed in heap `h`: `size_ <= capacity_`, a null
`data_` exactly when the capacity is zero, and otherwise `data_` points to a live
array of `capacity_` slots. -/
def Valid (h : Heap T) (v : SimpleVector) : Prop :=
  v.size_ ≤ v.capacity_ ∧
  match v.data_.raw_ptr_ with
  | none => v.capacity_ = 0
  | some a => 0 < v.capacity_ ∧ (h.lookup a).map List.length = some v.capacity_

/-- The vector `v` is well formed in `h` and its backing array holds `buf`
(`buf` is empty for a null `data_`). -/
def Owns (h : Heap T) (v : SimpleVector) (buf : List T) : Prop :=
  v.size_ ≤ v.capacity_ ∧ buf.length = v.capacity_ ∧
  ((v.data_.raw_ptr_ = none ∧ v.capacity_ = 0) ∨
   (∃ a, v.data_.raw_ptr_ = some a ∧ 0 < v.capacity_ ∧ h.lookup a = some buf))

/-- What a member function of `v` may do to the rest of the heap: no array is
removed from the address range, every array that existed before and is not the
one `v` owned is untouched, and the array `v` owns afterwards is the old one or
one allocated since. -/
def Frame (h : Heap T) (v : SimpleVector) (h' : Heap T) (v' : SimpleVector) : Prop :=
  h.cells.length ≤ h'.cells.length ∧
  (∀ b, b < h.cells.length → v.data_.raw_ptr_ ≠ some b → h'.lookup b = h.lookup b) ∧
  (v'.data_.raw_ptr_ = v.data_.raw_ptr_ ∨
    ∃ a, v'.data_.raw_ptr_ = some a ∧ h.cells.length ≤ a)

/-- The reference does not point into the storage of `v`. -/
def Ref.outside (value : Ref T) (v : SimpleVector) : Prop :=
  match value with
  | .obj _ => True
  | .elem a _ => v.data_.raw_ptr_ ≠ some a

/-- The heap `h'` is `h` with the live array at address `a` replaced by `buf'`. -/
def Heap.Update (h h' : Heap T) (a : Nat) (buf' : List T) : Prop :=
  h'.cells.length = h.cells.length ∧ h'.lookup a = some buf' ∧
  ∀ b, b ≠ a → h'.lookup b = h.lookup b


/-- The live elements read with `operator[]` at the indices `0 .. size - 1`. -/
def elements (h : Heap T) (v : SimpleVector) : List (Option T) :=
  (List.range v.size_).map (fun i => v.index h i)

/-- The call sequence `PushBack(x1); PushBack(x2); ...` for the values of a list. -/
def push_all [Inhabited T] (h : Heap T) (v : SimpleVector) : List T → Option (Heap T × SimpleVector)
  | [] => some (h, v)
  | x :: xs =>
    match SimpleVector.PushBack h v (.obj x) with
    | none => none
    | some (h1, v1) => push_all h1 v1 xs

/-- A call of a mutating member function of one vector, with its arguments;
`Store i x` is `v[i] = x` through the non-const `operator[]`. -/
inductive Mutation (T : Type) where
  | PushBack (value : Ref T)
  | PushBack_rv (value : Ref T)
  | PopBack
  | Insert (pos : Iter) (value : Ref T)
  | Insert_rv (pos : Iter) (value : Ref T)
  | Erase (pos : Iter)
  | Reserve (new_capacity : Nat)
  | Resize (new_size : Nat)
  | Clear
  | Store (i : Nat) (x : T)

/-- Perform one mutating call on `v`. -/
def Mutation.apply [Inhabited T] (m : Mutation T) (h : Heap T) (v : SimpleVector) :
    Option (Heap T × SimpleVector) :=
  match m with
  | .PushBack value => SimpleVector.PushBack h v value
  | .PushBack_rv value => SimpleVector.PushBack_rv h v value
  | .PopBack => some (h, v.PopBack)
  | .Insert pos value => (SimpleVector.Insert h v pos value).map (fun r => (r.1, r.2.1))
  | .Insert_rv pos value => (SimpleVector.Insert_rv h v pos value).map (fun r => (r.1, r.2.1))
  | .Erase pos => (SimpleVector.Erase h v pos).map (fun r => (r.1, r.2.1))
  | .Reserve n => SimpleVector.Reserve h v n
  | .Resize n => SimpleVector.Resize h v n
  | .Clear => some (h, v.Clear)
  | .Store i x => (v.data_.assign h i x).map (fun h1 => (h1, v))

/-- Perform a sequence of mutating calls on `v`. -/
def apply_all [Inhabited T] (h : Heap T) (v : SimpleVector) :
    List (Mutation T) → Option (Heap T × SimpleVector)
  | [] => some (h, v)
  | m :: ms =>
    match m.apply h v with
    | none => none
    | some (h1, v1) => apply_all h1 v1 ms

/-- Exclusive ownership: the two vectors do not hold the same array. -/
def Separate (x y : SimpleVector) : Prop :=
  x.data_.raw_ptr_ = none ∨ x.data_.raw_ptr_ ≠ y.data_.raw_ptr_

/-- Deciding `Separate` by comparing the two pointers. -/
instance Separate.decidable (x y : SimpleVector) : Decidable (Separate x y) := by
  unfold Separate
  exact inferInstance

/-- The step from `h` to `h'` keeps the address range and every array other than
the one at `p`. -/
def Heap.ModifiesOnly (h h' : Heap T) (p : Ptr) : Prop :=
  h'.cells.length = h.cells.length ∧ ∀ b, p ≠ some b → h'.lookup b = h.lookup b

/-- The statement of the claim on copies for a copy `z` (in heap `h1`) of the
vector `x` (in heap `h`): `z` is well formed, has the size of `x`, a capacity
equal to that size and the elements of `x`; `x` is still well formed and every
slot of its array holds what it held; and after any sequence `ms` of mutating
calls on `z` that is defined, `x` is still well formed with every slot as it
was. The three members of `x` cannot change: `x` is passed by const reference
and no function returns a new value for it. -/
def CopyPost [Inhabited T] (h : Heap T) (x : SimpleVector) (h1 : Heap T) (z : SimpleVector)
    (ms : List (Mutation T)) : Prop :=
  Valid h1 z ∧ z.size_ = x.size_ ∧ z.capacity_ = x.size_ ∧
  (∀ k, k < x.size_ → ∃ e, x.index h k = some e ∧ z.index h1 k = some e) ∧
  Valid h1 x ∧ (∀ k, x.index h1 k = x.index h k) ∧
  ∀ h2 z2, apply_all h1 z ms = some (h2, z2) →
    Valid h2 x ∧ ∀ k, x.index h2 k = x.index h k

/-- Result of a call of `At`: `std::out_of_range` was thrown (the message is
left out), or an element was returned. -/
inductive AtResult (T : Type) where
  | out_of_range
  | value (x : T)
deriving DecidableEq

/-- `Type& At(size_t index)`. -/
def SimpleVector.At (h : Heap T) (v : SimpleVector) (index : Nat) : Option (AtResult T) :=
  if index ≥ v.size_ then some .out_of_range
  else
    match v.data_.index h index with
    | none => none
    | some x => some (.value x)

/-- `const Type& At(size_t index) const`. -/
def SimpleVector.At_const (h : Heap T) (v : SimpleVector) (index : Nat) :
    Option (AtResult T) :=
  if index ≥ v.size_ then some .out_of_range
  else
    match v.data_.index h index with
    | none => none
    | some x => some (.value x)

/-- Loop of `std::equal(first1, last1, first2)`: compare `*first1` with
`*first2` and advance both, `n` times, stopping at the first difference. -/
def equal_loop [DecidableEq T] (h : Heap T) (p1 : Ptr) (first1 : Nat) (p2 : Ptr) (first2 : Nat) :
    Nat → Option Bool
  | 0 => some true
  | n + 1 =>
    match h.read p1 first1 with
    | none => none
    | some x =>
      match h.read p2 first2 with
      | none => none
      | some y => if x = y then equal_loop h p1 (first1 + 1) p2 (first2 + 1) n else some false

/-- `std::equal(first1, last1, first2)`. -/
def std_equal [DecidableEq T] (h : Heap T) (first1 last1 first2 : Iter) : Option Bool :=
  if first1.base = last1.base ∧ first1.off ≤ last1.off then
    equal_loop h first1.base first1.off first2.base first2.off (last1.off - first1.off)
  else none

/-- `operator==(const SimpleVector&, const SimpleVector&)`; the second operand of
`&&` is evaluated only when the sizes are equal. -/
def op_eq [DecidableEq T] (h : Heap T) (lhs rhs : SimpleVector) : Option Bool :=
  if lhs.GetSize = rhs.GetSize then std_equal h lhs.begin lhs.end_ rhs.begin else some false

/-- `operator!=(const SimpleVector&, const SimpleVector&)`. -/
def op_ne [DecidableEq T] (h : Heap T) (lhs rhs : SimpleVector) : Option Bool :=
  (op_eq h lhs rhs).map (fun r => !r)

/-- Loop of `std::fill(first, last, value)`: `*first++ = value`, `n` times; the
reference is read at every step. -/
def fill_loop (h : Heap T) (p : Ptr) (first : Nat) (value : Ref T) : Nat → Option (Heap T)
  | 0 => some h
  | n + 1 =>
    match h.deref value with
    | none => none
    | some x =>
      match h.write p first x with
      | none => none
      | some h1 => fill_loop h1 p (first + 1) value n

/-- `std::fill(first, last, value)`. -/
def std_fill (h : Heap T) (first last : Iter) (value : Ref T) : Option (Heap T) :=
  if first.base = last.base ∧ first.off ≤ last.off then
    fill_loop h first.base first.off value (last.off - first.off)
  else none

/-- `std::copy(init.begin(), init.end(), d_first)` for a `std::initializer_list`,
whose array is not a heap array and is given by the list of its values. -/
def copy_from_list (h : Heap T) (dst : Ptr) (d_first : Nat) : List T → Option (Heap T)
  | [] => some h
  | x :: xs =>
    match h.write dst d_first x with
    | none => none
    | some h1 => copy_from_list h1 dst (d_first + 1) xs

/-- `class ReserveProxyObj`. -/
structure ReserveProxyObj where
  capacity_ : Nat
deriving DecidableEq

/-- `ReserveProxyObj::GetCapacity()`. -/
def ReserveProxyObj.GetCapacity (p : ReserveProxyObj) : Nat := p.capacity_

/-- The free function `ReserveProxyObj Reserve(size_t capacity_to_reserve)`; the
name `Reserve` is taken by the member function. -/
def Reserve_proxy (capacity_to_reserve : Nat) : ReserveProxyObj := ⟨capacity_to_reserve⟩

/-- `explicit SimpleVector(size_t size)`. -/
def SimpleVector.ctor_size [Inhabited T] (h : Heap T) (size : Nat) :
    Option (Heap T × SimpleVector) :=
  match std_fill (ArrayPtr.ofSize h size).1
      (SimpleVector.begin ⟨size, size, (ArrayPtr.ofSize h size).2⟩)
      (SimpleVector.end_ ⟨size, size, (ArrayPtr.ofSize h size).2⟩) (.obj (default : T)) with
  | none => none
  | some h1 => some (h1, ⟨size, size, (ArrayPtr.ofSize h size).2⟩)

/-- `SimpleVector(size_t size, const Type& value)`. -/
def SimpleVector.ctor_size_value [Inhabited T] (h : Heap T) (size : Nat) (value : Ref T) :
    Option (Heap T × SimpleVector) :=
  match std_fill (ArrayPtr.ofSize h size).1
      (SimpleVector.begin ⟨size, size, (ArrayPtr.ofSize h size).2⟩)
      (SimpleVector.end_ ⟨size, size, (ArrayPtr.ofSize h size).2⟩) value with
  | none => none
  | some h1 => some (h1, ⟨size, size, (ArrayPtr.ofSize h size).2⟩)

/-- `SimpleVector(std::initializer_list<Type> init)`. -/
def SimpleVector.ctor_init [Inhabited T] (h : Heap T) (init : List T) :
    Option (Heap T × SimpleVector) :=
  match copy_from_list (ArrayPtr.ofSize h init.length).1
      (SimpleVector.begin ⟨init.length, init.length, (ArrayPtr.ofSize h init.length).2⟩).base
      (SimpleVector.begin ⟨init.length, init.length, (ArrayPtr.ofSize h init.length).2⟩).off
      init with
  | none => none
  | some h1 => some (h1, ⟨init.length, init.length, (ArrayPtr.ofSize h init.length).2⟩)

/-- `SimpleVector(ReserveProxyObj proxy)`. -/
def SimpleVector.ctor_reserve [Inhabited T] (h : Heap T) (proxy : ReserveProxyObj) :
    Heap T × SimpleVector :=
  ((ArrayPtr.ofSize h proxy.GetCapacity).1,
    ⟨0, proxy.GetCapacity, (ArrayPtr.ofSize h proxy.GetCapacity).2⟩)

/-- The precondition of a mutating call on `v` in heap `h`: a value argument is
read through a valid reference that does not point into the storage of `v`,
`PopBack` needs a non-empty vector, `Insert` a position `begin + i` with
`i <= size`, `Erase` a position `begin + i` with `i < size`, and a store through
`operator[]` an index below the size. -/
def Mutation.pre (m : Mutation T) (h : Heap T) (v : SimpleVector) : Prop :=
  match m with
  | .PushBack value => (∃ x, h.deref value = some x) ∧ value.outside v
  | .PushBack_rv value => (∃ x, h.deref value = some x) ∧ value.outside v
  | .PopBack => 0 < v.size_
  | .Insert pos value =>
    (∃ i, i ≤ v.size_ ∧ pos = v.begin.add i) ∧ (∃ x, h.deref value = some x) ∧ value.outside v
  | .Insert_rv pos value =>
    (∃ i, i ≤ v.size_ ∧ pos = v.begin.add i) ∧ (∃ x, h.deref value = some x) ∧ value.outside v
  | .Erase pos => ∃ i, i < v.size_ ∧ pos = v.begin.add i
  | .Reserve _ => True
  | .Resize _ => True
  | .Clear => True
  | .Store i _ => i < v.size_

/-- Loop of `std::lexicographical_compare(first1, last1, first2, last2)`, with
`n1` and `n2` elements left in the two ranges; after the loop the result is
`first1 == last1 && first2 != last2`. -/
def lex_loop [LT T] [DecidableRel (fun a b : T => a < b)] (h : Heap T)
    (p1 : Ptr) (first1 : Nat) (p2 : Ptr) (first2 : Nat) : Nat → Nat → Option Bool
  | 0, n2 => some (decide (n2 ≠ 0))
  | _ + 1, 0 => some false
  | n1 + 1, n2 + 1 =>
    match h.read p1 first1 with
    | none => none
    | some x =>
      match h.read p2 first2 with
      | none => none
      | some y =>
        if x < y then some true
        else if y < x then some false
        else lex_loop h p1 (first1 + 1) p2 (first2 + 1) n1 n2

/-- `std::lexicographical_compare(first1, last1, first2, last2)`. -/
def std_lexicographical_compare [LT T] [DecidableRel (fun a b : T => a < b)] (h : Heap T)
    (first1 last1 first2 last2 : Iter) : Option Bool :=
  if first1.base = last1.base ∧ first1.off ≤ last1.off ∧
      first2.base = last2.base ∧ first2.off ≤ last2.off then
    lex_loop h first1.base first1.off first2.base first2.off
      (last1.off - first1.off) (last2.off - first2.off)
  else none

/-- `operator<(const SimpleVector&, const SimpleVector&)`. -/
def op_lt [LT T] [DecidableRel (fun a b : T => a < b)] (h : Heap T) (lhs rhs : SimpleVector) :
    Option Bool :=
  std_lexicographical_compare h lhs.begin lhs.end_ rhs.begin rhs.end_

/-- `operator<=(const SimpleVector&, const SimpleVector&)`. -/
def op_le [LT T] [DecidableRel (fun a b : T => a < b)] (h : Heap T) (lhs rhs : SimpleVector) :
    Option Bool :=
  (op_lt h rhs lhs).map (fun r => !r)

/-- `operator>(const SimpleVector&, const SimpleVector&)`. -/
def op_gt [LT T] [DecidableRel (fun a b : T => a < b)] (h : Heap T) (lhs rhs : SimpleVector) :
    Option Bool :=
  op_lt h rhs lhs

/-- `operator>=(const SimpleVector&, const SimpleVector&)`. -/
def op_ge [LT T] [DecidableRel (fun a b : T => a < b)] (h : Heap T) (lhs rhs : SimpleVector) :
    Option Bool :=
  (op_lt h lhs rhs).map (fun r => !r)

/-- The list of the live elements of `v`: the first `size_` slots of its array. -/
def contents (h : Heap T) (v : SimpleVector) : List T :=
  match v.data_.raw_ptr_ with
  | none => []
  | some a => ((h.lookup a).getD []).take v.size_

/-- Well-formedness is decidable. -/
instance Valid.decidable (h : Heap T) (v : SimpleVector) : Decidable (Valid h v) := by
  unfold Valid
  cases v.data_.raw_ptr_ <;> exact inferInstance

/-! ## Lemmas on the heap -/

open SimpleVector

theorem lookup_set (h : Heap T) (a b : Nat) (c : Option (List T)) :
    Heap.lookup ⟨h.cells.set a c⟩ b = if a = b ∧ a < h.cells.length then c else h.lookup b := by
  simp only [Heap.lookup, List.getD_eq_getElem?_getD, List.getElem?_set]
  by_cases hab : a = b
  · subst hab
    by_cases hl : a < h.cells.length
    · simp [hl]
    · simp [hl, List.getElem?_eq_none (not_lt.mp hl)]
  · simp [hab]

theorem lookup_lt (h : Heap T) (a : Nat) (buf : List T) (hl : h.lookup a = some buf) :
    a < h.cells.length := by
  by_contra hc
  simp [Heap.lookup, List.getD_eq_getElem?_getD, List.getElem?_eq_none (not_lt.mp hc)] at hl

theorem lookup_new_array [Inhabited T] (h : Heap T) (n b : Nat) :
    (h.new_array n).1.lookup b =
      if b = h.cells.length then some (List.replicate n default) else h.lookup b := by
  simp only [Heap.lookup, Heap.new_array, List.getD_eq_getElem?_getD]
  by_cases hb : b = h.cells.length
  · subst hb; simp
  · rcases Nat.lt_or_gt_of_ne hb with hlt | hgt
    · simp [hb, List.getElem?_append_left hlt]
    · have h1 : h.cells.length ≤ b := Nat.le_of_lt hgt
      have h2 : (h.cells ++ [some (List.replicate n (default : T))]).length ≤ b := by
        simp; omega
      simp [hb, List.getElem?_eq_none h2, List.getElem?_eq_none h1]

theorem read_of_lookup (h : Heap T) (a i : Nat) (buf : List T) (hl : h.lookup a = some buf) :
    h.read (some a) i = buf[i]? := by
  simp [Heap.read, hl]

theorem write_of_lookup (h : Heap T) (a i : Nat) (x : T) (buf : List T)
    (hl : h.lookup a = some buf) (hi : i < buf.length) :
    ∃ h', h.write (some a) i x = some h' ∧ Heap.Update h h' a (buf.set i x) := by
  refine ⟨⟨h.cells.set a (some (buf.set i x))⟩, by simp [Heap.write, hl, hi], ?_, ?_, ?_⟩
  · simp
  · simp [lookup_set, lookup_lt h a buf hl]
  · intro b hb
    simp [lookup_set, Ne.symm hb]

theorem Update_refl (h : Heap T) (a : Nat) (buf : List T) (hl : h.lookup a = some buf) :
    Heap.Update h h a buf :=
  ⟨rfl, hl, fun _ _ => rfl⟩

theorem Update_trans {h h1 h2 : Heap T} {a : Nat} {b1 b2 : List T}
    (u1 : Heap.Update h h1 a b1) (u2 : Heap.Update h1 h2 a b2) : Heap.Update h h2 a b2 :=
  ⟨u2.1.trans u1.1, u2.2.1, fun b hb => (u2.2.2 b hb).trans (u1.2.2 b hb)⟩

/-! ## Lemmas on the copy loops -/

/-- Backward copy inside one array, one slot to the right: slots
`(last - n, last]` receive their left neighbour, every other slot is kept. -/
theorem copy_backward_loop_shift (n : Nat) : ∀ (h : Heap T) (a last : Nat) (buf : List T),
    h.lookup a = some buf → n ≤ last → last + 1 ≤ buf.length →
    ∃ h' buf', copy_backward_loop h (some a) last (some a) (last + 1) n = some h' ∧
      Heap.Update h h' a buf' ∧ buf'.length = buf.length ∧
      ∀ k, buf'[k]? = if last - n < k ∧ k ≤ last then buf[k - 1]? else buf[k]? := by
  induction n with
  | zero =>
    intro h a last buf hl _ _
    refine ⟨h, buf, rfl, Update_refl h a buf hl, rfl, ?_⟩
    intro k
    have : ¬ (last - 0 < k ∧ k ≤ last) := by omega
    rw [if_neg this]
  | succ n ih =>
    intro h a last buf hl hn hlen
    have hlast : 0 < last := by omega
    have hx : buf[last - 1]? = some (buf[last - 1]) := List.getElem?_eq_getElem (by omega)
    obtain ⟨h1, hw, u1⟩ := write_of_lookup h a last (buf[last - 1]) buf hl (by omega)
    obtain ⟨h', buf', hrun, u2, hlen', hpt⟩ :=
      ih h1 a (last - 1) (buf.set last (buf[last - 1])) u1.2.1 (by omega) (by simp; omega)
    have e1 : last - 1 + 1 = last := by omega
    rw [e1] at hrun
    refine ⟨h', buf', ?_, Update_trans u1 u2, by simpa using hlen', ?_⟩
    · simp only [copy_backward_loop, hlast, Nat.succ_pos, and_self, if_true,
        read_of_lookup h a (last - 1) buf hl, hx, Nat.add_sub_cancel, hw]
      exact hrun
    · intro k
      rw [hpt k]
      simp only [List.getElem?_set]
      by_cases hk1 : last - 1 - n < k ∧ k ≤ last - 1
      · have hk2 : last - (n + 1) < k ∧ k ≤ last := by omega
        have hk3 : ¬ last = k - 1 := by omega
        simp [hk1, hk2, hk3]
      · by_cases hk4 : k = last
        · subst hk4
          have hk2 : k - (n + 1) < k ∧ k ≤ k := by omega
          have hk5 : k < buf.length := by omega
          simp [hk1, hk2, hk5, hx]
        · have hk2 : ¬ (last - (n + 1) < k ∧ k ≤ last) := by omega
          simp [hk1, hk2, Ne.symm hk4]

/-- Forward copy inside one array, one slot to the left: slots `[d, d + n)`
receive their right neighbour, every other slot is kept. -/
theorem copy_loop_shift (n : Nat) : ∀ (h : Heap T) (a d : Nat) (buf : List T),
    h.lookup a = some buf → d + 1 + n ≤ buf.length →
    ∃ h' buf', copy_loop h (some a) (d + 1) (some a) d n = some h' ∧
      Heap.Update h h' a buf' ∧ buf'.length = buf.length ∧
      ∀ k, buf'[k]? = if d ≤ k ∧ k < d + n then buf[k + 1]? else buf[k]? := by
  induction n with
  | zero =>
    intro h a d buf hl _
    refine ⟨h, buf, rfl, Update_refl h a buf hl, rfl, ?_⟩
    intro k
    have : ¬ (d ≤ k ∧ k < d + 0) := by omega
    rw [if_neg this]
  | succ n ih =>
    intro h a d buf hl hlen
    have hd : d + 1 < buf.length := by omega
    have hx : buf[d + 1]? = some (buf[d + 1]) := List.getElem?_eq_getElem hd
    obtain ⟨h1, hw, u1⟩ := write_of_lookup h a d (buf[d + 1]) buf hl (by omega)
    obtain ⟨h', buf', hrun, u2, hlen', hpt⟩ :=
      ih h1 a (d + 1) (buf.set d (buf[d + 1])) u1.2.1 (by simp; omega)
    refine ⟨h', buf', ?_, Update_trans u1 u2, by simpa using hlen', ?_⟩
    · simp only [copy_loop, read_of_lookup h a (d + 1) buf hl, hx, hw]
      exact hrun
    · intro k
      rw [hpt k]
      simp only [List.getElem?_set]
      by_cases hk1 : d + 1 ≤ k ∧ k < d + 1 + n
      · have hk2 : d ≤ k ∧ k < d + (n + 1) := by omega
        have hk3 : ¬ d = k + 1 := by omega
        simp [hk1, hk2, hk3]
      · by_cases hk4 : k = d
        · subst hk4
          have hk2 : k ≤ k ∧ k < k + (n + 1) := by omega
          have hk5 : k < buf.length := by omega
          simp [hk1, hk2, hk5, hx]
        · have hk2 : ¬ (d ≤ k ∧ k < d + (n + 1)) := by omega
          simp [hk1, hk2, Ne.symm hk4]

/-- Forward copy between two different arrays at equal offsets: slots
`[i, i + n)` of the destination receive the source slots, the rest is kept. -/
theorem copy_loop_distinct (n : Nat) : ∀ (h : Heap T) (s d i : Nat) (sbuf dbuf : List T),
    s ≠ d → h.lookup s = some sbuf → h.lookup d = some dbuf →
    i + n ≤ sbuf.length → i + n ≤ dbuf.length →
    ∃ h' dbuf', copy_loop h (some s) i (some d) i n = some h' ∧
      Heap.Update h h' d dbuf' ∧ dbuf'.length = dbuf.length ∧
      ∀ k, dbuf'[k]? = if i ≤ k ∧ k < i + n then sbuf[k]? else dbuf[k]? := by
  induction n with
  | zero =>
    intro h s d i sbuf dbuf _ _ hd _ _
    refine ⟨h, dbuf, rfl, Update_refl h d dbuf hd, rfl, ?_⟩
    intro k
    have : ¬ (i ≤ k ∧ k < i + 0) := by omega
    rw [if_neg this]
  | succ n ih =>
    intro h s d i sbuf dbuf hsd hs hd hls hld
    have hi : i < sbuf.length := by omega
    have hx : sbuf[i]? = some (sbuf[i]) := List.getElem?_eq_getElem hi
    obtain ⟨h1, hw, u1⟩ := write_of_lookup h d i (sbuf[i]) dbuf hd (by omega)
    have hs1 : h1.lookup s = some sbuf := (u1.2.2 s hsd).trans hs
    obtain ⟨h', dbuf', hrun, u2, hlen', hpt⟩ :=
      ih h1 s d (i + 1) sbuf (dbuf.set i (sbuf[i])) hsd hs1 u1.2.1 (by omega) (by simp; omega)
    refine ⟨h', dbuf', ?_, Update_trans u1 u2, by simpa using hlen', ?_⟩
    · simp only [copy_loop, read_of_lookup h s i sbuf hs, hx, hw]
      exact hrun
    · intro k
      rw [hpt k]
      simp only [List.getElem?_set]
      by_cases hk1 : i + 1 ≤ k ∧ k < i + 1 + n
      · have hk2 : i ≤ k ∧ k < i + (n + 1) := by omega
        simp [hk1, hk2]
      · by_cases hk4 : k = i
        · subst hk4
          have hk2 : k ≤ k ∧ k < k + (n + 1) := by omega
          have hk5 : k < dbuf.length := by omega
          simp [hk1, hk2, hk5, hx]
        · have hk2 : ¬ (i ≤ k ∧ k < i + (n + 1)) := by omega
          simp [hk1, hk2, Ne.symm hk4]

/-- The loop of `Resize` sets slots `[i, i + n)` to the default value. -/
theorem fill_default_spec [Inhabited T] (n : Nat) :
    ∀ (h : Heap T) (d : ArrayPtr) (a i : Nat) (buf : List T),
    d.raw_ptr_ = some a → h.lookup a = some buf → i + n ≤ buf.length →
    ∃ h' buf', SimpleVector.fill_default h d i n = some h' ∧
      Heap.Update h h' a buf' ∧ buf'.length = buf.length ∧
      ∀ k, buf'[k]? = if i ≤ k ∧ k < i + n then some default else buf[k]? := by
  induction n with
  | zero =>
    intro h d a i buf _ hl _
    refine ⟨h, buf, rfl, Update_refl h a buf hl, rfl, ?_⟩
    intro k
    have : ¬ (i ≤ k ∧ k < i + 0) := by omega
    rw [if_neg this]
  | succ n ih =>
    intro h d a i buf hd hl hlen
    obtain ⟨h1, hw, u1⟩ := write_of_lookup h a i (default : T) buf hl (by omega)
    obtain ⟨h', buf', hrun, u2, hlen', hpt⟩ :=
      ih h1 d a (i + 1) (buf.set i default) hd u1.2.1 (by simp; omega)
    refine ⟨h', buf', ?_, Update_trans u1 u2, by simpa using hlen', ?_⟩
    · simp only [SimpleVector.fill_default, ArrayPtr.assign, hd, ne_eq, reduceCtorEq,
        not_false_eq_true, if_true, hw]
      exact hrun
    · intro k
      rw [hpt k]
      simp only [List.getElem?_set]
      by_cases hk1 : i + 1 ≤ k ∧ k < i + 1 + n
      · have hk2 : i ≤ k ∧ k < i + (n + 1) := by omega
        simp [hk1, hk2]
      · by_cases hk4 : k = i
        · subst hk4
          have hk2 : k ≤ k ∧ k < k + (n + 1) := by omega
          have hk5 : k < buf.length := by omega
          simp [hk1, hk2, hk5]
        · have hk2 : ¬ (i ≤ k ∧ k < i + (n + 1)) := by omega
          simp [hk1, hk2, Ne.symm hk4]

theorem delete_of_lookup (h : Heap T) (a : Nat) (buf : List T) (hl : h.lookup a = some buf) :
    ∃ h', h.delete_array (some a) = some h' ∧ h'.cells.length = h.cells.length ∧
      h'.lookup a = none ∧ ∀ b, b ≠ a → h'.lookup b = h.lookup b := by
  refine ⟨⟨h.cells.set a none⟩, by simp [Heap.delete_array, hl], by simp, ?_, ?_⟩
  · simp [lookup_set, lookup_lt h a buf hl]
  · intro b hb
    simp [lookup_set, Ne.symm hb]

theorem ofSize_pos [Inhabited T] (h : Heap T) (n : Nat) (hn : 0 < n) :
    ArrayPtr.ofSize h n = ((h.new_array n).1, ⟨some h.cells.length⟩) := by
  simp [ArrayPtr.ofSize, hn, Heap.new_array]

theorem ofSize_zero [Inhabited T] (h : Heap T) :
    ArrayPtr.ofSize h 0 = (h, ⟨none⟩) := by
  simp [ArrayPtr.ofSize]

theorem new_array_length [Inhabited T] (h : Heap T) (n : Nat) :
    (h.new_array n).1.cells.length = h.cells.length + 1 := by
  simp [Heap.new_array]

theorem Owns_index {h : Heap T} {v : SimpleVector} {buf : List T} (ho : Owns h v buf) (k : Nat) :
    v.index h k = buf[k]? := by
  obtain ⟨_, hlen, hp⟩ := ho
  rcases hp with ⟨hnull, hcap⟩ | ⟨a, hptr, _, hl⟩
  · have : buf = [] := List.eq_nil_of_length_eq_zero (by omega)
    simp [SimpleVector.index, ArrayPtr.index, hnull, this]
  · simp [SimpleVector.index, ArrayPtr.index, hptr, read_of_lookup h a k buf hl]

theorem Valid_iff_Owns (h : Heap T) (v : SimpleVector) :
    Valid h v ↔ ∃ buf, Owns h v buf := by
  constructor
  · rintro ⟨hle, hm⟩
    cases hp : v.data_.raw_ptr_ with
    | none =>
      rw [hp] at hm
      exact ⟨[], hle, by simpa using hm.symm, Or.inl ⟨hp, hm⟩⟩
    | some a =>
      rw [hp] at hm
      obtain ⟨hpos, hmap⟩ := hm
      cases hl : h.lookup a with
      | none => simp [hl] at hmap
      | some buf =>
        simp [hl] at hmap
        exact ⟨buf, hle, hmap, Or.inr ⟨a, hp, hpos, hl⟩⟩
  · rintro ⟨buf, hle, hlen, hp⟩
    refine ⟨hle, ?_⟩
    rcases hp with ⟨hnull, hcap⟩ | ⟨a, hptr, hpos, hl⟩
    · rw [hnull]; exact hcap
    · rw [hptr]; exact ⟨hpos, by simp [hl, hlen]⟩

theorem Owns_valid {h : Heap T} {v : SimpleVector} {buf : List T} (ho : Owns h v buf) :
    Valid h v := (Valid_iff_Owns h v).mpr ⟨buf, ho⟩

theorem Frame_refl (h : Heap T) (v : SimpleVector) : Frame h v h v :=
  ⟨le_refl _, fun _ _ _ => rfl, Or.inl rfl⟩

theorem Frame_trans {h h1 h2 : Heap T} {v v1 v2 : SimpleVector}
    (f1 : Frame h v h1 v1) (f2 : Frame h1 v1 h2 v2) : Frame h v h2 v2 := by
  obtain ⟨l1, k1, p1⟩ := f1
  obtain ⟨l2, k2, p2⟩ := f2
  refine ⟨le_trans l1 l2, ?_, ?_⟩
  · intro b hb hne
    have hne1 : v1.data_.raw_ptr_ ≠ some b := by
      rcases p1 with e | ⟨a, e, ha⟩
      · rw [e]; exact hne
      · rw [e]; intro hc; injection hc with hc; omega
    rw [k2 b (by omega) hne1, k1 b hb hne]
  · rcases p2 with e2 | ⟨a, e2, ha⟩
    · rw [e2]
      rcases p1 with e1 | ⟨a, e1, ha⟩
      · exact Or.inl e1
      · exact Or.inr ⟨a, e1, ha⟩
    · exact Or.inr ⟨a, e2, by omega⟩

/-- An update of the array that `v` owns, keeping the three members, is framed. -/
theorem Frame_of_update {h h' : Heap T} {v v' : SimpleVector} {a : Nat} {buf' : List T}
    (hp : v.data_.raw_ptr_ = some a) (hp' : v'.data_.raw_ptr_ = some a)
    (u : Heap.Update h h' a buf') : Frame h v h' v' := by
  refine ⟨le_of_eq u.1.symm, ?_, Or.inl (hp'.trans hp.symm)⟩
  intro b _ hne
  apply u.2.2
  intro hc
  apply hne
  rw [hp, hc]

theorem Reserve_spec [Inhabited T] (h : Heap T) (v : SimpleVector) (buf : List T) (n : Nat)
    (ho : Owns h v buf) :
    ∃ h' v' buf', Reserve h v n = some (h', v') ∧ Owns h' v' buf' ∧ Frame h v h' v' ∧
      v'.size_ = v.size_ ∧ v'.capacity_ = max v.capacity_ n ∧
      (∀ k, k < v.size_ → buf'[k]? = buf[k]?) ∧
      (n ≤ v.capacity_ → h' = h ∧ v' = v ∧ buf' = buf) := by
  by_cases hn : n ≤ v.capacity_
  · refine ⟨h, v, buf, ?_, ho, Frame_refl h v, rfl, by simp [hn], fun _ _ => rfl,
      fun _ => ⟨rfl, rfl, rfl⟩⟩
    simp [Reserve, not_lt.mpr hn]
  · have hgt : n > v.capacity_ := by omega
    have hpos : 0 < n := by omega
    obtain ⟨hle, hlen, hp⟩ := ho
    rcases hp with ⟨hnull, hcap⟩ | ⟨a, hptr, hcpos, hl⟩
    · have hsz : v.size_ = 0 := by omega
      refine ⟨(h.new_array n).1, { v with data_ := ⟨some h.cells.length⟩, capacity_ := n },
        List.replicate n default, ?_, ?_, ?_, rfl, by simp; omega, ?_, fun hc => by omega⟩
      · simp [Reserve, hgt, ofSize_pos h n hpos, std_move, SimpleVector.begin,
          SimpleVector.end_, ArrayPtr.Get, hnull, hsz, copy_loop, ArrayPtr.swap,
          ArrayPtr.destroy, Heap.delete_array]
      · refine ⟨by simp; omega, by simp, Or.inr ⟨h.cells.length, rfl, hpos, ?_⟩⟩
        simp [lookup_new_array]
      · refine ⟨by simp [new_array_length], ?_, Or.inr ⟨h.cells.length, rfl, le_refl _⟩⟩
        intro b hb _
        simp [lookup_new_array, Nat.ne_of_lt hb]
      · intro k hk; omega
    · have halt : a < h.cells.length := lookup_lt h a buf hl
      have hne : a ≠ h.cells.length := Nat.ne_of_lt halt
      have hl1 : (h.new_array n).1.lookup a = some buf := by
        simp [lookup_new_array, hne, hl]
      have hl1n : (h.new_array n).1.lookup h.cells.length
          = some (List.replicate n (default : T)) := by
        simp [lookup_new_array]
      obtain ⟨h2, dbuf, hrun, u, hdlen, hpt⟩ :=
        copy_loop_distinct v.size_ (h.new_array n).1 a h.cells.length 0 buf
          (List.replicate n default) hne hl1 hl1n (by omega) (by simp; omega)
      have hl2 : h2.lookup a = some buf := (u.2.2 a hne).trans hl1
      obtain ⟨h3, hdel, hlen3, hnone, hoth⟩ := delete_of_lookup h2 a buf hl2
      refine ⟨h3, { v with data_ := ⟨some h.cells.length⟩, capacity_ := n }, dbuf,
        ?_, ?_, ?_, rfl, by simp; omega, ?_, fun hc => by omega⟩
      · simp [Reserve, hgt, ofSize_pos h n hpos, std_move, SimpleVector.begin,
          SimpleVector.end_, ArrayPtr.Get, hptr, hrun, ArrayPtr.swap,
          ArrayPtr.destroy, hdel]
      · refine ⟨by simp; omega, by simpa using hdlen, Or.inr ⟨h.cells.length, rfl, hpos, ?_⟩⟩
        rw [hoth _ (Ne.symm hne)]
        exact u.2.1
      · refine ⟨by rw [hlen3, u.1, new_array_length]; omega, ?_,
          Or.inr ⟨h.cells.length, rfl, le_refl _⟩⟩
        intro b hb hba
        have hba1 : b ≠ a := by
          intro hc; apply hba; rw [hptr, hc]
        rw [hoth b hba1, u.2.2 b (Nat.ne_of_lt hb)]
        simp [lookup_new_array, Nat.ne_of_lt hb]
      · intro k hk
        rw [hpt k]
        simp [hk]

theorem deref_frame {h h' : Heap T} {v v' : SimpleVector} {value : Ref T} {x : T}
    (f : Frame h v h' v') (hout : value.outside v) (hx : h.deref value = some x) :
    h'.deref value = some x := by
  cases value with
  | obj y => simpa [Heap.deref] using hx
  | elem a i =>
    simp only [Heap.deref, Heap.read] at hx ⊢
    cases hl : h.lookup a with
    | none => simp [hl] at hx
    | some b =>
      have hlt := lookup_lt h a b hl
      rw [f.2.1 a hlt hout, hl]
      simpa [hl] using hx

theorem grow_if_full_spec [Inhabited T] (h : Heap T) (v : SimpleVector) (buf : List T)
    (ho : Owns h v buf) :
    ∃ h1 v1 buf1, grow_if_full h v = some (h1, v1) ∧ Owns h1 v1 buf1 ∧ Frame h v h1 v1 ∧
      v1.size_ = v.size_ ∧ v1.size_ < v1.capacity_ ∧
      v1.capacity_ = (if v.size_ = v.capacity_ then max 1 (2 * v.capacity_) else v.capacity_) ∧
      (∀ k, k < v.size_ → buf1[k]? = buf[k]?) ∧
      (v.size_ < v.capacity_ → h1 = h ∧ v1 = v ∧ buf1 = buf) := by
  by_cases hfull : v.size_ = v.capacity_
  · obtain ⟨h1, v1, buf1, hr, ho1, f1, hs, hc, hpt, _⟩ :=
      Reserve_spec h v buf (if v.capacity_ = 0 then 1 else v.capacity_ * 2) ho
    refine ⟨h1, v1, buf1, by simp [grow_if_full, hfull, hr], ho1, f1, hs, ?_, ?_, hpt,
      fun hc => by omega⟩
    · rw [hs, hc]; split <;> omega
    · rw [hc, if_pos hfull]; split <;> omega
  · have hlt : v.size_ < v.capacity_ := lt_of_le_of_ne ho.1 hfull
    exact ⟨h, v, buf, by simp [grow_if_full, hfull], ho, Frame_refl h v, rfl, hlt,
      by simp [hfull], fun _ _ => rfl, fun _ => ⟨rfl, rfl, rfl⟩⟩

/-- The state of `Insert` after growing and shifting, before the new value is
read and stored. -/
theorem Insert_shift [Inhabited T] (h : Heap T) (v : SimpleVector) (buf : List T) (i : Nat)
    (ho : Owns h v buf) (hi : i ≤ v.size_) :
    ∃ h1 h2 v1 buf2 a, grow_if_full h v = some (h1, v1) ∧
      std_copy_backward h1 (v1.begin.add i) v1.end_ (v1.end_.add 1) = some h2 ∧
      std_move_backward h1 (v1.begin.add i) v1.end_ (v1.end_.add 1) = some h2 ∧
      v1.data_.raw_ptr_ = some a ∧ h2.lookup a = some buf2 ∧
      Owns h2 v1 buf2 ∧ Frame h v h2 v1 ∧ v1.size_ = v.size_ ∧ v1.size_ < v1.capacity_ ∧
      v1.capacity_ = (if v.size_ = v.capacity_ then max 1 (2 * v.capacity_) else v.capacity_) ∧
      (∀ k, k < i → buf2[k]? = buf[k]?) ∧
      (∀ k, i < k → k ≤ v.size_ → buf2[k]? = buf[k - 1]?) ∧
      (v.size_ < v.capacity_ → v1 = v ∧
        ∀ k, buf2[k]? = if i < k ∧ k ≤ v.size_ then buf[k - 1]? else buf[k]?) := by
  obtain ⟨h1, v1, buf1, hg, ho1, f1, hs, hlt, hc, hpt, hsame⟩ := grow_if_full_spec h v buf ho
  obtain ⟨hle1, hlen1, hp1⟩ := ho1
  rcases hp1 with ⟨_, hcap0⟩ | ⟨a, hptr, hcpos, hl⟩
  · omega
  · obtain ⟨h2, buf2, hrun, u, hlen2, hpt2⟩ :=
      copy_backward_loop_shift (v1.size_ - i) h1 a v1.size_ buf1 hl (by omega) (by omega)
    have hsub : v1.size_ - (v1.size_ - i) = i := by omega
    rw [hsub] at hpt2
    have hf2 : Frame h1 v1 h2 v1 := Frame_of_update hptr hptr u
    refine ⟨h1, h2, v1, buf2, a, hg, ?_, ?_, hptr, u.2.1,
      ⟨hle1, by omega, Or.inr ⟨a, hptr, hcpos, u.2.1⟩⟩, Frame_trans f1 hf2, hs, hlt, hc, ?_, ?_, ?_⟩
    · have : i ≤ v1.size_ := by omega
      simp [std_copy_backward, SimpleVector.begin, SimpleVector.end_, Iter.add, ArrayPtr.Get,
        hptr, this, hrun]
    · have : i ≤ v1.size_ := by omega
      simp [std_move_backward, SimpleVector.begin, SimpleVector.end_, Iter.add, ArrayPtr.Get,
        hptr, this, hrun]
    · intro k hk
      rw [hpt2 k]
      have : ¬ (i < k ∧ k ≤ v1.size_) := by omega
      rw [if_neg this]
      exact hpt k (by omega)
    · intro k hik hk
      rw [hpt2 k]
      have : i < k ∧ k ≤ v1.size_ := by omega
      rw [if_pos this]
      exact hpt (k - 1) (by omega)
    · intro hcap
      obtain ⟨_, e2, e3⟩ := hsame hcap
      refine ⟨e2, ?_⟩
      intro k
      rw [hpt2 k, e3, hs]

/-- The last two statements of `Insert`: read the value, store it at `index`. -/
theorem Insert_run [Inhabited T] (h h1 h2 : Heap T) (v v1 : SimpleVector) (i a : Nat)
    (value : Ref T) (x : T) (buf2 : List T)
    (hg : grow_if_full h v = some (h1, v1))
    (hcb : std_copy_backward h1 (v1.begin.add i) v1.end_ (v1.end_.add 1) = some h2)
    (hmb : std_move_backward h1 (v1.begin.add i) v1.end_ (v1.end_.add 1) = some h2)
    (hptr : v1.data_.raw_ptr_ = some a) (hl : h2.lookup a = some buf2)
    (hi : i < buf2.length) (hx : h2.deref value = some x) :
    ∃ h3, SimpleVector.Insert h v (v.begin.add i) value
          = some (h3, { v1 with size_ := v1.size_ + 1 }, v1.begin.add i) ∧
      Insert_rv h v (v.begin.add i) value
          = some (h3, { v1 with size_ := v1.size_ + 1 }, v1.begin.add i) ∧
      Heap.Update h2 h3 a (buf2.set i x) := by
  obtain ⟨h3, hw, u⟩ := write_of_lookup h2 a i x buf2 hl hi
  have hd : (v.begin.add i).diff v.cbegin = some i := by
    simp [Iter.diff, Iter.add, SimpleVector.begin, SimpleVector.cbegin]
  refine ⟨h3, ?_, ?_, u⟩
  · simp [SimpleVector.Insert, hd, hg, hcb, hx, ArrayPtr.assign, hptr, hw]
  · simp [Insert_rv, hd, hg, hmb, hx, ArrayPtr.assign, hptr, hw]

theorem Owns_index_lt {h : Heap T} {v : SimpleVector} {buf : List T} (ho : Owns h v buf)
    {k : Nat} (hk : k < v.capacity_) :
    ∃ hb : k < buf.length, v.index h k = some (buf[k]) := by
  have hb : k < buf.length := by have := ho.2.1; omega
  exact ⟨hb, by rw [Owns_index ho k]; exact List.getElem?_eq_getElem hb⟩

/-- The elements after an insertion, from the contents of the array after the
shift (`buf2`) and the value stored at `i`. -/
theorem Insert_elements {h h3 : Heap T} {v v3 : SimpleVector} {buf buf2 : List T} {i : Nat}
    {x : T} (ho : Owns h v buf) (ho3 : Owns h3 v3 (buf2.set i x)) (hi : i ≤ v.size_)
    (hib : i < buf2.length)
    (hlo : ∀ k, k < i → buf2[k]? = buf[k]?)
    (hhi : ∀ k, i < k → k ≤ v.size_ → buf2[k]? = buf[k - 1]?) :
    v3.index h3 i = some x ∧
      (∀ k, k < i → ∃ y, v.index h k = some y ∧ v3.index h3 k = some y) ∧
      (∀ j, i ≤ j → j < v.size_ →
        ∃ y, v.index h j = some y ∧ v3.index h3 (j + 1) = some y) := by
  have hle := ho.1
  refine ⟨?_, ?_, ?_⟩
  · rw [Owns_index ho3 i]
    simp [List.getElem?_set, hib]
  · intro k hk
    obtain ⟨hkb, hke⟩ := Owns_index_lt ho (k := k) (by omega)
    refine ⟨buf[k], hke, ?_⟩
    rw [Owns_index ho3 k, List.getElem?_set_ne (by omega), hlo k hk]
    exact List.getElem?_eq_getElem hkb
  · intro j hij hj
    obtain ⟨hjb, hje⟩ := Owns_index_lt ho (k := j) (by omega)
    refine ⟨buf[j], hje, ?_⟩
    rw [Owns_index ho3 (j + 1), List.getElem?_set_ne (by omega), hhi (j + 1) (by omega) (by omega)]
    exact List.getElem?_eq_getElem hjb

/-- Erase on the level of the backing array: slots `[i, size - 1)` receive their
right neighbour, every other slot of the array is kept. -/
theorem Erase_spec (h : Heap T) (v : SimpleVector) (buf : List T) (i : Nat)
    (ho : Owns h v buf) (hi : i < v.size_) :
    ∃ h' buf', Erase h v (v.begin.add i)
        = some (h', { v with size_ := v.size_ - 1 }, v.begin.add i) ∧
      Owns h' { v with size_ := v.size_ - 1 } buf' ∧
      Frame h v h' { v with size_ := v.size_ - 1 } ∧
      ∀ k, buf'[k]? = if i ≤ k ∧ k < v.size_ - 1 then buf[k + 1]? else buf[k]? := by
  obtain ⟨hle, hlen, hp⟩ := ho
  rcases hp with ⟨_, hcap0⟩ | ⟨a, hptr, hcpos, hl⟩
  · omega
  · obtain ⟨h', buf', hrun, u, hlen', hpt⟩ :=
      copy_loop_shift (v.size_ - (i + 1)) h a i buf hl (by omega)
    have hd : (v.begin.add i).diff v.cbegin = some i := by
      simp [Iter.diff, Iter.add, SimpleVector.begin, SimpleVector.cbegin]
    have hne : v.size_ ≠ 0 := by omega
    have hile : i + 1 ≤ v.size_ := hi
    refine ⟨h', buf', ?_, ⟨by simp; omega, by simpa [hlen'] using hlen,
      Or.inr ⟨a, hptr, hcpos, u.2.1⟩⟩, Frame_of_update hptr hptr u, ?_⟩
    · simp only [Erase, hd]
      simp [std_move, SimpleVector.begin, SimpleVector.end_, Iter.add,
        ArrayPtr.Get, hptr, hile, hrun, hne]
    · intro k
      rw [hpt k]
      have e : i + (v.size_ - (i + 1)) = v.size_ - 1 := by omega
      rw [e]

/-- PushBack on the level of the backing array, for both overloads. -/
theorem PushBack_spec [Inhabited T] (h : Heap T) (v : SimpleVector) (buf : List T)
    (value : Ref T) (x : T) (ho : Owns h v buf) (hx : h.deref value = some x)
    (hout : value.outside v) :
    ∃ h' v' buf', PushBack h v value = some (h', v') ∧ PushBack_rv h v value = some (h', v') ∧
      Owns h' v' buf' ∧ Frame h v h' v' ∧ v'.size_ = v.size_ + 1 ∧
      v'.capacity_ = (if v.size_ = v.capacity_ then max 1 (2 * v.capacity_) else v.capacity_) ∧
      (∀ k, k < v.size_ → buf'[k]? = buf[k]?) ∧ buf'[v.size_]? = some x ∧
      (v.size_ < v.capacity_ → v'.data_ = v.data_) := by
  obtain ⟨h1, v1, buf1, hg, ho1, f1, hs, hlt, hc, hpt, hsame⟩ := grow_if_full_spec h v buf ho
  have hx1 : h1.deref value = some x := deref_frame f1 hout hx
  obtain ⟨hle1, hlen1, hp1⟩ := ho1
  rcases hp1 with ⟨_, hcap0⟩ | ⟨a, hptr, hcpos, hl⟩
  · omega
  · obtain ⟨h2, hw, u⟩ := write_of_lookup h1 a v1.size_ x buf1 hl (by omega)
    refine ⟨h2, { v1 with size_ := v1.size_ + 1 }, buf1.set v1.size_ x, ?_, ?_,
      ⟨by simp; omega, by simp [hlen1], Or.inr ⟨a, hptr, hcpos, u.2.1⟩⟩,
      Frame_trans f1 (Frame_of_update hptr hptr u), by simp [hs], hc, ?_, ?_, ?_⟩
    · simp [PushBack, hg, hx1, ArrayPtr.assign, hptr, hw]
    · simp [PushBack_rv, hg, hx1, ArrayPtr.assign, hptr, hw]
    · intro k hk
      rw [List.getElem?_set_ne (by omega)]
      exact hpt k hk
    · rw [← hs]
      simp [List.getElem?_set]
      omega
    · intro hcap
      rw [(hsame hcap).2.1]

/-- Resize on the level of the backing array. -/
theorem Resize_spec [Inhabited T] (h : Heap T) (v : SimpleVector) (buf : List T) (n : Nat)
    (ho : Owns h v buf) :
    ∃ h' v' buf', Resize h v n = some (h', v') ∧ Owns h' v' buf' ∧ Frame h v h' v' ∧
      v'.size_ = n ∧ v'.capacity_ = max v.capacity_ n ∧
      (n < v.size_ → h' = h ∧ v' = { v with size_ := n } ∧ buf' = buf) ∧
      (∀ k, k < v.size_ → k < n → buf'[k]? = buf[k]?) ∧
      (∀ k, v.size_ ≤ k → k < n → buf'[k]? = some default) := by
  by_cases hn : n < v.size_
  · have hle := ho.1
    refine ⟨h, { v with size_ := n }, buf, by simp [Resize, hn],
      ⟨by simp; omega, ho.2.1, ho.2.2⟩, ⟨le_refl _, fun _ _ _ => rfl, Or.inl rfl⟩, rfl,
      by simp; omega, fun _ => ⟨rfl, rfl, rfl⟩, fun _ _ _ => rfl, fun k h1 h2 => by omega⟩
  · obtain ⟨h1, v1, buf1, hr, ho1, f1, hs, hc, hpt, _⟩ := Reserve_spec h v buf n ho
    obtain ⟨hle1, hlen1, hp1⟩ := ho1
    by_cases hz : n = v.size_
    · -- nothing to fill
      subst hz
      refine ⟨h1, { v1 with size_ := v.size_ }, buf1, ?_, ⟨by simp; omega, hlen1, hp1⟩,
        Frame_trans f1 ⟨le_refl _, fun _ _ _ => rfl, Or.inl rfl⟩, rfl, hc,
        fun hc => by omega, fun k hk _ => hpt k hk, fun k h1 h2 => by omega⟩
      simp [Resize, hr, hs, fill_default]
    · rcases hp1 with ⟨_, hcap0⟩ | ⟨a, hptr, hcpos, hl⟩
      · omega
      · obtain ⟨h2, buf2, hrun, u, hlen2, hpt2⟩ :=
          fill_default_spec (n - v1.size_) h1 v1.data_ a v1.size_ buf1 hptr hl (by omega)
        refine ⟨h2, { v1 with size_ := n }, buf2, ?_,
          ⟨by simp; omega, by simp; omega, Or.inr ⟨a, hptr, hcpos, u.2.1⟩⟩,
          Frame_trans f1 (Frame_of_update hptr hptr u), rfl, hc, fun hc => by omega, ?_, ?_⟩
        · simp [Resize, hn, hr, hrun]
        · intro k hk _
          rw [hpt2 k, if_neg (by omega)]
          exact hpt k hk
        · intro k hk1 hk2
          rw [hpt2 k, if_pos (by omega)]

/-- Repeated PushBack on the level of the backing array; the last part says that
a capacity that is zero for an empty vector, or else a power of two below twice
the size, stays so. -/
theorem push_all_spec [Inhabited T] (xs : List T) : ∀ (h : Heap T) (v : SimpleVector)
    (buf : List T), Owns h v buf →
    ∃ h' v' buf', push_all h v xs = some (h', v') ∧ Owns h' v' buf' ∧
      v'.size_ = v.size_ + xs.length ∧
      (∀ k, k < v.size_ → buf'[k]? = buf[k]?) ∧
      (∀ k, k < xs.length → buf'[v.size_ + k]? = xs[k]?) ∧
      (((v.size_ = 0 ∧ v.capacity_ = 0) ∨ ∃ e, v.capacity_ = 2 ^ e ∧ v.capacity_ < 2 * v.size_) →
        ((v'.size_ = 0 ∧ v'.capacity_ = 0) ∨
          ∃ e, v'.capacity_ = 2 ^ e ∧ v'.capacity_ < 2 * v'.size_)) := by
  induction xs with
  | nil =>
    intro h v buf ho
    exact ⟨h, v, buf, rfl, ho, rfl, fun _ _ => rfl, fun k hk => by simp at hk, fun hg => hg⟩
  | cons x xs ih =>
    intro h v buf ho
    obtain ⟨h1, v1, buf1, hp, _, ho1, _, hs1, hc1, hpt1, hlast1, _⟩ :=
      PushBack_spec h v buf (.obj x) x ho rfl trivial
    obtain ⟨h', v', buf', hrun, ho', hs', hpt', hnew', hgrow'⟩ := ih h1 v1 buf1 ho1
    have hle := ho.1
    refine ⟨h', v', buf', by simp [push_all, hp, hrun], ho', by simp [hs', hs1]; omega,
      ?_, ?_, ?_⟩
    · intro k hk
      rw [hpt' k (by omega), hpt1 k hk]
    · intro k hk
      cases k with
      | zero =>
        simp only [Nat.add_zero, List.getElem?_cons_zero]
        rw [hpt' v.size_ (by omega), hlast1]
      | succ k =>
        simp only [List.getElem?_cons_succ]
        have e : v.size_ + (k + 1) = v1.size_ + k := by omega
        rw [e]
        exact hnew' k (by simpa using hk)
    · intro hg
      apply hgrow'
      right
      rcases hg with ⟨hz, hcz⟩ | ⟨e, he, hlt⟩
      · refine ⟨0, ?_, ?_⟩
        · rw [hc1, if_pos (by omega), hcz]; rfl
        · rw [hc1, if_pos (by omega), hcz, hs1]; simp; omega
      · by_cases hfull : v.size_ = v.capacity_
        · refine ⟨e + 1, ?_, ?_⟩
          · rw [hc1, if_pos hfull, he, pow_succ]
            have : 0 < 2 ^ e := Nat.two_pow_pos e
            omega
          · rw [hc1, if_pos hfull, hs1]
            have : 0 < 2 ^ e := Nat.two_pow_pos e
            omega
        · refine ⟨e, ?_, ?_⟩
          · rw [hc1, if_neg hfull, he]
          · rw [hc1, if_neg hfull, hs1]; omega

theorem write_modifies {h h' : Heap T} {p : Ptr} {i : Nat} {x : T}
    (hw : h.write p i x = some h') : Heap.ModifiesOnly h h' p := by
  unfold Heap.write at hw
  cases p with
  | none => simp at hw
  | some a =>
    simp only at hw
    cases hl : h.lookup a with
    | none => simp [hl] at hw
    | some buf =>
      simp only [hl] at hw
      split at hw
      · injection hw with hw
        subst hw
        refine ⟨by simp, ?_⟩
        intro b hb
        have : a ≠ b := fun hc => hb (by rw [hc])
        simp [lookup_set, this]
      · simp at hw

theorem delete_modifies {h h' : Heap T} {p : Ptr}
    (hd : h.delete_array p = some h') : Heap.ModifiesOnly h h' p := by
  unfold Heap.delete_array at hd
  cases p with
  | none =>
    simp only [Option.some.injEq] at hd
    subst hd
    exact ⟨rfl, fun _ _ => rfl⟩
  | some a =>
    simp only at hd
    cases hl : h.lookup a with
    | none => simp [hl] at hd
    | some buf =>
      simp only [hl, Option.some.injEq] at hd
      subst hd
      refine ⟨by simp, ?_⟩
      intro b hb
      have : a ≠ b := fun hc => hb (by rw [hc])
      simp [lookup_set, this]

theorem ModifiesOnly_refl (h : Heap T) (p : Ptr) : Heap.ModifiesOnly h h p :=
  ⟨rfl, fun _ _ => rfl⟩

theorem ModifiesOnly_trans {h h1 h2 : Heap T} {p : Ptr}
    (m1 : Heap.ModifiesOnly h h1 p) (m2 : Heap.ModifiesOnly h1 h2 p) :
    Heap.ModifiesOnly h h2 p :=
  ⟨m2.1.trans m1.1, fun b hb => (m2.2 b hb).trans (m1.2 b hb)⟩

theorem copy_loop_modifies (n : Nat) : ∀ (h h' : Heap T) (src dst : Ptr) (first d : Nat),
    copy_loop h src first dst d n = some h' → Heap.ModifiesOnly h h' dst := by
  induction n with
  | zero =>
    intro h h' src dst first d hrun
    simp only [copy_loop, Option.some.injEq] at hrun
    subst hrun
    exact ModifiesOnly_refl h dst
  | succ n ih =>
    intro h h' src dst first d hrun
    simp only [copy_loop] at hrun
    cases hr : h.read src first with
    | none => simp [hr] at hrun
    | some x =>
      simp only [hr] at hrun
      cases hw : h.write dst d x with
      | none => simp [hw] at hrun
      | some h1 =>
        simp only [hw] at hrun
        exact ModifiesOnly_trans (write_modifies hw) (ih h1 h' src dst _ _ hrun)

theorem copy_backward_loop_modifies (n : Nat) :
    ∀ (h h' : Heap T) (src dst : Ptr) (last d : Nat),
    copy_backward_loop h src last dst d n = some h' → Heap.ModifiesOnly h h' dst := by
  induction n with
  | zero =>
    intro h h' src dst last d hrun
    simp only [copy_backward_loop, Option.some.injEq] at hrun
    subst hrun
    exact ModifiesOnly_refl h dst
  | succ n ih =>
    intro h h' src dst last d hrun
    simp only [copy_backward_loop] at hrun
    split at hrun
    · cases hr : h.read src (last - 1) with
      | none => simp [hr] at hrun
      | some x =>
        simp only [hr] at hrun
        cases hw : h.write dst (d - 1) x with
        | none => simp [hw] at hrun
        | some h1 =>
          simp only [hw] at hrun
          exact ModifiesOnly_trans (write_modifies hw) (ih h1 h' src dst _ _ hrun)
    · simp at hrun

theorem fill_default_modifies [Inhabited T] (n : Nat) :
    ∀ (h h' : Heap T) (d : ArrayPtr) (i : Nat),
    fill_default h d i n = some h' → Heap.ModifiesOnly h h' d.raw_ptr_ := by
  induction n with
  | zero =>
    intro h h' d i hrun
    simp only [fill_default, Option.some.injEq] at hrun
    subst hrun
    exact ModifiesOnly_refl h _
  | succ n ih =>
    intro h h' d i hrun
    simp only [fill_default] at hrun
    cases hw : d.assign h i (default : T) with
    | none => simp [hw] at hrun
    | some h1 =>
      simp only [hw] at hrun
      have hw' : h.write d.raw_ptr_ i default = some h1 := by
        unfold ArrayPtr.assign at hw
        split at hw
        · exact hw
        · simp at hw
      exact ModifiesOnly_trans (write_modifies hw') (ih h1 h' d _ hrun)

/-- A step that only modifies the array of `v` and keeps `data_` is framed. -/
theorem Frame_of_modifies {h h' : Heap T} {v v' : SimpleVector}
    (m : Heap.ModifiesOnly h h' v.data_.raw_ptr_) (hd : v'.data_ = v.data_) :
    Frame h v h' v' :=
  ⟨le_of_eq m.1.symm, fun b _ hb => m.2 b hb, Or.inl (by rw [hd])⟩

theorem Reserve_frame [Inhabited T] {h h' : Heap T} {v v' : SimpleVector} {n : Nat}
    (hr : Reserve h v n = some (h', v')) : Frame h v h' v' := by
  unfold Reserve at hr
  split at hr
  · rename_i hgt
    have hpos : 0 < n := by omega
    rw [ofSize_pos h n hpos] at hr
    simp only [ArrayPtr.Get, ArrayPtr.swap, ArrayPtr.destroy] at hr
    cases hm : std_move (h.new_array n).1 v.begin v.end_ ⟨some h.cells.length, 0⟩ with
    | none => simp [hm] at hr
    | some h2 =>
      simp only [hm] at hr
      cases hd : h2.delete_array v.data_.raw_ptr_ with
      | none => simp [hd] at hr
      | some h3 =>
        simp only [hd, Option.some.injEq, Prod.mk.injEq] at hr
        obtain ⟨e1, e2⟩ := hr
        subst e1
        subst e2
        have m2 : Heap.ModifiesOnly (h.new_array n).1 h2 (some h.cells.length) := by
          unfold std_move at hm
          split at hm
          · exact copy_loop_modifies _ _ _ _ _ _ _ hm
          · simp at hm
        have m3 := delete_modifies hd
        refine ⟨by rw [m3.1, m2.1, new_array_length]; omega, ?_,
          Or.inr ⟨h.cells.length, rfl, le_refl _⟩⟩
        intro b hb hne
        have hne2 : (some h.cells.length : Ptr) ≠ some b := by
          intro hc; injection hc with hc; omega
        rw [m3.2 b hne, m2.2 b hne2]
        simp [lookup_new_array, Nat.ne_of_lt hb]
  · simp only [Option.some.injEq, Prod.mk.injEq] at hr
    obtain ⟨e1, e2⟩ := hr
    subst e1
    subst e2
    exact Frame_refl h v

theorem grow_if_full_frame [Inhabited T] {h h' : Heap T} {v v' : SimpleVector}
    (hg : grow_if_full h v = some (h', v')) : Frame h v h' v' := by
  unfold grow_if_full at hg
  split at hg
  · exact Reserve_frame hg
  · simp only [Option.some.injEq, Prod.mk.injEq] at hg
    obtain ⟨e1, e2⟩ := hg
    subst e1
    subst e2
    exact Frame_refl h v

theorem assign_modifies {h h' : Heap T} {d : ArrayPtr} {i : Nat} {x : T}
    (hw : d.assign h i x = some h') : Heap.ModifiesOnly h h' d.raw_ptr_ := by
  unfold ArrayPtr.assign at hw
  split at hw
  · exact write_modifies hw
  · simp at hw

theorem PushBack_frame [Inhabited T] {h h' : Heap T} {v v' : SimpleVector} {value : Ref T}
    (hp : PushBack h v value = some (h', v')) : Frame h v h' v' := by
  unfold PushBack at hp
  cases hg : grow_if_full h v with
  | none => simp [hg] at hp
  | some r =>
    obtain ⟨h1, v1⟩ := r
    simp only [hg] at hp
    cases hx : h1.deref value with
    | none => simp [hx] at hp
    | some x =>
      simp only [hx] at hp
      cases hw : v1.data_.assign h1 v1.size_ x with
      | none => simp [hw] at hp
      | some h2 =>
        simp only [hw, Option.some.injEq, Prod.mk.injEq] at hp
        obtain ⟨e1, e2⟩ := hp
        subst e1
        subst e2
        exact Frame_trans (grow_if_full_frame hg) (Frame_of_modifies (assign_modifies hw) rfl)

theorem PushBack_rv_frame [Inhabited T] {h h' : Heap T} {v v' : SimpleVector} {value : Ref T}
    (hp : PushBack_rv h v value = some (h', v')) : Frame h v h' v' := by
  unfold PushBack_rv at hp
  cases hg : grow_if_full h v with
  | none => simp [hg] at hp
  | some r =>
    obtain ⟨h1, v1⟩ := r
    simp only [hg] at hp
    cases hx : h1.deref value with
    | none => simp [hx] at hp
    | some x =>
      simp only [hx] at hp
      cases hw : v1.data_.assign h1 v1.size_ x with
      | none => simp [hw] at hp
      | some h2 =>
        simp only [hw, Option.some.injEq, Prod.mk.injEq] at hp
        obtain ⟨e1, e2⟩ := hp
        subst e1
        subst e2
        exact Frame_trans (grow_if_full_frame hg) (Frame_of_modifies (assign_modifies hw) rfl)

theorem Insert_frame [Inhabited T] {h h' : Heap T} {v v' : SimpleVector} {pos it : Iter}
    {value : Ref T} (hp : SimpleVector.Insert h v pos value = some (h', v', it)) :
    Frame h v h' v' := by
  unfold SimpleVector.Insert at hp
  cases hd : pos.diff v.cbegin with
  | none => simp [hd] at hp
  | some index =>
    simp only [hd] at hp
    cases hg : grow_if_full h v with
    | none => simp [hg] at hp
    | some r =>
      obtain ⟨h1, v1⟩ := r
      simp only [hg] at hp
      cases hc : std_copy_backward h1 (v1.begin.add index) v1.end_ (v1.end_.add 1) with
      | none => simp [hc] at hp
      | some h2 =>
        simp only [hc] at hp
        cases hx : h2.deref value with
        | none => simp [hx] at hp
        | some x =>
          simp only [hx] at hp
          cases hw : v1.data_.assign h2 index x with
          | none => simp [hw] at hp
          | some h3 =>
            simp only [hw, Option.some.injEq, Prod.mk.injEq] at hp
            obtain ⟨e1, e2, _⟩ := hp
            subst e1
            subst e2
            have m2 : Heap.ModifiesOnly h1 h2 v1.data_.raw_ptr_ := by
              unfold std_copy_backward at hc
              split at hc
              · exact copy_backward_loop_modifies _ _ _ _ _ _ _ hc
              · simp at hc
            exact Frame_trans (grow_if_full_frame hg)
              (Frame_of_modifies (ModifiesOnly_trans m2 (assign_modifies hw)) rfl)

theorem Insert_rv_frame [Inhabited T] {h h' : Heap T} {v v' : SimpleVector} {pos it : Iter}
    {value : Ref T} (hp : Insert_rv h v pos value = some (h', v', it)) :
    Frame h v h' v' := by
  unfold Insert_rv at hp
  cases hd : pos.diff v.cbegin with
  | none => simp [hd] at hp
  | some index =>
    simp only [hd] at hp
    cases hg : grow_if_full h v with
    | none => simp [hg] at hp
    | some r =>
      obtain ⟨h1, v1⟩ := r
      simp only [hg] at hp
      cases hc : std_move_backward h1 (v1.begin.add index) v1.end_ (v1.end_.add 1) with
      | none => simp [hc] at hp
      | some h2 =>
        simp only [hc] at hp
        cases hx : h2.deref value with
        | none => simp [hx] at hp
        | some x =>
          simp only [hx] at hp
          cases hw : v1.data_.assign h2 index x with
          | none => simp [hw] at hp
          | some h3 =>
            simp only [hw, Option.some.injEq, Prod.mk.injEq] at hp
            obtain ⟨e1, e2, _⟩ := hp
            subst e1
            subst e2
            have m2 : Heap.ModifiesOnly h1 h2 v1.data_.raw_ptr_ := by
              unfold std_move_backward at hc
              split at hc
              · exact copy_backward_loop_modifies _ _ _ _ _ _ _ hc
              · simp at hc
            exact Frame_trans (grow_if_full_frame hg)
              (Frame_of_modifies (ModifiesOnly_trans m2 (assign_modifies hw)) rfl)

theorem Erase_frame {h h' : Heap T} {v v' : SimpleVector} {pos it : Iter}
    (hp : Erase h v pos = some (h', v', it)) : Frame h v h' v' := by
  unfold Erase at hp
  cases hd : pos.diff v.cbegin with
  | none => simp [hd] at hp
  | some index =>
    simp only [hd] at hp
    cases hm : std_move h ((v.begin.add index).add 1) v.end_ (v.begin.add index) with
    | none => simp [hm] at hp
    | some h1 =>
      simp only [hm, Option.some.injEq, Prod.mk.injEq] at hp
      obtain ⟨e1, e2, _⟩ := hp
      subst e1
      subst e2
      have m1 : Heap.ModifiesOnly h h1 v.data_.raw_ptr_ := by
        unfold std_move at hm
        split at hm
        · exact copy_loop_modifies _ _ _ _ _ _ _ hm
        · simp at hm
      exact Frame_of_modifies m1 rfl

theorem Resize_frame [Inhabited T] {h h' : Heap T} {v v' : SimpleVector} {n : Nat}
    (hp : Resize h v n = some (h', v')) : Frame h v h' v' := by
  unfold Resize at hp
  split at hp
  · simp only [Option.some.injEq, Prod.mk.injEq] at hp
    obtain ⟨e1, e2⟩ := hp
    subst e1
    subst e2
    exact Frame_of_modifies (ModifiesOnly_refl h _) rfl
  · cases hr : Reserve h v n with
    | none => simp [hr] at hp
    | some r =>
      obtain ⟨h1, v1⟩ := r
      simp only [hr] at hp
      cases hf : fill_default h1 v1.data_ v1.size_ (n - v1.size_) with
      | none => simp [hf] at hp
      | some h2 =>
        simp only [hf, Option.some.injEq, Prod.mk.injEq] at hp
        obtain ⟨e1, e2⟩ := hp
        subst e1
        subst e2
        exact Frame_trans (Reserve_frame hr)
          (Frame_of_modifies (fill_default_modifies _ _ _ _ _ hf) rfl)

/-- Every mutating call on `v` that is defined is framed. -/
theorem apply_frame [Inhabited T] {m : Mutation T} {h h' : Heap T} {v v' : SimpleVector}
    (hp : m.apply h v = some (h', v')) : Frame h v h' v' := by
  cases m with
  | PushBack value => exact PushBack_frame hp
  | PushBack_rv value => exact PushBack_rv_frame hp
  | PopBack =>
    simp only [Mutation.apply, Option.some.injEq, Prod.mk.injEq] at hp
    obtain ⟨e1, e2⟩ := hp
    subst e1; subst e2
    exact Frame_of_modifies (ModifiesOnly_refl h _) rfl
  | Insert pos value =>
    simp only [Mutation.apply, Option.map_eq_some'] at hp
    obtain ⟨⟨h1, v1, it⟩, hr, e⟩ := hp
    simp only [Prod.mk.injEq] at e
    obtain ⟨e1, e2⟩ := e
    subst e1; subst e2
    exact Insert_frame hr
  | Insert_rv pos value =>
    simp only [Mutation.apply, Option.map_eq_some'] at hp
    obtain ⟨⟨h1, v1, it⟩, hr, e⟩ := hp
    simp only [Prod.mk.injEq] at e
    obtain ⟨e1, e2⟩ := e
    subst e1; subst e2
    exact Insert_rv_frame hr
  | Erase pos =>
    simp only [Mutation.apply, Option.map_eq_some'] at hp
    obtain ⟨⟨h1, v1, it⟩, hr, e⟩ := hp
    simp only [Prod.mk.injEq] at e
    obtain ⟨e1, e2⟩ := e
    subst e1; subst e2
    exact Erase_frame hr
  | Reserve n => exact Reserve_frame hp
  | Resize n => exact Resize_frame hp
  | Clear =>
    simp only [Mutation.apply, Option.some.injEq, Prod.mk.injEq] at hp
    obtain ⟨e1, e2⟩ := hp
    subst e1; subst e2
    exact Frame_of_modifies (ModifiesOnly_refl h _) rfl
  | Store i x =>
    simp only [Mutation.apply, Option.map_eq_some'] at hp
    obtain ⟨h1, hr, e⟩ := hp
    simp only [Prod.mk.injEq] at e
    obtain ⟨e1, e2⟩ := e
    subst e1; subst e2
    exact Frame_of_modifies (assign_modifies hr) rfl

theorem apply_all_frame [Inhabited T] (ms : List (Mutation T)) :
    ∀ {h h' : Heap T} {v v' : SimpleVector},
    apply_all h v ms = some (h', v') → Frame h v h' v' := by
  induction ms with
  | nil =>
    intro h h' v v' hp
    simp only [apply_all, Option.some.injEq, Prod.mk.injEq] at hp
    obtain ⟨e1, e2⟩ := hp
    subst e1; subst e2
    exact Frame_refl h v
  | cons m ms ih =>
    intro h h' v v' hp
    simp only [apply_all] at hp
    cases hm : m.apply h v with
    | none => simp [hm] at hp
    | some r =>
      obtain ⟨h1, v1⟩ := r
      simp only [hm] at hp
      exact Frame_trans (apply_frame hm) (ih hp)

/-- A framed step of `y` leaves a vector `x` that owns another array as it was. -/
theorem index_of_frame {h h' : Heap T} {x y y' : SimpleVector}
    (f : Frame h y h' y') (hx : Valid h x) (hsep : Separate x y) :
    Valid h' x ∧ ∀ k, x.index h' k = x.index h k := by
  obtain ⟨hle, hm⟩ := hx
  cases hp : x.data_.raw_ptr_ with
  | none =>
    rw [hp] at hm
    refine ⟨⟨hle, by rw [hp]; exact hm⟩, ?_⟩
    intro k
    simp [SimpleVector.index, ArrayPtr.index, hp]
  | some a =>
    rw [hp] at hm
    obtain ⟨hpos, hmap⟩ := hm
    cases hl : h.lookup a with
    | none => simp [hl] at hmap
    | some buf =>
      have hlt := lookup_lt h a buf hl
      have hne : y.data_.raw_ptr_ ≠ some a := by
        rcases hsep with hn | hn
        · rw [hp] at hn; simp at hn
        · rw [hp] at hn; exact fun hc => hn hc.symm
      have hsame : h'.lookup a = h.lookup a := f.2.1 a hlt hne
      refine ⟨⟨hle, by rw [hp]; exact ⟨hpos, by rw [hsame]; exact hmap⟩⟩, ?_⟩
      intro k
      simp [SimpleVector.index, ArrayPtr.index, hp, Heap.read, hsame]

/-- The copy constructor on the level of the backing arrays: the copy owns a
fresh array (or none, for an empty source) and no existing array changes. -/
theorem copy_ctor_spec [Inhabited T] (h : Heap T) (x : SimpleVector) (buf : List T)
    (ho : Owns h x buf) :
    ∃ h1 z zbuf, copy_ctor h x = some (h1, z) ∧ Owns h1 z zbuf ∧
      z.size_ = x.size_ ∧ z.capacity_ = x.size_ ∧
      (∀ k, k < x.size_ → zbuf[k]? = buf[k]?) ∧
      h.cells.length ≤ h1.cells.length ∧
      (∀ b, b < h.cells.length → h1.lookup b = h.lookup b) ∧
      (z.data_.raw_ptr_ = none ∨ z.data_.raw_ptr_ = some h.cells.length) := by
  by_cases hz : x.size_ = 0
  · refine ⟨h, ⟨x.size_, x.size_, ⟨none⟩⟩, [], ?_, ⟨le_refl _, by simp [hz], Or.inl ⟨rfl, hz⟩⟩,
      rfl, rfl, fun k hk => by omega, le_refl _, fun _ _ => rfl, Or.inl rfl⟩
    simp [copy_ctor, hz, ofSize_zero, std_copy, SimpleVector.begin, SimpleVector.end_,
      copy_loop]
  · have hpos : 0 < x.size_ := Nat.pos_of_ne_zero hz
    obtain ⟨hle, hlen, hp⟩ := ho
    rcases hp with ⟨_, hcap0⟩ | ⟨a, hptr, hcpos, hl⟩
    · omega
    · have halt : a < h.cells.length := lookup_lt h a buf hl
      have hne : a ≠ h.cells.length := Nat.ne_of_lt halt
      have hl1 : (h.new_array x.size_).1.lookup a = some buf := by
        simp [lookup_new_array, hne, hl]
      have hl1n : (h.new_array x.size_).1.lookup h.cells.length
          = some (List.replicate x.size_ (default : T)) := by
        simp [lookup_new_array]
      obtain ⟨h2, zbuf, hrun, u, hzlen, hpt⟩ :=
        copy_loop_distinct x.size_ (h.new_array x.size_).1 a h.cells.length 0 buf
          (List.replicate x.size_ default) hne hl1 hl1n (by omega) (by simp)
      refine ⟨h2, ⟨x.size_, x.size_, ⟨some h.cells.length⟩⟩, zbuf, ?_,
        ⟨le_refl _, by simpa using hzlen, Or.inr ⟨h.cells.length, rfl, hpos, u.2.1⟩⟩,
        rfl, rfl, ?_, by rw [u.1, new_array_length]; omega, ?_, Or.inr rfl⟩
      · simp [copy_ctor, ofSize_pos h x.size_ hpos, std_copy, SimpleVector.begin,
          SimpleVector.end_, ArrayPtr.Get, hptr, hrun]
      · intro k hk
        rw [hpt k]
        simp [hk]
      · intro b hb
        rw [u.2.2 b (Nat.ne_of_lt hb)]
        simp [lookup_new_array, Nat.ne_of_lt hb]

/-- Reading a vector in a heap where its array is unchanged. -/
theorem index_of_lookup {h h' : Heap T} {x : SimpleVector}
    (hx : Valid h x) (hsame : ∀ a, x.data_.raw_ptr_ = some a → h'.lookup a = h.lookup a) :
    Valid h' x ∧ ∀ k, x.index h' k = x.index h k := by
  obtain ⟨hle, hm⟩ := hx
  cases hp : x.data_.raw_ptr_ with
  | none =>
    rw [hp] at hm
    refine ⟨⟨hle, by rw [hp]; exact hm⟩, ?_⟩
    intro k
    simp [SimpleVector.index, ArrayPtr.index, hp]
  | some a =>
    rw [hp] at hm
    have e := hsame a hp
    refine ⟨⟨hle, ?_⟩, ?_⟩
    · rw [hp]
      show 0 < x.capacity_ ∧ Option.map List.length (h'.lookup a) = some x.capacity_
      rw [e]
      exact hm
    · intro k
      simp [SimpleVector.index, ArrayPtr.index, hp, Heap.read, e]

/-- The array of a well-formed vector lies in the address range of the heap. -/
theorem Valid_ptr_lt {h : Heap T} {x : SimpleVector} (hx : Valid h x) {a : Nat}
    (hp : x.data_.raw_ptr_ = some a) : a < h.cells.length ∧ ∃ buf, h.lookup a = some buf := by
  obtain ⟨_, hm⟩ := hx
  rw [hp] at hm
  cases hl : h.lookup a with
  | none => simp [hl] at hm
  | some buf => exact ⟨lookup_lt h a buf hl, buf, rfl⟩

/-- The postcondition of a copy, from the facts on the arrays. -/
theorem CopyPost_intro [Inhabited T] {h h1 : Heap T} {x z : SimpleVector} {buf zbuf : List T}
    (ms : List (Mutation T)) (ho : Owns h x buf) (hoz : Owns h1 z zbuf)
    (hs : z.size_ = x.size_) (hc : z.capacity_ = x.size_)
    (hpt : ∀ k, k < x.size_ → zbuf[k]? = buf[k]?)
    (hsame : ∀ a, x.data_.raw_ptr_ = some a → h1.lookup a = h.lookup a)
    (hfresh : ∀ a, x.data_.raw_ptr_ = some a → z.data_.raw_ptr_ ≠ some a) :
    CopyPost h x h1 z ms := by
  have hx : Valid h x := Owns_valid ho
  obtain ⟨hx1, hidx1⟩ := index_of_lookup hx hsame
  have hle := ho.1
  refine ⟨Owns_valid hoz, hs, hc, ?_, hx1, hidx1, ?_⟩
  · intro k hk
    obtain ⟨hkb, hke⟩ := Owns_index_lt ho (k := k) (by omega)
    refine ⟨buf[k], hke, ?_⟩
    rw [Owns_index hoz k, hpt k hk]
    exact List.getElem?_eq_getElem hkb
  · intro h2 z2 hrun
    have f := apply_all_frame ms hrun
    have hsep : Separate x z := by
      cases hp : x.data_.raw_ptr_ with
      | none => exact Or.inl hp
      | some a =>
        right
        rw [hp]
        exact fun hc => hfresh a hp hc.symm
    obtain ⟨hx2, hidx2⟩ := index_of_frame f hx1 hsep
    exact ⟨hx2, fun k => (hidx2 k).trans (hidx1 k)⟩

/-- Copy assignment from a non-empty distinct vector, on the level of the
backing arrays: the target takes over a fresh copy and its old array is
released; no other array changes. -/
theorem copy_assign_spec [Inhabited T] (h : Heap T) (x y : SimpleVector) (buf : List T)
    (ho : Owns h x buf) (hy : Valid h y) (hne : 0 < x.size_) :
    ∃ h2 z zbuf, copy_assign h y (.distinct x) = some (h2, z) ∧ Owns h2 z zbuf ∧
      z.size_ = x.size_ ∧ z.capacity_ = x.size_ ∧
      (∀ k, k < x.size_ → zbuf[k]? = buf[k]?) ∧
      (∀ b, b < h.cells.length → y.data_.raw_ptr_ ≠ some b → h2.lookup b = h.lookup b) ∧
      z.data_.raw_ptr_ = some h.cells.length := by
  obtain ⟨h1, t, zbuf, hcopy, hot, hs, hc, hpt, hlen1, hkeep, hfresh⟩ := copy_ctor_spec h x buf ho
  obtain ⟨hle, hzlen, hp⟩ := hot
  have hptr : t.data_.raw_ptr_ = some h.cells.length := by
    rcases hfresh with e | e
    · rcases hp with ⟨_, hcap0⟩ | ⟨a, hpa, _, _⟩
      · omega
      · rw [e] at hpa; simp at hpa
    · exact e
  have hlz : h1.lookup h.cells.length = some zbuf := by
    rcases hp with ⟨hnull, _⟩ | ⟨a, hpa, _, hl⟩
    · rw [hptr] at hnull; simp at hnull
    · rw [hptr] at hpa
      injection hpa with hpa
      rw [hpa]; exact hl
  have hynew : y.data_.raw_ptr_ ≠ some h.cells.length := by
    intro hc
    have := (Valid_ptr_lt hy hc).1
    omega
  have hdel : ∃ h2, h1.delete_array y.data_.raw_ptr_ = some h2 ∧
      Heap.ModifiesOnly h1 h2 y.data_.raw_ptr_ := by
    cases hpy : y.data_.raw_ptr_ with
    | none => exact ⟨h1, rfl, ModifiesOnly_refl h1 _⟩
    | some b =>
      obtain ⟨hb, bbuf, hbl⟩ := Valid_ptr_lt hy hpy
      obtain ⟨h2, hd, _⟩ := delete_of_lookup h1 b bbuf ((hkeep b hb).trans hbl)
      exact ⟨h2, hd, delete_modifies hd⟩
  obtain ⟨h2, hd, m⟩ := hdel
  have hempty : x.IsEmpty = false := by
    simp [SimpleVector.IsEmpty]; omega
  refine ⟨h2, ⟨t.size_, t.capacity_, ⟨t.data_.raw_ptr_⟩⟩, zbuf, ?_,
    ⟨hle, hzlen, Or.inr ⟨h.cells.length, hptr, by show 0 < t.capacity_; omega, ?_⟩⟩,
    hs, hc, hpt, ?_, hptr⟩
  · simp [copy_assign, hempty, hcopy, SimpleVector.swap, ArrayPtr.swap, SimpleVector.destroy,
      ArrayPtr.destroy, hd]
  · rw [m.2 _ hynew]; exact hlz
  · intro b hb hyb
    rw [m.2 b hyb, hkeep b hb]

/-- A live element of a well-formed vector can be read through `data_`. -/
theorem Valid_read {h : Heap T} {v : SimpleVector} (hv : Valid h v) {k : Nat} (hk : k < v.size_) :
    ∃ x, h.read v.data_.raw_ptr_ k = some x ∧ v.index h k = some x := by
  obtain ⟨buf, ho⟩ := (Valid_iff_Owns h v).mp hv
  have hle := ho.1
  obtain ⟨hb, he⟩ := Owns_index_lt ho (k := k) (by omega)
  refine ⟨buf[k], ?_, he⟩
  simp only [SimpleVector.index, ArrayPtr.index] at he
  split at he
  · exact he
  · simp at he

theorem equal_loop_spec [DecidableEq T] (n : Nat) : ∀ (h : Heap T) (p1 p2 : Ptr) (i : Nat),
    (∀ k, i ≤ k → k < i + n → ∃ x y, h.read p1 k = some x ∧ h.read p2 k = some y) →
    ∃ r, equal_loop h p1 i p2 i n = some r ∧
      (r = true ↔ ∀ k, i ≤ k → k < i + n → h.read p1 k = h.read p2 k) := by
  induction n with
  | zero =>
    intro h p1 p2 i _
    exact ⟨true, rfl, by simp; intro k h1 h2; omega⟩
  | succ n ih =>
    intro h p1 p2 i hread
    obtain ⟨x, y, hx, hy⟩ := hread i (le_refl _) (by omega)
    by_cases hxy : x = y
    · obtain ⟨r, hr, hiff⟩ := ih h p1 p2 (i + 1) (fun k h1 h2 => hread k (by omega) (by omega))
      refine ⟨r, by simp [equal_loop, hx, hy, hxy, hr], ?_⟩
      rw [hiff]
      constructor
      · intro hall k h1 h2
        by_cases hki : k = i
        · rw [hki, hx, hy, hxy]
        · exact hall k (by omega) (by omega)
      · intro hall k h1 h2
        exact hall k (by omega) (by omega)
    · refine ⟨false, by simp [equal_loop, hx, hy, hxy], ?_⟩
      simp only [Bool.false_eq_true, false_iff]
      intro hall
      have := hall i (le_refl _) (by omega)
      rw [hx, hy] at this
      exact hxy (Option.some.inj this)

/-- The result of `operator==` on two well-formed vectors. -/
theorem op_eq_spec [DecidableEq T] (h : Heap T) (a b : SimpleVector)
    (ha : Valid h a) (hb : Valid h b) :
    ∃ r, op_eq h a b = some r ∧
      (r = true ↔ a.size_ = b.size_ ∧ ∀ i, i < a.size_ → a.index h i = b.index h i) := by
  by_cases hs : a.size_ = b.size_
  · obtain ⟨r, hr, hiff⟩ := equal_loop_spec a.size_ h a.data_.raw_ptr_ b.data_.raw_ptr_ 0
      (fun k _ hk => by
        obtain ⟨x, hx, _⟩ := Valid_read ha (k := k) (by omega)
        obtain ⟨y, hy, _⟩ := Valid_read hb (k := k) (by omega)
        exact ⟨x, y, hx, hy⟩)
    refine ⟨r, ?_, ?_⟩
    · simp [op_eq, SimpleVector.GetSize, hs, std_equal, SimpleVector.begin, SimpleVector.end_,
        ArrayPtr.Get]
      rw [← hs]; exact hr
    · rw [hiff]
      constructor
      · intro hall
        refine ⟨hs, fun i hi => ?_⟩
        obtain ⟨x, hx, hxi⟩ := Valid_read ha (k := i) hi
        obtain ⟨y, hy, hyi⟩ := Valid_read hb (k := i) (by omega)
        rw [hxi, hyi, ← hx, ← hy]
        exact hall i (Nat.zero_le _) (by omega)
      · rintro ⟨_, hall⟩ k _ hk
        obtain ⟨x, hx, hxi⟩ := Valid_read ha (k := k) (by omega)
        obtain ⟨y, hy, hyi⟩ := Valid_read hb (k := k) (by omega)
        rw [hx, hy, ← hxi, ← hyi]
        exact hall k (by omega)
  · exact ⟨false, by simp [op_eq, SimpleVector.GetSize, hs], by simp [hs]⟩

/-- Two vectors have the same list of live elements exactly when they have the
same size and the same element at every index below it. -/
theorem elements_eq_iff (h h' : Heap T) (a a' : SimpleVector) :
    elements h' a' = elements h a ↔
      a'.size_ = a.size_ ∧ ∀ i, i < a.size_ → a'.index h' i = a.index h i := by
  constructor
  · intro he
    have hl : a'.size_ = a.size_ := by
      have := congrArg List.length he
      simpa [elements] using this
    refine ⟨hl, fun i hi => ?_⟩
    have := congrArg (fun l => l[i]?) he
    simpa [elements, List.getElem?_map, List.getElem?_range, hi, hl] using this
  · rintro ⟨hl, hall⟩
    apply List.ext_getElem?
    intro i
    by_cases hi : i < a.size_
    · simp [elements, List.getElem?_map, List.getElem?_range, hi, hl, hall i hi]
    · have hn : (List.range a.size_)[i]? = none :=
        List.getElem?_eq_none (by simp; omega)
      simp [elements, List.getElem?_map, hl, hn]

/-- Filling slots `[i, i + n)` of the array at `a` with a value read through a
reference that does not point into that array. -/
theorem fill_loop_spec (n : Nat) : ∀ (h : Heap T) (a i : Nat) (buf : List T) (value : Ref T)
    (x : T), h.lookup a = some buf → i + n ≤ buf.length → h.deref value = some x →
    (∀ j, value ≠ .elem a j) →
    ∃ h' buf', fill_loop h (some a) i value n = some h' ∧
      Heap.Update h h' a buf' ∧ buf'.length = buf.length ∧
      ∀ k, buf'[k]? = if i ≤ k ∧ k < i + n then some x else buf[k]? := by
  induction n with
  | zero =>
    intro h a i buf value x hl _ _ _
    refine ⟨h, buf, rfl, Update_refl h a buf hl, rfl, ?_⟩
    intro k
    have : ¬ (i ≤ k ∧ k < i + 0) := by omega
    rw [if_neg this]
  | succ n ih =>
    intro h a i buf value x hl hlen hx hout
    obtain ⟨h1, hw, u1⟩ := write_of_lookup h a i x buf hl (by omega)
    have hx1 : h1.deref value = some x := by
      cases value with
      | obj y => simpa [Heap.deref] using hx
      | elem b j =>
        have hba : b ≠ a := fun hc => hout j (by rw [hc])
        simp only [Heap.deref, Heap.read] at hx ⊢
        rw [u1.2.2 b hba]
        exact hx
    obtain ⟨h', buf', hrun, u2, hlen', hpt⟩ :=
      ih h1 a (i + 1) (buf.set i x) value x u1.2.1 (by simp; omega) hx1 hout
    refine ⟨h', buf', ?_, Update_trans u1 u2, by simpa using hlen', ?_⟩
    · simp only [fill_loop, hx, hw]
      exact hrun
    · intro k
      rw [hpt k]
      simp only [List.getElem?_set]
      by_cases hk1 : i + 1 ≤ k ∧ k < i + 1 + n
      · have hk2 : i ≤ k ∧ k < i + (n + 1) := by omega
        simp [hk1, hk2]
      · by_cases hk4 : k = i
        · subst hk4
          have hk2 : k ≤ k ∧ k < k + (n + 1) := by omega
          have hk5 : k < buf.length := by omega
          simp [hk1, hk2, hk5]
        · have hk2 : ¬ (i ≤ k ∧ k < i + (n + 1)) := by omega
          simp [hk1, hk2, Ne.symm hk4]

/-- Copying the values of a list to the slots `[i, i + length)` of the array at `a`. -/
theorem copy_from_list_spec (xs : List T) : ∀ (h : Heap T) (a i : Nat) (buf : List T),
    h.lookup a = some buf → i + xs.length ≤ buf.length →
    ∃ h' buf', copy_from_list h (some a) i xs = some h' ∧
      Heap.Update h h' a buf' ∧ buf'.length = buf.length ∧
      ∀ k, buf'[k]? = if i ≤ k ∧ k < i + xs.length then xs[k - i]? else buf[k]? := by
  induction xs with
  | nil =>
    intro h a i buf hl _
    refine ⟨h, buf, rfl, Update_refl h a buf hl, rfl, ?_⟩
    intro k
    have : ¬ (i ≤ k ∧ k < i + ([] : List T).length) := by simp
    rw [if_neg this]
  | cons x xs ih =>
    intro h a i buf hl hlen
    simp only [List.length_cons] at hlen
    obtain ⟨h1, hw, u1⟩ := write_of_lookup h a i x buf hl (by omega)
    obtain ⟨h', buf', hrun, u2, hlen', hpt⟩ :=
      ih h1 a (i + 1) (buf.set i x) u1.2.1 (by simp; omega)
    refine ⟨h', buf', ?_, Update_trans u1 u2, by simpa using hlen', ?_⟩
    · simp only [copy_from_list, hw]
      exact hrun
    · intro k
      rw [hpt k]
      simp only [List.getElem?_set, List.length_cons]
      by_cases hk1 : i + 1 ≤ k ∧ k < i + 1 + xs.length
      · have hk2 : i ≤ k ∧ k < i + (xs.length + 1) := by omega
        have e : k - i = (k - (i + 1)) + 1 := by omega
        rw [if_pos hk1, if_pos hk2, e, List.getElem?_cons_succ]
      · by_cases hk4 : k = i
        · subst hk4
          have hk2 : k ≤ k ∧ k < k + (xs.length + 1) := by omega
          have hk5 : k < buf.length := by omega
          simp [hk1, hk2, hk5]
        · have hk2 : ¬ (i ≤ k ∧ k < i + (xs.length + 1)) := by omega
          simp [hk1, hk2, Ne.symm hk4]

/-- A reference that can be read in `h` does not point to an array allocated later. -/
theorem deref_not_fresh {h : Heap T} {value : Ref T} {x : T} (hx : h.deref value = some x) :
    ∀ j, value ≠ .elem h.cells.length j := by
  intro j hc
  subst hc
  simp only [Heap.deref, Heap.read] at hx
  cases hl : h.lookup h.cells.length with
  | none => simp [hl] at hx
  | some b =>
    have := lookup_lt h _ b hl
    omega

/-- Allocation keeps what a reference reads. -/
theorem deref_new_array [Inhabited T] {h : Heap T} {value : Ref T} {x : T} (n : Nat)
    (hx : h.deref value = some x) : (h.new_array n).1.deref value = some x := by
  cases value with
  | obj y => simpa [Heap.deref] using hx
  | elem b j =>
    simp only [Heap.deref, Heap.read] at hx ⊢
    cases hl : h.lookup b with
    | none => simp [hl] at hx
    | some buf =>
      have hlt := lookup_lt h b buf hl
      rw [lookup_new_array, if_neg (Nat.ne_of_lt hlt), hl]
      simpa [hl] using hx

/-- The constructor from a size and a value, on the level of the backing array. -/
theorem ctor_size_value_spec [Inhabited T] (h : Heap T) (n : Nat) (value : Ref T) (x : T)
    (hx : h.deref value = some x) :
    ∃ h' v buf, ctor_size_value h n value = some (h', v) ∧ Owns h' v buf ∧
      v.size_ = n ∧ v.capacity_ = n ∧ (∀ k, k < n → buf[k]? = some x) ∧
      h.cells.length ≤ h'.cells.length ∧
      (∀ b, b < h.cells.length → h'.lookup b = h.lookup b) ∧
      (v.data_.raw_ptr_ = none ∨ v.data_.raw_ptr_ = some h.cells.length) := by
  by_cases hz : n = 0
  · subst hz
    refine ⟨h, ⟨0, 0, ⟨none⟩⟩, [], ?_, ⟨le_refl _, rfl, Or.inl ⟨rfl, rfl⟩⟩, rfl, rfl,
      fun k hk => by omega, le_refl _, fun _ _ => rfl, Or.inl rfl⟩
    simp [ctor_size_value, ofSize_zero, std_fill, SimpleVector.begin, SimpleVector.end_,
      ArrayPtr.Get, fill_loop]
  · have hpos : 0 < n := Nat.pos_of_ne_zero hz
    have hl : (h.new_array n).1.lookup h.cells.length
        = some (List.replicate n (default : T)) := by simp [lookup_new_array]
    obtain ⟨h', buf', hrun, u, hlen', hpt⟩ :=
      fill_loop_spec n (h.new_array n).1 h.cells.length 0 (List.replicate n default) value x hl
        (by simp) (deref_new_array n hx) (deref_not_fresh hx)
    refine ⟨h', ⟨n, n, ⟨some h.cells.length⟩⟩, buf', ?_,
      ⟨le_refl _, by simpa using hlen', Or.inr ⟨h.cells.length, rfl, hpos, u.2.1⟩⟩, rfl, rfl,
      ?_, by rw [u.1, new_array_length]; omega, ?_, Or.inr rfl⟩
    · simp [ctor_size_value, ofSize_pos h n hpos, std_fill, SimpleVector.begin,
        SimpleVector.end_, ArrayPtr.Get, hrun]
    · intro k hk
      rw [hpt k]
      simp [hk]
    · intro b hb
      rw [u.2.2 b (Nat.ne_of_lt hb)]
      simp [lookup_new_array, Nat.ne_of_lt hb]

/-- The constructor from a size is the constructor from a size and a reference
to a default-valued temporary. -/
theorem ctor_size_eq [Inhabited T] (h : Heap T) (n : Nat) :
    ctor_size h n = ctor_size_value h n (.obj (default : T)) := rfl

/-- The constructor from an initializer list, on the level of the backing array. -/
theorem ctor_init_spec [Inhabited T] (h : Heap T) (init : List T) :
    ∃ h' v buf, ctor_init h init = some (h', v) ∧ Owns h' v buf ∧
      v.size_ = init.length ∧ v.capacity_ = init.length ∧
      (∀ k, k < init.length → buf[k]? = init[k]?) ∧
      h.cells.length ≤ h'.cells.length ∧
      (∀ b, b < h.cells.length → h'.lookup b = h.lookup b) := by
  by_cases hz : init.length = 0
  · have hnil : init = [] := List.eq_nil_of_length_eq_zero hz
    subst hnil
    refine ⟨h, ⟨0, 0, ⟨none⟩⟩, [], ?_, ⟨le_refl _, rfl, Or.inl ⟨rfl, rfl⟩⟩, rfl, rfl,
      fun k hk => by simp at hk, le_refl _, fun _ _ => rfl⟩
    simp [ctor_init, ofSize_zero, SimpleVector.begin, ArrayPtr.Get, copy_from_list]
  · have hpos : 0 < init.length := Nat.pos_of_ne_zero hz
    have hl : (h.new_array init.length).1.lookup h.cells.length
        = some (List.replicate init.length (default : T)) := by simp [lookup_new_array]
    obtain ⟨h', buf', hrun, u, hlen', hpt⟩ :=
      copy_from_list_spec init (h.new_array init.length).1 h.cells.length 0
        (List.replicate init.length default) hl (by simp)
    refine ⟨h', ⟨init.length, init.length, ⟨some h.cells.length⟩⟩, buf', ?_,
      ⟨le_refl _, by simpa using hlen', Or.inr ⟨h.cells.length, rfl, hpos, u.2.1⟩⟩, rfl, rfl,
      ?_, by rw [u.1, new_array_length]; omega, ?_⟩
    · simp [ctor_init, ofSize_pos h init.length hpos, SimpleVector.begin, ArrayPtr.Get, hrun]
    · intro k hk
      rw [hpt k]
      simp [hk]
    · intro b hb
      rw [u.2.2 b (Nat.ne_of_lt hb)]
      simp [lookup_new_array, Nat.ne_of_lt hb]

/-- The reserving constructor gives a well-formed empty vector. -/
theorem ctor_reserve_spec [Inhabited T] (h : Heap T) (c : Nat) :
    Owns (ctor_reserve h (Reserve_proxy c)).1 (ctor_reserve h (Reserve_proxy c)).2
        (List.replicate c (default : T)) ∧
      (ctor_reserve h (Reserve_proxy c)).2.size_ = 0 ∧
      (ctor_reserve h (Reserve_proxy c)).2.capacity_ = c := by
  by_cases hz : c = 0
  · subst hz
    refine ⟨⟨le_refl _, rfl, Or.inl ⟨?_, rfl⟩⟩, rfl, rfl⟩
    simp [ctor_reserve, Reserve_proxy, ReserveProxyObj.GetCapacity, ofSize_zero]
  · have hpos : 0 < c := Nat.pos_of_ne_zero hz
    refine ⟨⟨Nat.zero_le _, by simp [ctor_reserve, Reserve_proxy, ReserveProxyObj.GetCapacity],
      Or.inr ⟨h.cells.length, ?_, hpos, ?_⟩⟩, rfl, rfl⟩
    · simp [ctor_reserve, Reserve_proxy, ReserveProxyObj.GetCapacity, ofSize_pos h c hpos]
    · simp [ctor_reserve, Reserve_proxy, ReserveProxyObj.GetCapacity, ofSize_pos h c hpos,
        lookup_new_array]

/-- Insert on the level of the backing array, for both overloads and a value
read through a reference outside the storage of `v`. -/
theorem Insert_spec [Inhabited T] (h : Heap T) (v : SimpleVector) (buf : List T) (i : Nat)
    (value : Ref T) (x : T) (ho : Owns h v buf) (hi : i ≤ v.size_)
    (hx : h.deref value = some x) (hout : value.outside v) :
    ∃ h3 v3 buf3, SimpleVector.Insert h v (v.begin.add i) value = some (h3, v3, v3.begin.add i) ∧
      Insert_rv h v (v.begin.add i) value = some (h3, v3, v3.begin.add i) ∧
      Owns h3 v3 buf3 ∧ Frame h v h3 v3 ∧ v3.size_ = v.size_ + 1 ∧
      v3.capacity_ = (if v.size_ = v.capacity_ then max 1 (2 * v.capacity_) else v.capacity_) ∧
      buf3[i]? = some x ∧ (∀ k, k < i → buf3[k]? = buf[k]?) ∧
      (∀ k, i < k → k ≤ v.size_ → buf3[k]? = buf[k - 1]?) := by
  obtain ⟨h1, h2, v1, buf2, a, hg, hcb, hmb, hptr, hl, ho2, f2, hs, hlt, hc, hlo, hhi, _⟩ :=
    Insert_shift h v buf i ho hi
  have hlen2 : buf2.length = v1.capacity_ := ho2.2.1
  have hx2 : h2.deref value = some x := deref_frame f2 hout hx
  obtain ⟨h3, hins, hinsrv, u⟩ :=
    Insert_run h h1 h2 v v1 i a value x buf2 hg hcb hmb hptr hl (by omega) hx2
  refine ⟨h3, { v1 with size_ := v1.size_ + 1 }, buf2.set i x, hins, hinsrv,
    ⟨by simp; omega, by simp [hlen2], Or.inr ⟨a, hptr, by simp; omega, u.2.1⟩⟩,
    Frame_trans f2 (Frame_of_update hptr hptr u), by simp [hs], hc, ?_, ?_, ?_⟩
  · simp [List.getElem?_set]; omega
  · intro k hk
    rw [List.getElem?_set_ne (by omega)]
    exact hlo k hk
  · intro k hik hk
    rw [List.getElem?_set_ne (by omega)]
    exact hhi k hik hk

theorem Separate_symm {x y : SimpleVector} (hs : Separate x y) : Separate y x := by
  unfold Separate at hs ⊢
  rcases hs with hn | hne
  · cases hy : y.data_.raw_ptr_ with
    | none => exact Or.inl rfl
    | some a => right; rw [hn]; simp
  · exact Or.inr (fun hc => hne hc.symm)

/-- Move assignment from a distinct vector: the target takes over size, capacity
and array of the source, its own array is released, the source is left empty,
and the array of the source is untouched. -/
theorem move_assign_spec (h : Heap T) (x y : SimpleVector)
    (hx : Valid h x) (hy : Valid h y) (hsep : Separate x y) :
    ∃ h', move_assign h y (.distinct x)
        = some (h', ⟨x.size_, x.capacity_, ⟨x.data_.raw_ptr_⟩⟩, .distinct ⟨0, 0, ⟨none⟩⟩) ∧
      Heap.ModifiesOnly h h' y.data_.raw_ptr_ ∧
      Valid h' ⟨x.size_, x.capacity_, ⟨x.data_.raw_ptr_⟩⟩ ∧ Valid h' ⟨0, 0, ⟨none⟩⟩ ∧
      ∀ k, SimpleVector.index h' ⟨x.size_, x.capacity_, ⟨x.data_.raw_ptr_⟩⟩ k = x.index h k := by
  have hdel : ∃ h', h.delete_array y.data_.raw_ptr_ = some h' ∧
      Heap.ModifiesOnly h h' y.data_.raw_ptr_ := by
    cases hp : y.data_.raw_ptr_ with
    | none => exact ⟨h, rfl, ModifiesOnly_refl h _⟩
    | some b =>
      obtain ⟨_, bbuf, hb⟩ := Valid_ptr_lt hy hp
      obtain ⟨h', hd, _⟩ := delete_of_lookup h b bbuf hb
      exact ⟨h', hd, delete_modifies hd⟩
  obtain ⟨h', hd, m⟩ := hdel
  have hsame : ∀ a, x.data_.raw_ptr_ = some a → h'.lookup a = h.lookup a := by
    intro a hp
    apply m.2
    rcases hsep with hn | hn
    · rw [hp] at hn; simp at hn
    · rw [hp] at hn; exact fun hc => hn hc.symm
  obtain ⟨hx', hidx'⟩ := index_of_lookup hx hsame
  exact ⟨h', by simp [move_assign, ArrayPtr.move_assign, hd, ArrayPtr.swap], m, hx',
    ⟨le_refl _, rfl⟩, hidx'⟩

/-- Every mutating call whose precondition holds is defined on a well-formed
vector and leaves it well formed. -/
theorem apply_valid [Inhabited T] (m : Mutation T) (h : Heap T) (v : SimpleVector)
    (hv : Valid h v) (hm : m.pre h v) :
    ∃ h' v', m.apply h v = some (h', v') ∧ Valid h' v' := by
  obtain ⟨buf, ho⟩ := (Valid_iff_Owns h v).mp hv
  have hle := ho.1
  cases m with
  | PushBack value =>
    obtain ⟨⟨x, hx⟩, hout⟩ := hm
    obtain ⟨h', v', buf', hp, _, ho', _⟩ := PushBack_spec h v buf value x ho hx hout
    exact ⟨h', v', hp, Owns_valid ho'⟩
  | PushBack_rv value =>
    obtain ⟨⟨x, hx⟩, hout⟩ := hm
    obtain ⟨h', v', buf', _, hp, ho', _⟩ := PushBack_spec h v buf value x ho hx hout
    exact ⟨h', v', hp, Owns_valid ho'⟩
  | PopBack =>
    have hpos : 0 < v.size_ := hm
    refine ⟨h, v.PopBack, rfl, ?_⟩
    have hne : v.size_ ≠ 0 := by omega
    obtain ⟨_, hm2⟩ := hv
    exact ⟨by simp [SimpleVector.PopBack, hne]; omega, hm2⟩
  | Insert pos value =>
    obtain ⟨⟨i, hi, hpos⟩, ⟨x, hx⟩, hout⟩ := hm
    obtain ⟨h', v', buf', hp, _, ho', _⟩ := Insert_spec h v buf i value x ho hi hx hout
    exact ⟨h', v', by simp [Mutation.apply, hpos, hp], Owns_valid ho'⟩
  | Insert_rv pos value =>
    obtain ⟨⟨i, hi, hpos⟩, ⟨x, hx⟩, hout⟩ := hm
    obtain ⟨h', v', buf', _, hp, ho', _⟩ := Insert_spec h v buf i value x ho hi hx hout
    exact ⟨h', v', by simp [Mutation.apply, hpos, hp], Owns_valid ho'⟩
  | Erase pos =>
    obtain ⟨i, hi, hpos⟩ := hm
    obtain ⟨h', buf', hp, ho', _⟩ := Erase_spec h v buf i ho hi
    exact ⟨h', _, by simp [Mutation.apply, hpos, hp], Owns_valid ho'⟩
  | Reserve n =>
    obtain ⟨h', v', buf', hp, ho', _⟩ := Reserve_spec h v buf n ho
    exact ⟨h', v', hp, Owns_valid ho'⟩
  | Resize n =>
    obtain ⟨h', v', buf', hp, ho', _⟩ := Resize_spec h v buf n ho
    exact ⟨h', v', hp, Owns_valid ho'⟩
  | Clear =>
    obtain ⟨_, hm2⟩ := hv
    exact ⟨h, v.Clear, rfl, ⟨Nat.zero_le _, hm2⟩⟩
  | Store i x =>
    have hi : i < v.size_ := hm
    obtain ⟨_, hlen, hp⟩ := ho
    rcases hp with ⟨_, hcap0⟩ | ⟨a, hptr, hcpos, hl⟩
    · omega
    · obtain ⟨h', hw, u⟩ := write_of_lookup h a i x buf hl (by omega)
      refine ⟨h', v, by simp [Mutation.apply, ArrayPtr.assign, hptr, hw], ?_⟩
      exact Owns_valid ⟨hle, by simpa using hlen, Or.inr ⟨a, hptr, hcpos, u.2.1⟩⟩

/-- Copy assignment from a distinct well-formed vector that owns another array:
defined, the target is well formed afterwards and so is the source. -/
theorem copy_assign_valid [Inhabited T] (h : Heap T) (x y : SimpleVector)
    (hx : Valid h x) (hy : Valid h y) (hsep : Separate x y) :
    ∃ h' y', copy_assign h y (.distinct x) = some (h', y') ∧ Valid h' y' ∧ Valid h' x := by
  by_cases hz : x.size_ = 0
  · refine ⟨h, y.Clear, by simp [copy_assign, SimpleVector.IsEmpty, hz], ?_, hx⟩
    obtain ⟨_, hm⟩ := hy
    exact ⟨Nat.zero_le _, hm⟩
  · obtain ⟨buf, ho⟩ := (Valid_iff_Owns h x).mp hx
    obtain ⟨h2, z, zbuf, hassign, hoz, _, _, _, hkeep, _⟩ :=
      copy_assign_spec h x y buf ho hy (Nat.pos_of_ne_zero hz)
    refine ⟨h2, z, hassign, Owns_valid hoz, (index_of_lookup hx ?_).1⟩
    intro a hp
    apply hkeep a (Valid_ptr_lt hx hp).1
    rcases hsep with hn | hn
    · rw [hp] at hn; simp at hn
    · rw [hp] at hn; exact fun hc => hn hc.symm

/-- The list of live elements of a well-formed vector has `size_` entries, and
entry `k` is what `operator[]` reads at `k`. -/
theorem contents_spec {h : Heap T} {v : SimpleVector} (hv : Valid h v) :
    (contents h v).length = v.size_ ∧
    ∀ k, k < v.size_ →
      h.read v.data_.raw_ptr_ k = (contents h v)[k]? ∧ v.index h k = (contents h v)[k]? := by
  obtain ⟨buf, ho⟩ := (Valid_iff_Owns h v).mp hv
  obtain ⟨hle, hlen, hp⟩ := ho
  rcases hp with ⟨hnull, hcap0⟩ | ⟨a, hptr, hcpos, hl⟩
  · refine ⟨by simp [contents, hnull]; omega, fun k hk => by omega⟩
  · have hc : contents h v = buf.take v.size_ := by simp [contents, hptr, hl]
    refine ⟨by rw [hc, List.length_take]; omega, ?_⟩
    intro k hk
    have e : (buf.take v.size_)[k]? = buf[k]? := by
      rw [List.getElem?_take]; simp [hk]
    refine ⟨?_, ?_⟩
    · rw [hc, e, hptr, read_of_lookup h a k buf hl]
    · rw [hc, e]
      simp [SimpleVector.index, ArrayPtr.index, hptr, read_of_lookup h a k buf hl]

theorem lex_loop_spec [LinearOrder T] (la : List T) : ∀ (lb : List T) (h : Heap T)
    (p1 p2 : Ptr) (i : Nat),
    (∀ k, k < la.length → h.read p1 (i + k) = la[k]?) →
    (∀ k, k < lb.length → h.read p2 (i + k) = lb[k]?) →
    ∃ r, lex_loop h p1 i p2 i la.length lb.length = some r ∧
      (r = true ↔ List.Lex (· < ·) la lb) := by
  induction la with
  | nil =>
    intro lb h p1 p2 i _ _
    cases lb with
    | nil => exact ⟨false, by simp [lex_loop], by simp⟩
    | cons y lb => exact ⟨true, by simp [lex_loop], by simp [List.Lex.nil]⟩
  | cons x la ih =>
    intro lb h p1 p2 i h1 h2
    cases lb with
    | nil => exact ⟨false, by simp [lex_loop], by simp⟩
    | cons y lb =>
      have hx : h.read p1 i = some x := by simpa using h1 0 (by simp)
      have hy : h.read p2 i = some y := by simpa using h2 0 (by simp)
      by_cases hxy : x < y
      · exact ⟨true, by simp [lex_loop, hx, hy, hxy], by simp [List.Lex.rel hxy]⟩
      · by_cases hyx : y < x
        · refine ⟨false, by simp [lex_loop, hx, hy, hxy, hyx], ?_⟩
          simp only [Bool.false_eq_true, false_iff]
          intro hl
          cases hl with
          | cons hl => exact lt_irrefl _ hyx
          | rel hr => exact hxy hr
        · have hEq : x = y := le_antisymm (not_lt.mp hyx) (not_lt.mp hxy)
          subst hEq
          obtain ⟨r, hr, hiff⟩ := ih lb h p1 p2 (i + 1)
            (fun k hk => by
              have := h1 (k + 1) (by simp; omega)
              simpa [Nat.add_assoc, Nat.add_comm 1 k] using this)
            (fun k hk => by
              have := h2 (k + 1) (by simp; omega)
              simpa [Nat.add_assoc, Nat.add_comm 1 k] using this)
          refine ⟨r, by simp [lex_loop, hx, hy, hr], ?_⟩
          rw [hiff, List.Lex.cons_iff]

/-- The result of `operator<` on two well-formed vectors. -/
theorem op_lt_spec [LinearOrder T] (h : Heap T) (a b : SimpleVector)
    (ha : Valid h a) (hb : Valid h b) :
    ∃ r, op_lt h a b = some r ∧
      (r = true ↔ List.Lex (· < ·) (contents h a) (contents h b)) := by
  obtain ⟨hla, hra⟩ := contents_spec ha
  obtain ⟨hlb, hrb⟩ := contents_spec hb
  obtain ⟨r, hr, hiff⟩ := lex_loop_spec (contents h a) (contents h b) h
    a.data_.raw_ptr_ b.data_.raw_ptr_ 0
    (fun k hk => by simpa using (hra k (by omega)).1)
    (fun k hk => by simpa using (hrb k (by omega)).1)
  refine ⟨r, ?_, hiff⟩
  simp only [op_lt, std_lexicographical_compare, SimpleVector.begin, SimpleVector.end_,
    ArrayPtr.Get, true_and, Nat.zero_le, and_self, if_true, Nat.sub_zero]
  rw [← hla, ← hlb]
  exact hr

/-- On well-formed vectors `operator==` compares the lists of live elements. -/
theorem op_eq_contents [DecidableEq T] (h : Heap T) (a b : SimpleVector)
    (ha : Valid h a) (hb : Valid h b) :
    ∃ r, op_eq h a b = some r ∧ (r = true ↔ contents h a = contents h b) := by
  obtain ⟨r, hr, hiff⟩ := op_eq_spec h a b ha hb
  obtain ⟨hla, hra⟩ := contents_spec ha
  obtain ⟨hlb, hrb⟩ := contents_spec hb
  refine ⟨r, hr, ?_⟩
  rw [hiff]
  constructor
  · rintro ⟨hs, hall⟩
    apply List.ext_getElem?
    intro k
    by_cases hk : k < a.size_
    · rw [← (hra k hk).2, ← (hrb k (by omega)).2]
      exact hall k hk
    · rw [List.getElem?_eq_none (by omega), List.getElem?_eq_none (by omega)]
  · intro he
    have hs : a.size_ = b.size_ := by rw [← hla, ← hlb, he]
    refine ⟨hs, fun k hk => ?_⟩
    rw [(hra k hk).2, (hrb k (by omega)).2, he]

theorem Reserve_size [Inhabited T] {h h' : Heap T} {v v' : SimpleVector} {n : Nat}
    (hr : Reserve h v n = some (h', v')) : v'.size_ = v.size_ := by
  unfold Reserve at hr
  split at hr
  · split at hr
    · simp at hr
    · split at hr
      · simp at hr
      · simp only [Option.some.injEq, Prod.mk.injEq] at hr
        rw [← hr.2]
  · simp only [Option.some.injEq, Prod.mk.injEq] at hr
    rw [← hr.2]

theorem grow_if_full_size [Inhabited T] {h h' : Heap T} {v v' : SimpleVector}
    (hg : grow_if_full h v = some (h', v')) : v'.size_ = v.size_ := by
  unfold grow_if_full at hg
  split at hg
  · exact Reserve_size hg
  · simp only [Option.some.injEq, Prod.mk.injEq] at hg
    rw [← hg.2]

/-- `Insert(end(), value)` and `PushBack(value)` return the same heap and the
same vector, or are both undefined. -/
theorem Insert_end_eq [Inhabited T] (h : Heap T) (v : SimpleVector) (value : Ref T) :
    (SimpleVector.Insert h v v.end_ value).map (fun r => (r.1, r.2.1)) = PushBack h v value := by
  have hd : v.end_.diff v.cbegin = some v.size_ := by
    simp [Iter.diff, SimpleVector.end_, SimpleVector.cbegin]
  simp only [SimpleVector.Insert, PushBack, hd]
  cases hg : grow_if_full h v with
  | none => rfl
  | some r =>
    obtain ⟨h1, v1⟩ := r
    have hs := grow_if_full_size hg
    have hcb : std_copy_backward h1 (v1.begin.add v.size_) v1.end_ (v1.end_.add 1) = some h1 := by
      simp [std_copy_backward, SimpleVector.begin, SimpleVector.end_, Iter.add, hs,
        copy_backward_loop]
    simp only [hcb]
    cases hx : h1.deref value with
    | none => rfl
    | some x =>
      simp only [hs]
      cases hw : v1.data_.assign h1 v.size_ x with
      | none => rfl
      | some h2 => rfl

/-! ## The claims -/

/-- C1: for a well-formed vector `v`, an index `i <= size` and a value `x` read
through a reference that does not point into the storage of `v`, both overloads
of `Insert(begin + i, x)` succeed and give a well-formed vector of size
`size + 1` whose element `i` is `x`, whose elements below `i` are those of `v`
and whose element `j + 1` is the former element `j` for `i <= j < size`; the
iterator returned is `begin + i` of the resulting vector. -/
theorem Insert_places_value [Inhabited T] (h : Heap T) (v : SimpleVector) (i : Nat)
    (value : Ref T) (x : T)
    (hv : Valid h v) (hi : i ≤ v.size_) (hx : h.deref value = some x)
    (hout : value.outside v) :
    ∃ h' v', SimpleVector.Insert h v (v.begin.add i) value = some (h', v', v'.begin.add i) ∧
      Insert_rv h v (v.begin.add i) value = some (h', v', v'.begin.add i) ∧
      Valid h' v' ∧ v'.size_ = v.size_ + 1 ∧
      v'.index h' i = some x ∧
      (∀ k, k < i → ∃ y, v.index h k = some y ∧ v'.index h' k = some y) ∧
      (∀ j, i ≤ j → j < v.size_ →
        ∃ y, v.index h j = some y ∧ v'.index h' (j + 1) = some y) := by
  obtain ⟨buf, ho⟩ := (Valid_iff_Owns h v).mp hv
  obtain ⟨h1, h2, v1, buf2, a, hg, hcb, hmb, hptr, hl, ho2, f2, hs, hlt, _, hlo, hhi, _⟩ :=
    Insert_shift h v buf i ho hi
  have hlen2 : buf2.length = v1.capacity_ := ho2.2.1
  have hx2 : h2.deref value = some x := deref_frame f2 hout hx
  obtain ⟨h3, hins, hinsrv, u⟩ :=
    Insert_run h h1 h2 v v1 i a value x buf2 hg hcb hmb hptr hl (by omega) hx2
  have ho3 : Owns h3 { v1 with size_ := v1.size_ + 1 } (buf2.set i x) :=
    ⟨by simp; omega, by simp [hlen2], Or.inr ⟨a, hptr, by simp; omega, u.2.1⟩⟩
  exact ⟨h3, { v1 with size_ := v1.size_ + 1 }, hins, hinsrv, (Owns_valid ho3), by simp [hs],
    Insert_elements ho ho3 hi (by omega) hlo hhi⟩

/-- C1 at the empty vector of capacity 0 in a heap without arrays: inserting 7
at `begin`. -/
theorem Insert_places_value_witness :
    Valid (⟨[]⟩ : Heap Int) default_ctor ∧
    ∃ h' v', SimpleVector.Insert (⟨[]⟩ : Heap Int) default_ctor (default_ctor.begin.add 0)
        (.obj 7) = some (h', v', v'.begin.add 0) ∧
      Insert_rv (⟨[]⟩ : Heap Int) default_ctor (default_ctor.begin.add 0) (.obj 7)
        = some (h', v', v'.begin.add 0) ∧
      Valid h' v' ∧ v'.size_ = default_ctor.size_ + 1 ∧
      v'.index h' 0 = some 7 ∧
      (∀ k, k < 0 → ∃ y, default_ctor.index (⟨[]⟩ : Heap Int) k = some y ∧
        v'.index h' k = some y) ∧
      (∀ j, 0 ≤ j → j < default_ctor.size_ →
        ∃ y, default_ctor.index (⟨[]⟩ : Heap Int) j = some y ∧ v'.index h' (j + 1) = some y) :=
  ⟨by decide, Insert_places_value ⟨[]⟩ default_ctor 0 (.obj 7) 7 (by decide) (by decide) rfl
    trivial⟩

/-- C2 as stated fails: in the vector `[1, 2, 3]` of capacity 4, inserting at
`begin` a reference to the own element 2 (value 3) stores 2, the value that
slot 2 holds after the shift, and gives `[2, 1, 2, 3]`. -/
theorem Insert_aliased_counterexample :
    Valid (⟨[some [1, 2, 3, 0]]⟩ : Heap Int) ⟨3, 4, ⟨some 0⟩⟩ ∧
    SimpleVector.index (⟨[some [1, 2, 3, 0]]⟩ : Heap Int) ⟨3, 4, ⟨some 0⟩⟩ 2 = some 3 ∧
    SimpleVector.Insert (⟨[some [1, 2, 3, 0]]⟩ : Heap Int) ⟨3, 4, ⟨some 0⟩⟩
        ((SimpleVector.begin ⟨3, 4, ⟨some 0⟩⟩).add 0) (.elem 0 2)
      = some (⟨[some [2, 1, 2, 3]]⟩, ⟨4, 4, ⟨some 0⟩⟩, ⟨some 0, 0⟩) ∧
    SimpleVector.index (⟨[some [2, 1, 2, 3]]⟩ : Heap Int) ⟨4, 4, ⟨some 0⟩⟩ 0 = some 2 ∧
    ¬ ∃ h' v' it, SimpleVector.Insert (⟨[some [1, 2, 3, 0]]⟩ : Heap Int) ⟨3, 4, ⟨some 0⟩⟩
        ((SimpleVector.begin ⟨3, 4, ⟨some 0⟩⟩).add 0) (.elem 0 2) = some (h', v', it) ∧
      SimpleVector.index h' v' 0
        = SimpleVector.index (⟨[some [1, 2, 3, 0]]⟩ : Heap Int) ⟨3, 4, ⟨some 0⟩⟩ 2 := by
  refine ⟨by decide, by decide, by decide, by decide, ?_⟩
  rintro ⟨h', v', it, he, hidx⟩
  have e : SimpleVector.Insert (⟨[some [1, 2, 3, 0]]⟩ : Heap Int) ⟨3, 4, ⟨some 0⟩⟩
        ((SimpleVector.begin ⟨3, 4, ⟨some 0⟩⟩).add 0) (.elem 0 2)
      = some (⟨[some [2, 1, 2, 3]]⟩, ⟨4, 4, ⟨some 0⟩⟩, ⟨some 0, 0⟩) := by decide
  rw [e] at he
  simp only [Option.some.injEq, Prod.mk.injEq] at he
  obtain ⟨rfl, rfl, rfl⟩ := he
  revert hidx
  decide

/-- C2, amended: for a well-formed vector with `size < capacity`, `i <= size`
and `j < size` with `j <= i`, `Insert(begin + i, v[j])` with the value passed as
a reference to the own element `j` succeeds without reallocating and gives a
vector of size `size + 1` whose element `i` is the value `v[j]` held before the
call, whose elements below `i` are unchanged and whose element `k + 1` is the
former element `k` for `i <= k < size`. -/
theorem Insert_aliased [Inhabited T] (h : Heap T) (v : SimpleVector) (a i j : Nat)
    (hv : Valid h v) (hcap : v.size_ < v.capacity_) (hptr : v.data_.raw_ptr_ = some a)
    (hi : i ≤ v.size_) (hj : j < v.size_) (hji : j ≤ i) :
    ∃ h' v' x, v.index h j = some x ∧
      SimpleVector.Insert h v (v.begin.add i) (.elem a j) = some (h', v', v'.begin.add i) ∧
      Valid h' v' ∧ v'.size_ = v.size_ + 1 ∧ v'.capacity_ = v.capacity_ ∧
      v'.data_ = v.data_ ∧
      v'.index h' i = some x ∧
      (∀ k, k < i → ∃ y, v.index h k = some y ∧ v'.index h' k = some y) ∧
      (∀ k, i ≤ k → k < v.size_ →
        ∃ y, v.index h k = some y ∧ v'.index h' (k + 1) = some y) := by
  obtain ⟨buf, ho⟩ := (Valid_iff_Owns h v).mp hv
  obtain ⟨h1, h2, v1, buf2, a1, hg, hcb, hmb, hptr1, hl, ho2, f2, hs, hlt, _, hlo, hhi, hsame⟩ :=
    Insert_shift h v buf i ho hi
  obtain ⟨hv1, hall⟩ := hsame hcap
  subst hv1
  have ha : a1 = a := by rw [hptr] at hptr1; injection hptr1 with e; exact e.symm
  subst ha
  have hlen2 : buf2.length = v1.capacity_ := ho2.2.1
  obtain ⟨hjb, hje⟩ := Owns_index_lt ho (k := j) (by omega)
  have hx2 : h2.deref (.elem a1 j) = some (buf[j]) := by
    simp only [Heap.deref, read_of_lookup h2 a1 j buf2 hl]
    rw [hall j, if_neg (by omega)]
    exact List.getElem?_eq_getElem hjb
  obtain ⟨h3, hins, _, u⟩ :=
    Insert_run h h1 h2 v1 v1 i a1 (.elem a1 j) (buf[j]) buf2 hg hcb hmb hptr hl (by omega) hx2
  have ho3 : Owns h3 { v1 with size_ := v1.size_ + 1 } (buf2.set i (buf[j])) :=
    ⟨by simp; omega, by simp [hlen2], Or.inr ⟨a1, hptr, by simp; omega, u.2.1⟩⟩
  exact ⟨h3, { v1 with size_ := v1.size_ + 1 }, buf[j], hje, hins, (Owns_valid ho3), rfl, rfl, rfl,
    Insert_elements ho ho3 hi (by omega) hlo hhi⟩

/-- C2 amended, at `[1, 2, 3]` of capacity 4: inserting at `begin + 2` a
reference to the own element 1. -/
theorem Insert_aliased_witness :
    Valid (⟨[some [1, 2, 3, 0]]⟩ : Heap Int) ⟨3, 4, ⟨some 0⟩⟩ ∧
    ∃ h' v' x, SimpleVector.index (⟨[some [1, 2, 3, 0]]⟩ : Heap Int) ⟨3, 4, ⟨some 0⟩⟩ 1 = some x ∧
      SimpleVector.Insert (⟨[some [1, 2, 3, 0]]⟩ : Heap Int) ⟨3, 4, ⟨some 0⟩⟩
        ((SimpleVector.begin ⟨3, 4, ⟨some 0⟩⟩).add 2) (.elem 0 1)
        = some (h', v', v'.begin.add 2) ∧
      Valid h' v' ∧ v'.size_ = 3 + 1 ∧ v'.capacity_ = 4 ∧
      v'.data_ = ⟨some 0⟩ ∧
      v'.index h' 2 = some x ∧
      (∀ k, k < 2 → ∃ y, SimpleVector.index (⟨[some [1, 2, 3, 0]]⟩ : Heap Int)
          ⟨3, 4, ⟨some 0⟩⟩ k = some y ∧ v'.index h' k = some y) ∧
      (∀ k, 2 ≤ k → k < 3 →
        ∃ y, SimpleVector.index (⟨[some [1, 2, 3, 0]]⟩ : Heap Int) ⟨3, 4, ⟨some 0⟩⟩ k = some y ∧
          v'.index h' (k + 1) = some y) :=
  ⟨by decide, Insert_aliased (⟨[some [1, 2, 3, 0]]⟩ : Heap Int) ⟨3, 4, ⟨some 0⟩⟩ 0 2 1
    (by decide) (by decide) rfl (by decide) (by decide) (by decide)⟩

/-- C3: for a well-formed vector and `i < size`, `Erase(begin + i)` succeeds
and gives a well-formed vector of size `size - 1` and unchanged capacity whose
elements below `i` are those of `v` and whose element `j` is the former element
`j + 1` for `i <= j < size - 1`; the iterator returned is `begin + i` of the
result, which is `end` when the last element was erased. -/
theorem Erase_removes_element (h : Heap T) (v : SimpleVector) (i : Nat)
    (hv : Valid h v) (hi : i < v.size_) :
    ∃ h' v', Erase h v (v.begin.add i) = some (h', v', v'.begin.add i) ∧
      Valid h' v' ∧ v'.size_ = v.size_ - 1 ∧ v'.capacity_ = v.capacity_ ∧
      (∀ k, k < i → ∃ y, v.index h k = some y ∧ v'.index h' k = some y) ∧
      (∀ j, i ≤ j → j < v.size_ - 1 →
        ∃ y, v.index h (j + 1) = some y ∧ v'.index h' j = some y) ∧
      (i + 1 = v.size_ → v'.begin.add i = v'.end_) := by
  obtain ⟨buf, ho⟩ := (Valid_iff_Owns h v).mp hv
  obtain ⟨h', buf', hrun, ho', _, hpt⟩ := Erase_spec h v buf i ho hi
  have hle := ho.1
  refine ⟨h', { v with size_ := v.size_ - 1 }, hrun, Owns_valid ho', rfl, rfl, ?_, ?_, ?_⟩
  · intro k hk
    obtain ⟨hkb, hke⟩ := Owns_index_lt ho (k := k) (by omega)
    refine ⟨buf[k], hke, ?_⟩
    rw [Owns_index ho' k, hpt k, if_neg (by omega)]
    exact List.getElem?_eq_getElem hkb
  · intro j hij hj
    obtain ⟨hjb, hje⟩ := Owns_index_lt ho (k := j + 1) (by omega)
    refine ⟨buf[j + 1], hje, ?_⟩
    rw [Owns_index ho' j, hpt j, if_pos ⟨hij, hj⟩]
    exact List.getElem?_eq_getElem hjb
  · intro hlast
    simp only [SimpleVector.begin, SimpleVector.end_, Iter.add, Iter.mk.injEq, true_and]
    omega

/-- C3 at `[1, 2, 3]` of capacity 4: erasing the element at `begin + 1`. -/
theorem Erase_removes_element_witness :
    Valid (⟨[some [1, 2, 3, 0]]⟩ : Heap Int) ⟨3, 4, ⟨some 0⟩⟩ ∧
    ∃ h' v', Erase (⟨[some [1, 2, 3, 0]]⟩ : Heap Int) ⟨3, 4, ⟨some 0⟩⟩
        ((SimpleVector.begin ⟨3, 4, ⟨some 0⟩⟩).add 1) = some (h', v', v'.begin.add 1) ∧
      Valid h' v' ∧ v'.size_ = 3 - 1 ∧ v'.capacity_ = 4 ∧
      (∀ k, k < 1 → ∃ y, SimpleVector.index (⟨[some [1, 2, 3, 0]]⟩ : Heap Int)
          ⟨3, 4, ⟨some 0⟩⟩ k = some y ∧ v'.index h' k = some y) ∧
      (∀ j, 1 ≤ j → j < 3 - 1 →
        ∃ y, SimpleVector.index (⟨[some [1, 2, 3, 0]]⟩ : Heap Int) ⟨3, 4, ⟨some 0⟩⟩ (j + 1)
            = some y ∧ v'.index h' j = some y) ∧
      (1 + 1 = 3 → v'.begin.add 1 = v'.end_) :=
  ⟨by decide, Erase_removes_element (⟨[some [1, 2, 3, 0]]⟩ : Heap Int) ⟨3, 4, ⟨some 0⟩⟩ 1
    (by decide) (by decide)⟩

/-- C6: for a well-formed vector and a value `x` read through a reference
outside its storage, both overloads of `PushBack` succeed and give a well-formed
vector of size `size + 1` whose first `size` elements are those of `v` and whose
last element is `x`; the capacity becomes `max(1, 2 * capacity)` when
`size == capacity` held before the call and is unchanged otherwise. -/
theorem PushBack_appends [Inhabited T] (h : Heap T) (v : SimpleVector) (value : Ref T) (x : T)
    (hv : Valid h v) (hx : h.deref value = some x) (hout : value.outside v) :
    ∃ h' v', PushBack h v value = some (h', v') ∧ PushBack_rv h v value = some (h', v') ∧
      Valid h' v' ∧ v'.size_ = v.size_ + 1 ∧
      (∀ k, k < v.size_ → ∃ y, v.index h k = some y ∧ v'.index h' k = some y) ∧
      v'.index h' v.size_ = some x ∧
      (v.size_ = v.capacity_ → v'.capacity_ = max 1 (2 * v.capacity_)) ∧
      (v.size_ ≠ v.capacity_ → v'.capacity_ = v.capacity_) := by
  obtain ⟨buf, ho⟩ := (Valid_iff_Owns h v).mp hv
  obtain ⟨h', v', buf', hp, hprv, ho', _, hs, hc, hpt, hlast, _⟩ :=
    PushBack_spec h v buf value x ho hx hout
  have hle := ho.1
  refine ⟨h', v', hp, hprv, Owns_valid ho', hs, ?_, ?_, ?_, ?_⟩
  · intro k hk
    obtain ⟨hkb, hke⟩ := Owns_index_lt ho (k := k) (by omega)
    refine ⟨buf[k], hke, ?_⟩
    rw [Owns_index ho' k, hpt k hk]
    exact List.getElem?_eq_getElem hkb
  · rw [Owns_index ho' v.size_, hlast]
  · intro hfull; rw [hc, if_pos hfull]
  · intro hfull; rw [hc, if_neg hfull]

/-- C6 at the full vector `[1, 2]` of capacity 2: appending 5 doubles the
capacity. -/
theorem PushBack_appends_witness :
    Valid (⟨[some [1, 2]]⟩ : Heap Int) ⟨2, 2, ⟨some 0⟩⟩ ∧
    ∃ h' v', PushBack (⟨[some [1, 2]]⟩ : Heap Int) ⟨2, 2, ⟨some 0⟩⟩ (.obj 5) = some (h', v') ∧
      PushBack_rv (⟨[some [1, 2]]⟩ : Heap Int) ⟨2, 2, ⟨some 0⟩⟩ (.obj 5) = some (h', v') ∧
      Valid h' v' ∧ v'.size_ = 2 + 1 ∧
      (∀ k, k < 2 → ∃ y, SimpleVector.index (⟨[some [1, 2]]⟩ : Heap Int) ⟨2, 2, ⟨some 0⟩⟩ k
          = some y ∧ v'.index h' k = some y) ∧
      v'.index h' 2 = some 5 ∧
      (2 = 2 → v'.capacity_ = max 1 (2 * 2)) ∧
      (2 ≠ 2 → v'.capacity_ = 2) :=
  ⟨by decide, PushBack_appends (⟨[some [1, 2]]⟩ : Heap Int) ⟨2, 2, ⟨some 0⟩⟩ (.obj 5) 5
    (by decide) rfl trivial⟩

/-- C7: for a well-formed vector and every `n`, `Reserve(n)` succeeds; with
`n <= capacity` the heap and the vector are unchanged; with `n > capacity` the
capacity is exactly `n`, the size is unchanged and every element below `size`
keeps its value and position. -/
theorem Reserve_exact [Inhabited T] (h : Heap T) (v : SimpleVector) (n : Nat)
    (hv : Valid h v) :
    ∃ h' v', Reserve h v n = some (h', v') ∧ Valid h' v' ∧
      (n ≤ v.capacity_ → h' = h ∧ v' = v) ∧
      (v.capacity_ < n → v'.capacity_ = n ∧ v'.size_ = v.size_ ∧
        ∀ k, k < v.size_ → ∃ y, v.index h k = some y ∧ v'.index h' k = some y) := by
  obtain ⟨buf, ho⟩ := (Valid_iff_Owns h v).mp hv
  obtain ⟨h', v', buf', hr, ho', _, hs, hc, hpt, hsame⟩ := Reserve_spec h v buf n ho
  have hle := ho.1
  refine ⟨h', v', hr, Owns_valid ho', fun hn => ⟨(hsame hn).1, (hsame hn).2.1⟩, ?_⟩
  intro hn
  refine ⟨by rw [hc]; omega, hs, ?_⟩
  intro k hk
  obtain ⟨hkb, hke⟩ := Owns_index_lt ho (k := k) (by omega)
  refine ⟨buf[k], hke, ?_⟩
  rw [Owns_index ho' k, hpt k hk]
  exact List.getElem?_eq_getElem hkb

/-- C7 at `[1, 2]` of capacity 3: `Reserve(7)`. -/
theorem Reserve_exact_witness :
    Valid (⟨[some [1, 2, 0]]⟩ : Heap Int) ⟨2, 3, ⟨some 0⟩⟩ ∧
    ∃ h' v', Reserve (⟨[some [1, 2, 0]]⟩ : Heap Int) ⟨2, 3, ⟨some 0⟩⟩ 7 = some (h', v') ∧
      Valid h' v' ∧
      (7 ≤ 3 → h' = (⟨[some [1, 2, 0]]⟩ : Heap Int) ∧ v' = ⟨2, 3, ⟨some 0⟩⟩) ∧
      (3 < 7 → v'.capacity_ = 7 ∧ v'.size_ = 2 ∧
        ∀ k, k < 2 → ∃ y, SimpleVector.index (⟨[some [1, 2, 0]]⟩ : Heap Int)
          ⟨2, 3, ⟨some 0⟩⟩ k = some y ∧ v'.index h' k = some y) :=
  ⟨by decide, Reserve_exact (⟨[some [1, 2, 0]]⟩ : Heap Int) ⟨2, 3, ⟨some 0⟩⟩ 7 (by decide)⟩

/-- C8: for a well-formed vector and every `n`, `Resize(n)` succeeds and gives
a well-formed vector of size `n`; with `n < size` the heap, the capacity and the
array are unchanged, so the result is the first `n` elements of `v`; with
`n > size` the first `size` elements are those of `v` and every element at an
index in `[size, n)` is the default value, whatever the slots held before. -/
theorem Resize_sets_size [Inhabited T] (h : Heap T) (v : SimpleVector) (n : Nat)
    (hv : Valid h v) :
    ∃ h' v', Resize h v n = some (h', v') ∧ Valid h' v' ∧ v'.size_ = n ∧
      (n < v.size_ → h' = h ∧ v'.capacity_ = v.capacity_ ∧ v'.data_ = v.data_ ∧
        ∀ k, k < n → ∃ y, v.index h k = some y ∧ v'.index h' k = some y) ∧
      (v.size_ < n →
        (∀ k, k < v.size_ → ∃ y, v.index h k = some y ∧ v'.index h' k = some y) ∧
        ∀ k, v.size_ ≤ k → k < n → v'.index h' k = some default) := by
  obtain ⟨buf, ho⟩ := (Valid_iff_Owns h v).mp hv
  obtain ⟨h', v', buf', hr, ho', _, hs, hc, hshrink, hpt, hnew⟩ := Resize_spec h v buf n ho
  have hle := ho.1
  refine ⟨h', v', hr, Owns_valid ho', hs, ?_, ?_⟩
  · intro hn
    obtain ⟨e1, e2, _⟩ := hshrink hn
    refine ⟨e1, by rw [e2], by rw [e2], ?_⟩
    intro k hk
    obtain ⟨hkb, hke⟩ := Owns_index_lt ho (k := k) (by omega)
    refine ⟨buf[k], hke, ?_⟩
    rw [Owns_index ho' k, hpt k (by omega) hk]
    exact List.getElem?_eq_getElem hkb
  · intro hn
    refine ⟨?_, ?_⟩
    · intro k hk
      obtain ⟨hkb, hke⟩ := Owns_index_lt ho (k := k) (by omega)
      refine ⟨buf[k], hke, ?_⟩
      rw [Owns_index ho' k, hpt k hk (by omega)]
      exact List.getElem?_eq_getElem hkb
    · intro k hk1 hk2
      rw [Owns_index ho' k, hnew k hk1 hk2]

/-- C8 at the vector left by `[1, 2, 3] -> Resize(1)`, whose array still holds
`1, 2, 3`: `Resize(3)` gives `[1, 0, 0]`. -/
theorem Resize_sets_size_witness :
    Valid (⟨[some [1, 2, 3]]⟩ : Heap Int) ⟨1, 3, ⟨some 0⟩⟩ ∧
    ∃ h' v', Resize (⟨[some [1, 2, 3]]⟩ : Heap Int) ⟨1, 3, ⟨some 0⟩⟩ 3 = some (h', v') ∧
      Valid h' v' ∧ v'.size_ = 3 ∧
      (3 < 1 → h' = (⟨[some [1, 2, 3]]⟩ : Heap Int) ∧ v'.capacity_ = 3 ∧ v'.data_ = ⟨some 0⟩ ∧
        ∀ k, k < 3 → ∃ y, SimpleVector.index (⟨[some [1, 2, 3]]⟩ : Heap Int)
          ⟨1, 3, ⟨some 0⟩⟩ k = some y ∧ v'.index h' k = some y) ∧
      (1 < 3 →
        (∀ k, k < 1 → ∃ y, SimpleVector.index (⟨[some [1, 2, 3]]⟩ : Heap Int)
          ⟨1, 3, ⟨some 0⟩⟩ k = some y ∧ v'.index h' k = some y) ∧
        ∀ k, 1 ≤ k → k < 3 → v'.index h' k = some 0) :=
  ⟨by decide, Resize_sets_size (⟨[some [1, 2, 3]]⟩ : Heap Int) ⟨1, 3, ⟨some 0⟩⟩ 3 (by decide)⟩

/-- C4: from the default-constructed vector in the empty heap, three `PushBack`
calls give `[1, 2, 3]` with size 3 and capacity 4, `Insert(begin + 1, 9)` gives
`[1, 9, 2, 3]`, `Erase(begin)` gives `[9, 2, 3]` and `Resize(5)` gives
`[9, 2, 3, 0, 0]`. Each line shows the call and the heap and vector it returns. -/
theorem example_sequence :
    PushBack (⟨[]⟩ : Heap Int) default_ctor (.obj 1)
      = some (⟨[some [1]]⟩, ⟨1, 1, ⟨some 0⟩⟩) ∧
    PushBack (⟨[some [1]]⟩ : Heap Int) ⟨1, 1, ⟨some 0⟩⟩ (.obj 2)
      = some (⟨[none, some [1, 2]]⟩, ⟨2, 2, ⟨some 1⟩⟩) ∧
    PushBack (⟨[none, some [1, 2]]⟩ : Heap Int) ⟨2, 2, ⟨some 1⟩⟩ (.obj 3)
      = some (⟨[none, none, some [1, 2, 3, 0]]⟩, ⟨3, 4, ⟨some 2⟩⟩) ∧
    elements (⟨[none, none, some [1, 2, 3, 0]]⟩ : Heap Int) ⟨3, 4, ⟨some 2⟩⟩
      = [some 1, some 2, some 3] ∧
    SimpleVector.GetSize ⟨3, 4, ⟨some 2⟩⟩ = 3 ∧ SimpleVector.GetCapacity ⟨3, 4, ⟨some 2⟩⟩ = 4 ∧
    SimpleVector.Insert (⟨[none, none, some [1, 2, 3, 0]]⟩ : Heap Int) ⟨3, 4, ⟨some 2⟩⟩
        ((SimpleVector.begin ⟨3, 4, ⟨some 2⟩⟩).add 1) (.obj 9)
      = some (⟨[none, none, some [1, 9, 2, 3]]⟩, ⟨4, 4, ⟨some 2⟩⟩, ⟨some 2, 1⟩) ∧
    elements (⟨[none, none, some [1, 9, 2, 3]]⟩ : Heap Int) ⟨4, 4, ⟨some 2⟩⟩
      = [some 1, some 9, some 2, some 3] ∧
    Erase (⟨[none, none, some [1, 9, 2, 3]]⟩ : Heap Int) ⟨4, 4, ⟨some 2⟩⟩
        (SimpleVector.begin ⟨4, 4, ⟨some 2⟩⟩)
      = some (⟨[none, none, some [9, 2, 3, 3]]⟩, ⟨3, 4, ⟨some 2⟩⟩, ⟨some 2, 0⟩) ∧
    elements (⟨[none, none, some [9, 2, 3, 3]]⟩ : Heap Int) ⟨3, 4, ⟨some 2⟩⟩
      = [some 9, some 2, some 3] ∧
    Resize (⟨[none, none, some [9, 2, 3, 3]]⟩ : Heap Int) ⟨3, 4, ⟨some 2⟩⟩ 5
      = some (⟨[none, none, none, some [9, 2, 3, 0, 0]]⟩, ⟨5, 5, ⟨some 3⟩⟩) ∧
    elements (⟨[none, none, none, some [9, 2, 3, 0, 0]]⟩ : Heap Int) ⟨5, 5, ⟨some 3⟩⟩
      = [some 9, some 2, some 3, some 0, some 0] := by
  refine ⟨?_, ?_, ?_, ?_, ?_, ?_, ?_, ?_, ?_, ?_, ?_, ?_⟩ <;> decide

/-- C5: for a list of `k >= 1` values, calling `PushBack` once per value on a
default-constructed vector, in any heap, succeeds and gives a well-formed vector
of size `k` whose elements are the pushed values in push order and whose
capacity is the smallest power of two that is at least `k`. -/
theorem PushBack_repeated [Inhabited T] (h : Heap T) (xs : List T) (hk : 1 ≤ xs.length) :
    ∃ h' v', push_all h default_ctor xs = some (h', v') ∧ Valid h' v' ∧
      v'.size_ = xs.length ∧
      (∀ k, k < xs.length → v'.index h' k = xs[k]?) ∧
      ∃ e, v'.capacity_ = 2 ^ e ∧ xs.length ≤ 2 ^ e ∧ ∀ m, xs.length ≤ 2 ^ m → 2 ^ e ≤ 2 ^ m := by
  have ho : Owns h default_ctor ([] : List T) :=
    ⟨le_refl _, rfl, Or.inl ⟨rfl, rfl⟩⟩
  obtain ⟨h', v', buf', hrun, ho', hs, _, hnew, hgrow⟩ := push_all_spec xs h default_ctor [] ho
  have hs' : v'.size_ = xs.length := by simpa [default_ctor] using hs
  refine ⟨h', v', hrun, Owns_valid ho', hs', ?_, ?_⟩
  · intro k hk
    rw [Owns_index ho' k]
    simpa [default_ctor] using hnew k hk
  · rcases hgrow (Or.inl ⟨rfl, rfl⟩) with ⟨hz, _⟩ | ⟨e, he, hlt⟩
    · omega
    · refine ⟨e, he, by rw [← he, ← hs']; exact ho'.1, ?_⟩
      intro m hm
      apply Nat.pow_le_pow_right (by omega)
      have h2 : 2 ^ e < 2 ^ (m + 1) := by
        rw [pow_succ]; omega
      have := (Nat.pow_lt_pow_iff_right (by omega : 1 < 2)).mp h2
      omega

/-- C5 at five values: capacity 8. -/
theorem PushBack_repeated_witness :
    1 ≤ [10, 20, 30, 40, 50].length ∧
    ∃ h' v', push_all (⟨[]⟩ : Heap Int) default_ctor [10, 20, 30, 40, 50] = some (h', v') ∧
      Valid h' v' ∧ v'.size_ = [10, 20, 30, 40, 50].length ∧
      (∀ k, k < [10, 20, 30, 40, 50].length →
        v'.index h' k = ([10, 20, 30, 40, 50] : List Int)[k]?) ∧
      ∃ e, v'.capacity_ = 2 ^ e ∧ [10, 20, 30, 40, 50].length ≤ 2 ^ e ∧
        ∀ m, [10, 20, 30, 40, 50].length ≤ 2 ^ m → 2 ^ e ≤ 2 ^ m :=
  ⟨by decide, PushBack_repeated (⟨[]⟩ : Heap Int) [10, 20, 30, 40, 50] (by decide)⟩

/-- C9: for a well-formed vector `x`, move-constructing `y` from it leaves the
heap alone and gives `y` the size, capacity, array and so the elements of `x`;
and for a distinct well-formed vector `y` that does not share its array with
`x`, move-assigning `x` to `y` succeeds, whatever `y` held, and gives `y` the
size, capacity and elements that `x` had. In both cases `x` is left well formed
with size 0 and capacity 0. -/
theorem move_transfers (h : Heap T) (x y : SimpleVector)
    (hx : Valid h x) (hy : Valid h y) (hsep : Separate x y) :
    ((move_ctor x).1.size_ = x.size_ ∧ (move_ctor x).1.capacity_ = x.capacity_ ∧
      Valid h (move_ctor x).1 ∧
      (∀ k, k < x.size_ → ∃ e, x.index h k = some e ∧ (move_ctor x).1.index h k = some e) ∧
      (move_ctor x).2.size_ = 0 ∧ (move_ctor x).2.capacity_ = 0 ∧ Valid h (move_ctor x).2) ∧
    ∃ h' y' x', move_assign h y (.distinct x) = some (h', y', .distinct x') ∧
      y'.size_ = x.size_ ∧ y'.capacity_ = x.capacity_ ∧ Valid h' y' ∧
      (∀ k, k < x.size_ → ∃ e, x.index h k = some e ∧ y'.index h' k = some e) ∧
      x'.size_ = 0 ∧ x'.capacity_ = 0 ∧ Valid h' x' := by
  obtain ⟨buf, ho⟩ := (Valid_iff_Owns h x).mp hx
  have hle := ho.1
  have helems : ∀ k, k < x.size_ → ∃ e, x.index h k = some e := by
    intro k hk
    obtain ⟨_, hke⟩ := Owns_index_lt ho (k := k) (by omega)
    exact ⟨_, hke⟩
  have hnull : ∀ g : Heap T, Valid g ⟨0, 0, ⟨none⟩⟩ := fun g => ⟨le_refl _, rfl⟩
  refine ⟨⟨rfl, rfl, hx, ?_, rfl, rfl, hnull h⟩, ?_⟩
  · intro k hk
    obtain ⟨e, he⟩ := helems k hk
    exact ⟨e, he, he⟩
  · -- the array of `y` is released first
    have hdel : ∃ h', h.delete_array y.data_.raw_ptr_ = some h' ∧
        Heap.ModifiesOnly h h' y.data_.raw_ptr_ := by
      cases hp : y.data_.raw_ptr_ with
      | none => exact ⟨h, rfl, ModifiesOnly_refl h _⟩
      | some b =>
        obtain ⟨_, bbuf, hb⟩ := Valid_ptr_lt hy hp
        obtain ⟨h', hd, _⟩ := delete_of_lookup h b bbuf hb
        exact ⟨h', hd, delete_modifies hd⟩
    obtain ⟨h', hd, m⟩ := hdel
    have hsame : ∀ a, x.data_.raw_ptr_ = some a → h'.lookup a = h.lookup a := by
      intro a hp
      apply m.2
      rcases hsep with hn | hn
      · rw [hp] at hn; simp at hn
      · rw [hp] at hn; exact fun hc => hn hc.symm
    obtain ⟨hx', hidx'⟩ := index_of_lookup hx hsame
    refine ⟨h', ⟨x.size_, x.capacity_, ⟨x.data_.raw_ptr_⟩⟩, ⟨0, 0, ⟨none⟩⟩, ?_, rfl, rfl,
      hx', ?_, rfl, rfl, hnull h'⟩
    · simp [move_assign, ArrayPtr.move_assign, hd, ArrayPtr.swap]
    · intro k hk
      obtain ⟨e, he⟩ := helems k hk
      exact ⟨e, he, (hidx' k).trans he⟩

/-- C9 at `x = [1, 2]` of capacity 3 and `y = [7]`. -/
theorem move_transfers_witness :
    Valid (⟨[some [1, 2, 0], some [7]]⟩ : Heap Int) ⟨2, 3, ⟨some 0⟩⟩ ∧
    Valid (⟨[some [1, 2, 0], some [7]]⟩ : Heap Int) ⟨1, 1, ⟨some 1⟩⟩ ∧
    Separate ⟨2, 3, ⟨some 0⟩⟩ ⟨1, 1, ⟨some 1⟩⟩ ∧
    (((move_ctor ⟨2, 3, ⟨some 0⟩⟩).1.size_ = 2 ∧ (move_ctor ⟨2, 3, ⟨some 0⟩⟩).1.capacity_ = 3 ∧
      Valid (⟨[some [1, 2, 0], some [7]]⟩ : Heap Int) (move_ctor ⟨2, 3, ⟨some 0⟩⟩).1 ∧
      (∀ k, k < 2 → ∃ e,
        SimpleVector.index (⟨[some [1, 2, 0], some [7]]⟩ : Heap Int) ⟨2, 3, ⟨some 0⟩⟩ k = some e ∧
        (move_ctor ⟨2, 3, ⟨some 0⟩⟩).1.index (⟨[some [1, 2, 0], some [7]]⟩ : Heap Int) k
          = some e) ∧
      (move_ctor ⟨2, 3, ⟨some 0⟩⟩).2.size_ = 0 ∧ (move_ctor ⟨2, 3, ⟨some 0⟩⟩).2.capacity_ = 0 ∧
      Valid (⟨[some [1, 2, 0], some [7]]⟩ : Heap Int) (move_ctor ⟨2, 3, ⟨some 0⟩⟩).2) ∧
    ∃ h' y' x', move_assign (⟨[some [1, 2, 0], some [7]]⟩ : Heap Int) ⟨1, 1, ⟨some 1⟩⟩
        (.distinct ⟨2, 3, ⟨some 0⟩⟩) = some (h', y', .distinct x') ∧
      y'.size_ = 2 ∧ y'.capacity_ = 3 ∧ Valid h' y' ∧
      (∀ k, k < 2 → ∃ e,
        SimpleVector.index (⟨[some [1, 2, 0], some [7]]⟩ : Heap Int) ⟨2, 3, ⟨some 0⟩⟩ k = some e ∧
        y'.index h' k = some e) ∧
      x'.size_ = 0 ∧ x'.capacity_ = 0 ∧ Valid h' x') :=
  ⟨by decide, by decide, by decide,
    move_transfers (⟨[some [1, 2, 0], some [7]]⟩ : Heap Int) ⟨2, 3, ⟨some 0⟩⟩ ⟨1, 1, ⟨some 1⟩⟩
      (by decide) (by decide) (by decide)⟩

/-- C10: for a well-formed non-empty vector `x`, copy-constructing from `x`
and copy-assigning `x` to another well-formed vector `y` (which does not share
its array with `x`) both succeed and give a vector for which `CopyPost` holds:
the size of `x`, the elements of `x` in order, a capacity equal to the size of
`x`; `x` unchanged; and after any defined sequence `ms` of mutating calls on
the copy, the array of `x` still unchanged. -/
theorem copy_is_independent [Inhabited T] (h : Heap T) (x y : SimpleVector)
    (ms : List (Mutation T))
    (hx : Valid h x) (hy : Valid h y) (hne : 0 < x.size_) (hsep : Separate x y) :
    (∃ h1 z, copy_ctor h x = some (h1, z) ∧ CopyPost h x h1 z ms) ∧
    (∃ h1 z, copy_assign h y (.distinct x) = some (h1, z) ∧ CopyPost h x h1 z ms) := by
  obtain ⟨buf, ho⟩ := (Valid_iff_Owns h x).mp hx
  constructor
  · obtain ⟨h1, z, zbuf, hcopy, hoz, hs, hc, hpt, _, hkeep, hfresh⟩ := copy_ctor_spec h x buf ho
    refine ⟨h1, z, hcopy, CopyPost_intro ms ho hoz hs hc hpt ?_ ?_⟩
    · intro a hp
      exact hkeep a (Valid_ptr_lt hx hp).1
    · intro a hp hza
      have := (Valid_ptr_lt hx hp).1
      rcases hfresh with e | e
      · rw [e] at hza; simp at hza
      · rw [e] at hza; injection hza with hza; omega
  · obtain ⟨h2, z, zbuf, hassign, hoz, hs, hc, hpt, hkeep, hptr⟩ :=
      copy_assign_spec h x y buf ho hy hne
    refine ⟨h2, z, hassign, CopyPost_intro ms ho hoz hs hc hpt ?_ ?_⟩
    · intro a hp
      apply hkeep a (Valid_ptr_lt hx hp).1
      rcases hsep with hn | hn
      · rw [hp] at hn; simp at hn
      · rw [hp] at hn; exact fun hc => hn hc.symm
    · intro a hp hza
      have := (Valid_ptr_lt hx hp).1
      rw [hptr] at hza; injection hza with hza; omega

/-- C10 at `x = [1, 2]` of capacity 3 and `y = [7]`, with the copy then
changed by `PushBack(9)`, `v[0] = 5` and `Erase(begin + 1)`; the last four parts
evaluate the two copies and show that these calls are defined on them. -/
theorem copy_is_independent_witness :
    Valid (⟨[some [1, 2, 0], some [7]]⟩ : Heap Int) ⟨2, 3, ⟨some 0⟩⟩ ∧
    Valid (⟨[some [1, 2, 0], some [7]]⟩ : Heap Int) ⟨1, 1, ⟨some 1⟩⟩ ∧
    Separate ⟨2, 3, ⟨some 0⟩⟩ ⟨1, 1, ⟨some 1⟩⟩ ∧
    ((∃ h1 z, copy_ctor (⟨[some [1, 2, 0], some [7]]⟩ : Heap Int) ⟨2, 3, ⟨some 0⟩⟩
        = some (h1, z) ∧
      CopyPost (⟨[some [1, 2, 0], some [7]]⟩ : Heap Int) ⟨2, 3, ⟨some 0⟩⟩ h1 z
        [.PushBack (.obj 9), .Store 0 5, .Erase ⟨some 3, 1⟩]) ∧
     (∃ h1 z, copy_assign (⟨[some [1, 2, 0], some [7]]⟩ : Heap Int) ⟨1, 1, ⟨some 1⟩⟩
        (.distinct ⟨2, 3, ⟨some 0⟩⟩) = some (h1, z) ∧
      CopyPost (⟨[some [1, 2, 0], some [7]]⟩ : Heap Int) ⟨2, 3, ⟨some 0⟩⟩ h1 z
        [.PushBack (.obj 9), .Store 0 5, .Erase ⟨some 3, 1⟩])) ∧
    copy_ctor (⟨[some [1, 2, 0], some [7]]⟩ : Heap Int) ⟨2, 3, ⟨some 0⟩⟩
      = some (⟨[some [1, 2, 0], some [7], some [1, 2]]⟩, ⟨2, 2, ⟨some 2⟩⟩) ∧
    apply_all (⟨[some [1, 2, 0], some [7], some [1, 2]]⟩ : Heap Int) ⟨2, 2, ⟨some 2⟩⟩
        [.PushBack (.obj 9), .Store 0 5, .Erase ⟨some 3, 1⟩]
      = some (⟨[some [1, 2, 0], some [7], none, some [5, 9, 9, 0]]⟩, ⟨2, 4, ⟨some 3⟩⟩) ∧
    copy_assign (⟨[some [1, 2, 0], some [7]]⟩ : Heap Int) ⟨1, 1, ⟨some 1⟩⟩
        (.distinct ⟨2, 3, ⟨some 0⟩⟩)
      = some (⟨[some [1, 2, 0], none, some [1, 2]]⟩, ⟨2, 2, ⟨some 2⟩⟩) ∧
    apply_all (⟨[some [1, 2, 0], none, some [1, 2]]⟩ : Heap Int) ⟨2, 2, ⟨some 2⟩⟩
        [.PushBack (.obj 9), .Store 0 5, .Erase ⟨some 3, 1⟩]
      = some (⟨[some [1, 2, 0], none, none, some [5, 9, 9, 0]]⟩, ⟨2, 4, ⟨some 3⟩⟩) :=
  ⟨by decide, by decide, by decide,
    copy_is_independent (⟨[some [1, 2, 0], some [7]]⟩ : Heap Int) ⟨2, 3, ⟨some 0⟩⟩
      ⟨1, 1, ⟨some 1⟩⟩ [.PushBack (.obj 9), .Store 0 5, .Erase ⟨some 3, 1⟩]
      (by decide) (by decide) (by decide) (by decide),
    by decide, by decide, by decide, by decide⟩

/-- C11: for every target `y`, whatever its size, capacity and content, and
every distinct empty vector `x` (size 0, any capacity), copy assignment of `x`
to `y` is defined, leaves the heap alone and leaves `y` with size 0 and with its
capacity and array unchanged. -/
theorem copy_assign_from_empty [Inhabited T] (h : Heap T) (x y : SimpleVector)
    (hx : x.size_ = 0) :
    ∃ y', copy_assign h y (.distinct x) = some (h, y') ∧
      y'.size_ = 0 ∧ y'.capacity_ = y.capacity_ ∧ y'.data_ = y.data_ := by
  refine ⟨y.Clear, ?_, rfl, rfl, rfl⟩
  simp [copy_assign, SimpleVector.IsEmpty, hx]

/-- C11 at `y = [1, 2]` of capacity 3 and an empty `x` of capacity 4. -/
theorem copy_assign_from_empty_witness :
    (⟨0, 4, ⟨some 1⟩⟩ : SimpleVector).size_ = 0 ∧
    ∃ y', copy_assign (⟨[some [1, 2, 0], some [5, 6, 7, 8]]⟩ : Heap Int) ⟨2, 3, ⟨some 0⟩⟩
        (.distinct ⟨0, 4, ⟨some 1⟩⟩)
        = some (⟨[some [1, 2, 0], some [5, 6, 7, 8]]⟩, y') ∧
      y'.size_ = 0 ∧ y'.capacity_ = 3 ∧ y'.data_ = ⟨some 0⟩ :=
  ⟨rfl, copy_assign_from_empty (⟨[some [1, 2, 0], some [5, 6, 7, 8]]⟩ : Heap Int)
    ⟨0, 4, ⟨some 1⟩⟩ ⟨2, 3, ⟨some 0⟩⟩ rfl⟩

/-- C12: copy assignment and move assignment of a vector to itself are defined
and return the heap and the vector as they were, for every heap and every
vector (well formed or not, empty or not, of capacity 0 or not). -/
theorem self_assignment_is_noop [Inhabited T] (h : Heap T) (v : SimpleVector) :
    copy_assign h v .same = some (h, v) ∧ move_assign h v .same = some (h, v, .same) :=
  ⟨rfl, rfl⟩

/-- C13: for a well-formed vector and every index `i`, both overloads of `At`
are defined; they throw `std::out_of_range` exactly when `i >= size` (so at
`i = size`, also when `size < capacity`), and for `i < size` they return the
element that the unchecked `operator[]` returns. -/
theorem At_checks_range (h : Heap T) (v : SimpleVector) (i : Nat) (hv : Valid h v) :
    (∃ r, v.At h i = some r ∧ v.At_const h i = some r) ∧
    (v.At h i = some .out_of_range ↔ v.size_ ≤ i) ∧
    (v.At_const h i = some .out_of_range ↔ v.size_ ≤ i) ∧
    v.At h v.size_ = some .out_of_range ∧
    (i < v.size_ → ∃ x, v.index h i = some x ∧ v.At h i = some (.value x) ∧
      v.At_const h i = some (.value x)) := by
  obtain ⟨buf, ho⟩ := (Valid_iff_Owns h v).mp hv
  have hle := ho.1
  by_cases hi : v.size_ ≤ i
  · have e1 : v.At h i = some .out_of_range := by simp [SimpleVector.At, hi]
    have e2 : v.At_const h i = some .out_of_range := by simp [SimpleVector.At_const, hi]
    refine ⟨⟨_, e1, e2⟩, by simp [e1, hi], by simp [e2, hi], by simp [SimpleVector.At],
      fun hlt => by omega⟩
  · obtain ⟨hb, he⟩ := Owns_index_lt ho (k := i) (by omega)
    have he' : v.data_.index h i = some (buf[i]) := he
    have e1 : v.At h i = some (.value (buf[i])) := by
      simp [SimpleVector.At, hi, he']
    have e2 : v.At_const h i = some (.value (buf[i])) := by
      simp [SimpleVector.At_const, hi, he']
    refine ⟨⟨_, e1, e2⟩, by simp [e1, hi], by simp [e2, hi], by simp [SimpleVector.At],
      fun _ => ⟨_, he, e1, e2⟩⟩

/-- C13 at `[1, 2]` of capacity 3, index 1. -/
theorem At_checks_range_witness :
    Valid (⟨[some [1, 2, 0]]⟩ : Heap Int) ⟨2, 3, ⟨some 0⟩⟩ ∧
    ((∃ r, SimpleVector.At (⟨[some [1, 2, 0]]⟩ : Heap Int) ⟨2, 3, ⟨some 0⟩⟩ 1 = some r ∧
        SimpleVector.At_const (⟨[some [1, 2, 0]]⟩ : Heap Int) ⟨2, 3, ⟨some 0⟩⟩ 1 = some r) ∧
    (SimpleVector.At (⟨[some [1, 2, 0]]⟩ : Heap Int) ⟨2, 3, ⟨some 0⟩⟩ 1 = some .out_of_range
      ↔ 2 ≤ 1) ∧
    (SimpleVector.At_const (⟨[some [1, 2, 0]]⟩ : Heap Int) ⟨2, 3, ⟨some 0⟩⟩ 1
      = some .out_of_range ↔ 2 ≤ 1) ∧
    SimpleVector.At (⟨[some [1, 2, 0]]⟩ : Heap Int) ⟨2, 3, ⟨some 0⟩⟩ 2 = some .out_of_range ∧
    (1 < 2 → ∃ x, SimpleVector.index (⟨[some [1, 2, 0]]⟩ : Heap Int) ⟨2, 3, ⟨some 0⟩⟩ 1 = some x ∧
      SimpleVector.At (⟨[some [1, 2, 0]]⟩ : Heap Int) ⟨2, 3, ⟨some 0⟩⟩ 1 = some (.value x) ∧
      SimpleVector.At_const (⟨[some [1, 2, 0]]⟩ : Heap Int) ⟨2, 3, ⟨some 0⟩⟩ 1
        = some (.value x))) :=
  ⟨by decide, At_checks_range (⟨[some [1, 2, 0]]⟩ : Heap Int) ⟨2, 3, ⟨some 0⟩⟩ 1 (by decide)⟩

/-- C14: for well-formed vectors `a` and `b`, `a == b` is defined and is true
exactly when the sizes are equal and `a[i] == b[i]` for every `i < size`; the
result is the same for any other pair of well-formed vectors, in any heap, with
the same lists of live elements, so it depends neither on the capacities nor on
the slots at indices `>= size`. -/
theorem op_eq_iff_same_elements [DecidableEq T] (h : Heap T) (a b : SimpleVector)
    (ha : Valid h a) (hb : Valid h b) :
    ∃ r, op_eq h a b = some r ∧
      (r = true ↔ a.size_ = b.size_ ∧ ∀ i, i < a.size_ → a.index h i = b.index h i) ∧
      ∀ (h' : Heap T) (a' b' : SimpleVector), Valid h' a' → Valid h' b' →
        elements h' a' = elements h a → elements h' b' = elements h b →
        op_eq h' a' b' = some r := by
  obtain ⟨r, hr, hiff⟩ := op_eq_spec h a b ha hb
  refine ⟨r, hr, hiff, ?_⟩
  intro h' a' b' ha' hb' hea heb
  obtain ⟨r', hr', hiff'⟩ := op_eq_spec h' a' b' ha' hb'
  obtain ⟨hsa, hia⟩ := (elements_eq_iff h h' a a').mp hea
  obtain ⟨hsb, hib⟩ := (elements_eq_iff h h' b b').mp heb
  have : r' = true ↔ r = true := by
    rw [hiff', hiff, hsa, hsb]
    constructor
    · rintro ⟨hs, hall⟩
      exact ⟨hs, fun i hi => by rw [← hia i hi, ← hib i (by omega)]; exact hall i hi⟩
    · rintro ⟨hs, hall⟩
      exact ⟨hs, fun i hi => by rw [hia i hi, hib i (by omega)]; exact hall i hi⟩
  have e : r' = r := by
    cases r <;> cases r' <;> simp_all
  rw [hr', e]

/-- C14 at `a = [1, 2]` of capacity 3 and `b = [1, 2]` of capacity 2. -/
theorem op_eq_iff_same_elements_witness :
    Valid (⟨[some [1, 2, 9], some [1, 2]]⟩ : Heap Int) ⟨2, 3, ⟨some 0⟩⟩ ∧
    Valid (⟨[some [1, 2, 9], some [1, 2]]⟩ : Heap Int) ⟨2, 2, ⟨some 1⟩⟩ ∧
    op_eq (⟨[some [1, 2, 9], some [1, 2]]⟩ : Heap Int) ⟨2, 3, ⟨some 0⟩⟩ ⟨2, 2, ⟨some 1⟩⟩
      = some true ∧
    ∃ r, op_eq (⟨[some [1, 2, 9], some [1, 2]]⟩ : Heap Int) ⟨2, 3, ⟨some 0⟩⟩ ⟨2, 2, ⟨some 1⟩⟩
        = some r ∧
      (r = true ↔ (2 : Nat) = 2 ∧ ∀ i, i < 2 →
        SimpleVector.index (⟨[some [1, 2, 9], some [1, 2]]⟩ : Heap Int) ⟨2, 3, ⟨some 0⟩⟩ i
          = SimpleVector.index (⟨[some [1, 2, 9], some [1, 2]]⟩ : Heap Int)
              ⟨2, 2, ⟨some 1⟩⟩ i) ∧
      ∀ (h' : Heap Int) (a' b' : SimpleVector), Valid h' a' → Valid h' b' →
        elements h' a'
          = elements (⟨[some [1, 2, 9], some [1, 2]]⟩ : Heap Int) ⟨2, 3, ⟨some 0⟩⟩ →
        elements h' b'
          = elements (⟨[some [1, 2, 9], some [1, 2]]⟩ : Heap Int) ⟨2, 2, ⟨some 1⟩⟩ →
        op_eq h' a' b' = some r :=
  ⟨by decide, by decide, by decide,
    op_eq_iff_same_elements (⟨[some [1, 2, 9], some [1, 2]]⟩ : Heap Int) ⟨2, 3, ⟨some 0⟩⟩
      ⟨2, 2, ⟨some 1⟩⟩ (by decide) (by decide)⟩

/-- C16: in every heap, `SimpleVector(n, x)` (with `x` read through a valid
reference) has size `n`, capacity `n` and every element equal to `x`;
`SimpleVector(n)` has size `n`, capacity `n` and every element equal to the
default value; `SimpleVector(init)` has size and capacity equal to the length
of the list and element `k` equal to `init[k]`; `SimpleVector(Reserve(c))` has
size 0 and capacity `c`; the default constructor gives size 0 and capacity 0.
Each constructor is defined and the vector it builds is well formed. -/
theorem constructors_postconditions [Inhabited T] (h : Heap T) (n c : Nat) (value : Ref T)
    (x : T) (init : List T) (hx : h.deref value = some x) :
    (∃ h' v, ctor_size_value h n value = some (h', v) ∧ Valid h' v ∧
      v.size_ = n ∧ v.capacity_ = n ∧ ∀ k, k < n → v.index h' k = some x) ∧
    (∃ h' v, ctor_size h n = some (h', v) ∧ Valid h' v ∧
      v.size_ = n ∧ v.capacity_ = n ∧ ∀ k, k < n → v.index h' k = some (default : T)) ∧
    (∃ h' v, ctor_init h init = some (h', v) ∧ Valid h' v ∧
      v.size_ = init.length ∧ v.capacity_ = init.length ∧
      ∀ k, k < init.length → v.index h' k = init[k]?) ∧
    (Valid (ctor_reserve h (Reserve_proxy c)).1 (ctor_reserve h (Reserve_proxy c)).2 ∧
      (ctor_reserve h (Reserve_proxy c)).2.size_ = 0 ∧
      (ctor_reserve h (Reserve_proxy c)).2.capacity_ = c) ∧
    (Valid h default_ctor ∧ default_ctor.size_ = 0 ∧ default_ctor.capacity_ = 0) := by
  refine ⟨?_, ?_, ?_, ?_, ?_⟩
  · obtain ⟨h', v, buf, hrun, ho, hs, hc, hpt, _⟩ := ctor_size_value_spec h n value x hx
    exact ⟨h', v, hrun, Owns_valid ho, hs, hc, fun k hk => by rw [Owns_index ho k, hpt k hk]⟩
  · obtain ⟨h', v, buf, hrun, ho, hs, hc, hpt, _⟩ :=
      ctor_size_value_spec h n (.obj (default : T)) default rfl
    exact ⟨h', v, by rw [ctor_size_eq]; exact hrun, Owns_valid ho, hs, hc,
      fun k hk => by rw [Owns_index ho k, hpt k hk]⟩
  · obtain ⟨h', v, buf, hrun, ho, hs, hc, hpt, _⟩ := ctor_init_spec h init
    exact ⟨h', v, hrun, Owns_valid ho, hs, hc, fun k hk => by rw [Owns_index ho k, hpt k hk]⟩
  · obtain ⟨ho, hs, hc⟩ := ctor_reserve_spec h c
    exact ⟨Owns_valid ho, hs, hc⟩
  · exact ⟨⟨le_refl _, rfl⟩, rfl, rfl⟩

/-- C16 in a heap that holds the array `[4, 5]`, with `n = 3`, `c = 6`, the
value read from slot 1 of that array and the list `[7, 8]`. -/
theorem constructors_postconditions_witness :
    Heap.deref (⟨[some [4, 5]]⟩ : Heap Int) (.elem 0 1) = some 5 ∧
    ((∃ h' v, ctor_size_value (⟨[some [4, 5]]⟩ : Heap Int) 3 (.elem 0 1) = some (h', v) ∧
      Valid h' v ∧ v.size_ = 3 ∧ v.capacity_ = 3 ∧ ∀ k, k < 3 → v.index h' k = some 5) ∧
    (∃ h' v, ctor_size (⟨[some [4, 5]]⟩ : Heap Int) 3 = some (h', v) ∧ Valid h' v ∧
      v.size_ = 3 ∧ v.capacity_ = 3 ∧ ∀ k, k < 3 → v.index h' k = some 0) ∧
    (∃ h' v, ctor_init (⟨[some [4, 5]]⟩ : Heap Int) [7, 8] = some (h', v) ∧ Valid h' v ∧
      v.size_ = [7, 8].length ∧ v.capacity_ = [7, 8].length ∧
      ∀ k, k < [7, 8].length → v.index h' k = ([7, 8] : List Int)[k]?) ∧
    (Valid (ctor_reserve (⟨[some [4, 5]]⟩ : Heap Int) (Reserve_proxy 6)).1
        (ctor_reserve (⟨[some [4, 5]]⟩ : Heap Int) (Reserve_proxy 6)).2 ∧
      (ctor_reserve (⟨[some [4, 5]]⟩ : Heap Int) (Reserve_proxy 6)).2.size_ = 0 ∧
      (ctor_reserve (⟨[some [4, 5]]⟩ : Heap Int) (Reserve_proxy 6)).2.capacity_ = 6) ∧
    (Valid (⟨[some [4, 5]]⟩ : Heap Int) default_ctor ∧ default_ctor.size_ = 0 ∧
      default_ctor.capacity_ = 0)) :=
  ⟨by decide, constructors_postconditions (⟨[some [4, 5]]⟩ : Heap Int) 3 6 (.elem 0 1) 5 [7, 8]
    (by decide)⟩

/-- C17: `ArrayPtr(0)` holds a null pointer and converts to `false`;
`ArrayPtr(n)` with `n > 0` holds a non-null pointer, to a live array of `n`
default values, and converts to `true`; move construction from `b` and move
assignment of a distinct `b` to `a` (whose pointer is null or points to a live
array, which is released) leave the target with the pointer `b` held and `b`
null; move assignment of `a` to itself leaves heap and pointer as they were;
`Release()` returns the pointer held and leaves null, also on a null buffer. -/
theorem ArrayPtr_ownership [Inhabited T] (h : Heap T) (n : Nat) (a b : ArrayPtr)
    (hn : 0 < n)
    (ha : a.raw_ptr_ = none ∨ ∃ p buf, a.raw_ptr_ = some p ∧ h.lookup p = some buf) :
    ((ArrayPtr.ofSize h 0).2.raw_ptr_ = none ∧ (ArrayPtr.ofSize h 0).2.toBool = false ∧
      (ArrayPtr.ofSize h 0).1 = h) ∧
    (∃ p, (ArrayPtr.ofSize h n).2.raw_ptr_ = some p ∧ (ArrayPtr.ofSize h n).2.toBool = true ∧
      (ArrayPtr.ofSize h n).1.lookup p = some (List.replicate n (default : T)) ∧
      h.lookup p = none) ∧
    ((ArrayPtr.move_ctor b).1.raw_ptr_ = b.raw_ptr_ ∧ (ArrayPtr.move_ctor b).2.raw_ptr_ = none) ∧
    (∃ h' a' b', ArrayPtr.move_assign h a (.distinct b) = some (h', a', .distinct b') ∧
      a'.raw_ptr_ = b.raw_ptr_ ∧ b'.raw_ptr_ = none) ∧
    ArrayPtr.move_assign h a .same = some (h, a, .same) ∧
    ((ArrayPtr.Release a).1 = a.raw_ptr_ ∧ (ArrayPtr.Release a).2.raw_ptr_ = none) ∧
    ((ArrayPtr.Release ⟨none⟩).1 = none ∧ (ArrayPtr.Release ⟨none⟩).2.raw_ptr_ = none) := by
  refine ⟨?_, ?_, ⟨rfl, rfl⟩, ?_, rfl, ⟨rfl, rfl⟩, ⟨rfl, rfl⟩⟩
  · simp [ofSize_zero, ArrayPtr.toBool]
  · refine ⟨h.cells.length, ?_, ?_, ?_, ?_⟩
    · simp [ofSize_pos h n hn]
    · simp [ofSize_pos h n hn, ArrayPtr.toBool]
    · simp [ofSize_pos h n hn, lookup_new_array]
    · simp [Heap.lookup, List.getD_eq_getElem?_getD]
  · rcases ha with hnull | ⟨p, buf, hp, hl⟩
    · exact ⟨h, ⟨b.raw_ptr_⟩, ⟨none⟩,
        by simp [ArrayPtr.move_assign, hnull, Heap.delete_array, ArrayPtr.swap], rfl, rfl⟩
    · obtain ⟨h', hd, _⟩ := delete_of_lookup h p buf hl
      exact ⟨h', ⟨b.raw_ptr_⟩, ⟨none⟩,
        by simp [ArrayPtr.move_assign, hp, hd, ArrayPtr.swap], rfl, rfl⟩

/-- C17 with `n = 2`, `a` holding the array at address 0 and `b` the one at
address 1. -/
theorem ArrayPtr_ownership_witness :
    0 < 2 ∧
    ((⟨some 0⟩ : ArrayPtr).raw_ptr_ = none ∨ ∃ p buf, (⟨some 0⟩ : ArrayPtr).raw_ptr_ = some p ∧
      Heap.lookup (⟨[some [1], some [2, 3]]⟩ : Heap Int) p = some buf) ∧
    (∃ h' a' b', ArrayPtr.move_assign (⟨[some [1], some [2, 3]]⟩ : Heap Int) ⟨some 0⟩
        (.distinct ⟨some 1⟩) = some (h', a', .distinct b') ∧
      a'.raw_ptr_ = some 1 ∧ b'.raw_ptr_ = none) ∧
    (∃ p, (ArrayPtr.ofSize (⟨[some [1], some [2, 3]]⟩ : Heap Int) 2).2.raw_ptr_ = some p ∧
      (ArrayPtr.ofSize (⟨[some [1], some [2, 3]]⟩ : Heap Int) 2).2.toBool = true ∧
      (ArrayPtr.ofSize (⟨[some [1], some [2, 3]]⟩ : Heap Int) 2).1.lookup p
        = some (List.replicate 2 (default : Int)) ∧
      Heap.lookup (⟨[some [1], some [2, 3]]⟩ : Heap Int) p = none) :=
  ⟨by decide, Or.inr ⟨0, [1], rfl, rfl⟩,
    (ArrayPtr_ownership (⟨[some [1], some [2, 3]]⟩ : Heap Int) 2 ⟨some 0⟩ ⟨some 1⟩ (by decide)
      (Or.inr ⟨0, [1], rfl, rfl⟩)).2.2.2.1,
    (ArrayPtr_ownership (⟨[some [1], some [2, 3]]⟩ : Heap Int) 2 ⟨some 0⟩ ⟨some 1⟩ (by decide)
      (Or.inr ⟨0, [1], rfl, rfl⟩)).2.1⟩

/-- C15: `size_ <= capacity_` holds for every constructed vector (default, size,
size with value, initializer list, copy, move, reserve) and, for well-formed
vectors `v` and `w` that own different arrays, after every mutating call `m` on
`v` whose precondition holds (`PushBack`, `PopBack` on a non-empty vector,
`Insert` at `i <= size`, `Erase` at `i < size`, `Reserve`, `Resize`, `Clear`, an
element store), after `swap`, copy assignment and move assignment, for the
target and for the other operand. Every call is defined, and the resulting
vectors are well formed (`Valid`), which is what the next call needs. -/
theorem size_le_capacity_invariant [Inhabited T] (h : Heap T) (v w : SimpleVector)
    (m : Mutation T) (n c : Nat) (value : Ref T) (x : T) (init : List T)
    (hv : Valid h v) (hw : Valid h w) (hsep : Separate v w)
    (hx : h.deref value = some x) (hm : m.pre h v) :
    (default_ctor.size_ ≤ default_ctor.capacity_ ∧ Valid h default_ctor) ∧
    (∃ h' u, ctor_size h n = some (h', u) ∧ u.size_ ≤ u.capacity_ ∧ Valid h' u) ∧
    (∃ h' u, ctor_size_value h n value = some (h', u) ∧ u.size_ ≤ u.capacity_ ∧ Valid h' u) ∧
    (∃ h' u, ctor_init h init = some (h', u) ∧ u.size_ ≤ u.capacity_ ∧ Valid h' u) ∧
    (∃ h' u, copy_ctor h v = some (h', u) ∧ u.size_ ≤ u.capacity_ ∧ Valid h' u ∧
      v.size_ ≤ v.capacity_ ∧ Valid h' v) ∧
    ((move_ctor v).1.size_ ≤ (move_ctor v).1.capacity_ ∧ Valid h (move_ctor v).1 ∧
      (move_ctor v).2.size_ ≤ (move_ctor v).2.capacity_ ∧ Valid h (move_ctor v).2) ∧
    ((ctor_reserve h (Reserve_proxy c)).2.size_ ≤ (ctor_reserve h (Reserve_proxy c)).2.capacity_ ∧
      Valid (ctor_reserve h (Reserve_proxy c)).1 (ctor_reserve h (Reserve_proxy c)).2) ∧
    (∃ h' v', m.apply h v = some (h', v') ∧ v'.size_ ≤ v'.capacity_ ∧ Valid h' v') ∧
    ((SimpleVector.swap v w).1.size_ ≤ (SimpleVector.swap v w).1.capacity_ ∧
      Valid h (SimpleVector.swap v w).1 ∧
      (SimpleVector.swap v w).2.size_ ≤ (SimpleVector.swap v w).2.capacity_ ∧
      Valid h (SimpleVector.swap v w).2) ∧
    (∃ h' v', copy_assign h v (.distinct w) = some (h', v') ∧
      v'.size_ ≤ v'.capacity_ ∧ Valid h' v' ∧ w.size_ ≤ w.capacity_ ∧ Valid h' w) ∧
    (∃ h' v', copy_assign h v .same = some (h', v') ∧ v'.size_ ≤ v'.capacity_ ∧ Valid h' v') ∧
    (∃ h' v' w', move_assign h v (.distinct w) = some (h', v', .distinct w') ∧
      v'.size_ ≤ v'.capacity_ ∧ Valid h' v' ∧ w'.size_ ≤ w'.capacity_ ∧ Valid h' w') ∧
    (∃ h' v', move_assign h v .same = some (h', v', .same) ∧
      v'.size_ ≤ v'.capacity_ ∧ Valid h' v') := by
  have hnull : ∀ g : Heap T, Valid g ⟨0, 0, ⟨none⟩⟩ := fun g => ⟨le_refl _, rfl⟩
  refine ⟨⟨le_refl _, hnull h⟩, ?_, ?_, ?_, ?_, ⟨hv.1, hv, le_refl _, hnull h⟩, ?_, ?_,
    ⟨hw.1, hw, hv.1, hv⟩, ?_, ⟨h, v, rfl, hv.1, hv⟩, ?_, ⟨h, v, rfl, hv.1, hv⟩⟩
  · obtain ⟨h', u, buf, hrun, ho, _⟩ :=
      ctor_size_value_spec h n (.obj (default : T)) default rfl
    exact ⟨h', u, by rw [ctor_size_eq]; exact hrun, ho.1, Owns_valid ho⟩
  · obtain ⟨h', u, buf, hrun, ho, _⟩ := ctor_size_value_spec h n value x hx
    exact ⟨h', u, hrun, ho.1, Owns_valid ho⟩
  · obtain ⟨h', u, buf, hrun, ho, _⟩ := ctor_init_spec h init
    exact ⟨h', u, hrun, ho.1, Owns_valid ho⟩
  · obtain ⟨buf, ho⟩ := (Valid_iff_Owns h v).mp hv
    obtain ⟨h', u, zbuf, hrun, hoz, _, _, _, _, hkeep, _⟩ := copy_ctor_spec h v buf ho
    exact ⟨h', u, hrun, hoz.1, Owns_valid hoz, hv.1,
      (index_of_lookup hv (fun a hp => hkeep a (Valid_ptr_lt hv hp).1)).1⟩
  · obtain ⟨ho, _, _⟩ := ctor_reserve_spec h c
    exact ⟨ho.1, Owns_valid ho⟩
  · obtain ⟨h', v', hrun, hv'⟩ := apply_valid m h v hv hm
    exact ⟨h', v', hrun, hv'.1, hv'⟩
  · obtain ⟨h', v', hrun, hv', hw'⟩ := copy_assign_valid h w v hw hv (Separate_symm hsep)
    exact ⟨h', v', hrun, hv'.1, hv', hw.1, hw'⟩
  · obtain ⟨h', hrun, _, hv', hw', _⟩ := move_assign_spec h w v hw hv (Separate_symm hsep)
    exact ⟨h', _, _, hrun, hv'.1, hv', hw'.1, hw'⟩

/-- C15 at `v = [1, 2]` of capacity 2 and `w = [7]`, with the call
`Insert(begin + 1, 9)`; shown are the parts on the call, on copy assignment and
on move assignment. -/
theorem size_le_capacity_invariant_witness :
    Valid (⟨[some [1, 2], some [7]]⟩ : Heap Int) ⟨2, 2, ⟨some 0⟩⟩ ∧
    Valid (⟨[some [1, 2], some [7]]⟩ : Heap Int) ⟨1, 1, ⟨some 1⟩⟩ ∧
    Separate ⟨2, 2, ⟨some 0⟩⟩ ⟨1, 1, ⟨some 1⟩⟩ ∧
    Heap.deref (⟨[some [1, 2], some [7]]⟩ : Heap Int) (.obj 9) = some 9 ∧
    Mutation.pre (.Insert ⟨some 0, 1⟩ (.obj 9)) (⟨[some [1, 2], some [7]]⟩ : Heap Int)
      ⟨2, 2, ⟨some 0⟩⟩ ∧
    (∃ h' v', Mutation.apply (.Insert ⟨some 0, 1⟩ (.obj 9))
        (⟨[some [1, 2], some [7]]⟩ : Heap Int) ⟨2, 2, ⟨some 0⟩⟩ = some (h', v') ∧
      v'.size_ ≤ v'.capacity_ ∧ Valid h' v') ∧
    (∃ h' v', copy_assign (⟨[some [1, 2], some [7]]⟩ : Heap Int) ⟨2, 2, ⟨some 0⟩⟩
        (.distinct ⟨1, 1, ⟨some 1⟩⟩) = some (h', v') ∧
      v'.size_ ≤ v'.capacity_ ∧ Valid h' v' ∧
      (⟨1, 1, ⟨some 1⟩⟩ : SimpleVector).size_ ≤ (⟨1, 1, ⟨some 1⟩⟩ : SimpleVector).capacity_ ∧
      Valid h' ⟨1, 1, ⟨some 1⟩⟩) ∧
    (∃ h' v' w', move_assign (⟨[some [1, 2], some [7]]⟩ : Heap Int) ⟨2, 2, ⟨some 0⟩⟩
        (.distinct ⟨1, 1, ⟨some 1⟩⟩) = some (h', v', .distinct w') ∧
      v'.size_ ≤ v'.capacity_ ∧ Valid h' v' ∧ w'.size_ ≤ w'.capacity_ ∧ Valid h' w') :=
  ⟨by decide, by decide, by decide, rfl, ⟨⟨1, by decide, rfl⟩, ⟨9, rfl⟩, trivial⟩,
    (size_le_capacity_invariant (⟨[some [1, 2], some [7]]⟩ : Heap Int) ⟨2, 2, ⟨some 0⟩⟩
      ⟨1, 1, ⟨some 1⟩⟩ (.Insert ⟨some 0, 1⟩ (.obj 9)) 3 4 (.obj 9) 9 [5, 6]
      (by decide) (by decide) (by decide) rfl
      ⟨⟨1, by decide, rfl⟩, ⟨9, rfl⟩, trivial⟩).2.2.2.2.2.2.2.1,
    (size_le_capacity_invariant (⟨[some [1, 2], some [7]]⟩ : Heap Int) ⟨2, 2, ⟨some 0⟩⟩
      ⟨1, 1, ⟨some 1⟩⟩ (.Insert ⟨some 0, 1⟩ (.obj 9)) 3 4 (.obj 9) 9 [5, 6]
      (by decide) (by decide) (by decide) rfl
      ⟨⟨1, by decide, rfl⟩, ⟨9, rfl⟩, trivial⟩).2.2.2.2.2.2.2.2.2.1,
    (size_le_capacity_invariant (⟨[some [1, 2], some [7]]⟩ : Heap Int) ⟨2, 2, ⟨some 0⟩⟩
      ⟨1, 1, ⟨some 1⟩⟩ (.Insert ⟨some 0, 1⟩ (.obj 9)) 3 4 (.obj 9) 9 [5, 6]
      (by decide) (by decide) (by decide) rfl
      ⟨⟨1, by decide, rfl⟩, ⟨9, rfl⟩, trivial⟩).2.2.2.2.2.2.2.2.2.2.2.1⟩

/-- C18: for well-formed vectors `a` and `b` over a linearly ordered element
type, all six operators are defined; with `lt`, `gt` and `eq` the results of
`a < b`, `b < a` and `a == b`: `lt` holds exactly when the list of live elements
of `a` is lexicographically smaller than that of `b` (`List.Lex`: the first
differing element decides, a proper prefix is smaller), `eq` exactly when the
two lists are equal, `a <= b` is `lt or eq`, `a >= b` is `gt or eq`, `a > b` is
`gt`, `a != b` is `not eq`, and exactly one of `lt`, `eq`, `gt` holds. -/
theorem ordering_operators [LinearOrder T] (h : Heap T) (a b : SimpleVector)
    (ha : Valid h a) (hb : Valid h b) :
    ∃ lt gt eq : Bool, op_lt h a b = some lt ∧ op_lt h b a = some gt ∧ op_eq h a b = some eq ∧
      (lt = true ↔ List.Lex (· < ·) (contents h a) (contents h b)) ∧
      (eq = true ↔ contents h a = contents h b) ∧
      op_le h a b = some (lt || eq) ∧ op_ge h a b = some (gt || eq) ∧
      op_gt h a b = some gt ∧ op_ne h a b = some (!eq) ∧
      ((lt = true ∧ eq = false ∧ gt = false) ∨ (lt = false ∧ eq = true ∧ gt = false) ∨
        (lt = false ∧ eq = false ∧ gt = true)) := by
  obtain ⟨lt, hlt, hltiff⟩ := op_lt_spec h a b ha hb
  obtain ⟨gt, hgt, hgtiff⟩ := op_lt_spec h b a hb ha
  obtain ⟨eq, heq, heqiff⟩ := op_eq_contents h a b ha hb
  have tri := @trichotomous_of (List T) (List.Lex (· < ·)) _ (contents h a) (contents h b)
  have asy : List.Lex (· < ·) (contents h a) (contents h b) →
      ¬ List.Lex (· < ·) (contents h b) (contents h a) :=
    fun h1 h2 => @asymm_of (List T) (List.Lex (· < ·)) _ _ _ h1 h2
  have irr : contents h a = contents h b →
      ¬ List.Lex (· < ·) (contents h a) (contents h b) ∧
      ¬ List.Lex (· < ·) (contents h b) (contents h a) := by
    intro he
    rw [he]
    exact ⟨fun hl => @asymm_of (List T) (List.Lex (· < ·)) _ _ _ hl hl,
      fun hl => @asymm_of (List T) (List.Lex (· < ·)) _ _ _ hl hl⟩
  have one : (lt = true ∧ eq = false ∧ gt = false) ∨ (lt = false ∧ eq = true ∧ gt = false) ∨
      (lt = false ∧ eq = false ∧ gt = true) := by
    cases lt <;> cases gt <;> cases eq <;> simp_all
  refine ⟨lt, gt, eq, hlt, hgt, heq, hltiff, heqiff, ?_, ?_, ?_, ?_, one⟩
  · rw [op_le, hgt]
    rcases one with ⟨e1, e2, e3⟩ | ⟨e1, e2, e3⟩ | ⟨e1, e2, e3⟩ <;> simp [e1, e2, e3]
  · rw [op_ge, hlt]
    rcases one with ⟨e1, e2, e3⟩ | ⟨e1, e2, e3⟩ | ⟨e1, e2, e3⟩ <;> simp [e1, e2, e3]
  · rw [op_gt, hgt]
  · rw [op_ne, heq]; rfl

/-- C18 at `a = [1, 2]` of capacity 3 and `b = [1, 3]`: `a < b`. -/
theorem ordering_operators_witness :
    Valid (⟨[some [1, 2, 9], some [1, 3]]⟩ : Heap Int) ⟨2, 3, ⟨some 0⟩⟩ ∧
    Valid (⟨[some [1, 2, 9], some [1, 3]]⟩ : Heap Int) ⟨2, 2, ⟨some 1⟩⟩ ∧
    op_lt (⟨[some [1, 2, 9], some [1, 3]]⟩ : Heap Int) ⟨2, 3, ⟨some 0⟩⟩ ⟨2, 2, ⟨some 1⟩⟩
      = some true ∧
    ∃ lt gt eq : Bool,
      op_lt (⟨[some [1, 2, 9], some [1, 3]]⟩ : Heap Int) ⟨2, 3, ⟨some 0⟩⟩ ⟨2, 2, ⟨some 1⟩⟩
        = some lt ∧
      op_lt (⟨[some [1, 2, 9], some [1, 3]]⟩ : Heap Int) ⟨2, 2, ⟨some 1⟩⟩ ⟨2, 3, ⟨some 0⟩⟩
        = some gt ∧
      op_eq (⟨[some [1, 2, 9], some [1, 3]]⟩ : Heap Int) ⟨2, 3, ⟨some 0⟩⟩ ⟨2, 2, ⟨some 1⟩⟩
        = some eq ∧
      (lt = true ↔ List.Lex (· < ·)
        (contents (⟨[some [1, 2, 9], some [1, 3]]⟩ : Heap Int) ⟨2, 3, ⟨some 0⟩⟩)
        (contents (⟨[some [1, 2, 9], some [1, 3]]⟩ : Heap Int) ⟨2, 2, ⟨some 1⟩⟩)) ∧
      (eq = true ↔ contents (⟨[some [1, 2, 9], some [1, 3]]⟩ : Heap Int) ⟨2, 3, ⟨some 0⟩⟩
        = contents (⟨[some [1, 2, 9], some [1, 3]]⟩ : Heap Int) ⟨2, 2, ⟨some 1⟩⟩) ∧
      op_le (⟨[some [1, 2, 9], some [1, 3]]⟩ : Heap Int) ⟨2, 3, ⟨some 0⟩⟩ ⟨2, 2, ⟨some 1⟩⟩
        = some (lt || eq) ∧
      op_ge (⟨[some [1, 2, 9], some [1, 3]]⟩ : Heap Int) ⟨2, 3, ⟨some 0⟩⟩ ⟨2, 2, ⟨some 1⟩⟩
        = some (gt || eq) ∧
      op_gt (⟨[some [1, 2, 9], some [1, 3]]⟩ : Heap Int) ⟨2, 3, ⟨some 0⟩⟩ ⟨2, 2, ⟨some 1⟩⟩
        = some gt ∧
      op_ne (⟨[some [1, 2, 9], some [1, 3]]⟩ : Heap Int) ⟨2, 3, ⟨some 0⟩⟩ ⟨2, 2, ⟨some 1⟩⟩
        = some (!eq) ∧
      ((lt = true ∧ eq = false ∧ gt = false) ∨ (lt = false ∧ eq = true ∧ gt = false) ∨
        (lt = false ∧ eq = false ∧ gt = true)) :=
  ⟨by decide, by decide, by decide,
    ordering_operators (⟨[some [1, 2, 9], some [1, 3]]⟩ : Heap Int) ⟨2, 3, ⟨some 0⟩⟩
      ⟨2, 2, ⟨some 1⟩⟩ (by decide) (by decide)⟩

/-- C19: for a well-formed vector `v`, `i <= size` and a value read through a
reference outside its storage, `Insert(begin + i, x)` followed by `Erase` at the
returned position `begin + i` is defined and gives a well-formed vector with the
size and the elements of `v`, in the same order; the capacity is that of `v`, or
`max(1, 2 * capacity)` if `v` was full; and the result compares equal with
`operator==` to every well-formed vector `w` with another array that held the
elements of `v` (such as a copy taken before). -/
theorem Insert_then_Erase [Inhabited T] [DecidableEq T] (h : Heap T) (v : SimpleVector)
    (i : Nat) (value : Ref T) (x : T)
    (hv : Valid h v) (hi : i ≤ v.size_) (hx : h.deref value = some x)
    (hout : value.outside v) :
    ∃ h1 v1 h2 v2,
      SimpleVector.Insert h v (v.begin.add i) value = some (h1, v1, v1.begin.add i) ∧
      Erase h1 v1 (v1.begin.add i) = some (h2, v2, v2.begin.add i) ∧
      Valid h2 v2 ∧ v2.size_ = v.size_ ∧
      (∀ k, k < v.size_ → ∃ y, v.index h k = some y ∧ v2.index h2 k = some y) ∧
      elements h2 v2 = elements h v ∧
      (v.size_ < v.capacity_ → v2.capacity_ = v.capacity_) ∧
      (v.size_ = v.capacity_ → v2.capacity_ = max 1 (2 * v.capacity_)) ∧
      ∀ w : SimpleVector, Valid h w → Separate w v → elements h w = elements h v →
        op_eq h2 v2 w = some true ∧ op_eq h2 w v2 = some true := by
  obtain ⟨buf, ho⟩ := (Valid_iff_Owns h v).mp hv
  have hle := ho.1
  obtain ⟨h1, v1, buf1, hins, _, ho1, f1, hs1, hc1, _, hlo, hhi⟩ :=
    Insert_spec h v buf i value x ho hi hx hout
  obtain ⟨h2, buf2, her, ho2, f2, hpt⟩ := Erase_spec h1 v1 buf1 i ho1 (by omega)
  have hs2 : v1.size_ - 1 = v.size_ := by omega
  have helem : ∀ k, k < v.size_ →
      ∃ y, v.index h k = some y ∧
        SimpleVector.index h2 { v1 with size_ := v1.size_ - 1 } k = some y := by
    intro k hk
    obtain ⟨hkb, hke⟩ := Owns_index_lt ho (k := k) (by omega)
    refine ⟨buf[k], hke, ?_⟩
    rw [Owns_index ho2 k, hpt k]
    by_cases hik : i ≤ k
    · rw [if_pos ⟨hik, by omega⟩, hhi (k + 1) (by omega) (by omega)]
      exact List.getElem?_eq_getElem hkb
    · rw [if_neg (by omega), hlo k (by omega)]
      exact List.getElem?_eq_getElem hkb
  have hidx : ∀ k, k < v.size_ →
      SimpleVector.index h2 { v1 with size_ := v1.size_ - 1 } k = v.index h k := by
    intro k hk
    obtain ⟨y, e1, e2⟩ := helem k hk
    rw [e1, e2]
  have hel : elements h2 { v1 with size_ := v1.size_ - 1 } = elements h v :=
    (elements_eq_iff h h2 v { v1 with size_ := v1.size_ - 1 }).mpr ⟨hs2, hidx⟩
  refine ⟨h1, v1, h2, { v1 with size_ := v1.size_ - 1 }, hins, her, Owns_valid ho2, hs2,
    helem, hel, ?_, ?_, ?_⟩
  · intro hcap
    show v1.capacity_ = v.capacity_
    rw [hc1, if_neg (by omega)]
  · intro hfull
    show v1.capacity_ = max 1 (2 * v.capacity_)
    rw [hc1, if_pos hfull]
  · intro w hw hsep hsame
    obtain ⟨hw2, hwidx⟩ := index_of_frame (Frame_trans f1 f2) hw hsep
    obtain ⟨hsw, hiw⟩ := (elements_eq_iff h h v w).mp hsame
    constructor
    · obtain ⟨r, hr, hiff⟩ :=
        op_eq_spec h2 { v1 with size_ := v1.size_ - 1 } w (Owns_valid ho2) hw2
      have hrt : r = true := by
        rw [hiff]
        refine ⟨by simp only; omega, ?_⟩
        intro k hk
        have hk' : k < v.size_ := by simp only at hk; omega
        rw [hidx k hk', hwidx k, hiw k hk']
      rw [hr, hrt]
    · obtain ⟨r, hr, hiff⟩ :=
        op_eq_spec h2 w { v1 with size_ := v1.size_ - 1 } hw2 (Owns_valid ho2)
      have hrt : r = true := by
        rw [hiff]
        refine ⟨by simp only; omega, ?_⟩
        intro k hk
        have hk' : k < v.size_ := by omega
        rw [hidx k hk', hwidx k, hiw k hk']
      rw [hr, hrt]

/-- C19 at the full vector `v = [1, 2]`, inserting 9 at `begin + 1`, in a heap
that also holds a copy `w` of `v` at address 1; the first four parts are the
hypotheses on `v` and the facts that make `w` an instance of the last part. -/
theorem Insert_then_Erase_witness :
    Valid (⟨[some [1, 2], some [1, 2]]⟩ : Heap Int) ⟨2, 2, ⟨some 0⟩⟩ ∧
    Valid (⟨[some [1, 2], some [1, 2]]⟩ : Heap Int) ⟨2, 2, ⟨some 1⟩⟩ ∧
    Separate ⟨2, 2, ⟨some 1⟩⟩ ⟨2, 2, ⟨some 0⟩⟩ ∧
    elements (⟨[some [1, 2], some [1, 2]]⟩ : Heap Int) ⟨2, 2, ⟨some 1⟩⟩
      = elements (⟨[some [1, 2], some [1, 2]]⟩ : Heap Int) ⟨2, 2, ⟨some 0⟩⟩ ∧
    ∃ h1 v1 h2 v2,
      SimpleVector.Insert (⟨[some [1, 2], some [1, 2]]⟩ : Heap Int) ⟨2, 2, ⟨some 0⟩⟩
        ((SimpleVector.begin ⟨2, 2, ⟨some 0⟩⟩).add 1) (.obj 9) = some (h1, v1, v1.begin.add 1) ∧
      Erase h1 v1 (v1.begin.add 1) = some (h2, v2, v2.begin.add 1) ∧
      Valid h2 v2 ∧ v2.size_ = 2 ∧
      (∀ k, k < 2 → ∃ y, SimpleVector.index (⟨[some [1, 2], some [1, 2]]⟩ : Heap Int)
          ⟨2, 2, ⟨some 0⟩⟩ k = some y ∧ v2.index h2 k = some y) ∧
      elements h2 v2 = elements (⟨[some [1, 2], some [1, 2]]⟩ : Heap Int) ⟨2, 2, ⟨some 0⟩⟩ ∧
      (2 < 2 → v2.capacity_ = 2) ∧
      (2 = 2 → v2.capacity_ = max 1 (2 * 2)) ∧
      ∀ w : SimpleVector, Valid (⟨[some [1, 2], some [1, 2]]⟩ : Heap Int) w →
        Separate w ⟨2, 2, ⟨some 0⟩⟩ →
        elements (⟨[some [1, 2], some [1, 2]]⟩ : Heap Int) w
          = elements (⟨[some [1, 2], some [1, 2]]⟩ : Heap Int) ⟨2, 2, ⟨some 0⟩⟩ →
        op_eq h2 v2 w = some true ∧ op_eq h2 w v2 = some true :=
  ⟨by decide, by decide, by decide, by decide,
    Insert_then_Erase (⟨[some [1, 2], some [1, 2]]⟩ : Heap Int) ⟨2, 2, ⟨some 0⟩⟩
      1 (.obj 9) 9 (by decide) (by decide) rfl trivial⟩

/-- C20: for a well-formed vector and a value read through a reference outside
its storage, `Insert(end(), x)` and `PushBack(x)` are both defined and give
states with the same size, the same capacity and the same element at every
index below the new size; they even return the same heap and the same vector,
and the iterator returned by `Insert` is `begin + size` of the old size. -/
theorem Insert_at_end_is_PushBack [Inhabited T] (h : Heap T) (v : SimpleVector)
    (value : Ref T) (x : T)
    (hv : Valid h v) (hx : h.deref value = some x) (hout : value.outside v) :
    ∃ h1 v1 h2 v2,
      SimpleVector.Insert h v v.end_ value = some (h1, v1, v1.begin.add v.size_) ∧
      PushBack h v value = some (h2, v2) ∧
      v1.size_ = v2.size_ ∧ v1.size_ = v.size_ + 1 ∧ v1.capacity_ = v2.capacity_ ∧
      (∀ k, k < v1.size_ → ∃ y, v1.index h1 k = some y ∧ v2.index h2 k = some y) ∧
      h1 = h2 ∧ v1 = v2 := by
  obtain ⟨buf, ho⟩ := (Valid_iff_Owns h v).mp hv
  obtain ⟨h1, v1, buf1, hins, _, ho1, _, hs1, _⟩ :=
    Insert_spec h v buf v.size_ value x ho (le_refl _) hx hout
  have hend : v.begin.add v.size_ = v.end_ := by
    simp [SimpleVector.begin, SimpleVector.end_, Iter.add]
  rw [hend] at hins
  have hpush : PushBack h v value = some (h1, v1) := by
    rw [← Insert_end_eq, hins]
    rfl
  refine ⟨h1, v1, h1, v1, hins, hpush, rfl, hs1, rfl, ?_, rfl, rfl⟩
  intro k hk
  obtain ⟨_, hke⟩ := Owns_index_lt ho1 (k := k) (by have := ho1.1; omega)
  exact ⟨_, hke, hke⟩

/-- C20 at the full vector `[1, 2]`, appending 5. -/
theorem Insert_at_end_is_PushBack_witness :
    Valid (⟨[some [1, 2]]⟩ : Heap Int) ⟨2, 2, ⟨some 0⟩⟩ ∧
    ∃ h1 v1 h2 v2,
      SimpleVector.Insert (⟨[some [1, 2]]⟩ : Heap Int) ⟨2, 2, ⟨some 0⟩⟩
        (SimpleVector.end_ ⟨2, 2, ⟨some 0⟩⟩) (.obj 5) = some (h1, v1, v1.begin.add 2) ∧
      PushBack (⟨[some [1, 2]]⟩ : Heap Int) ⟨2, 2, ⟨some 0⟩⟩ (.obj 5) = some (h2, v2) ∧
      v1.size_ = v2.size_ ∧ v1.size_ = 2 + 1 ∧ v1.capacity_ = v2.capacity_ ∧
      (∀ k, k < v1.size_ → ∃ y, v1.index h1 k = some y ∧ v2.index h2 k = some y) ∧
      h1 = h2 ∧ v1 = v2 :=
  ⟨by decide, Insert_at_end_is_PushBack (⟨[some [1, 2]]⟩ : Heap Int) ⟨2, 2, ⟨some 0⟩⟩ (.obj 5) 5
    (by decide) rfl trivial⟩

end SimpleVectorModel
